import Mathlib

/-!
# Motor controller firmware: schedule evaluation and execution history

A shallow embedding of `src/main/schedule.c` (`add_to_history`, `check_schedules`),
`src/main/motor_control.c` (`motor_on`, `motor_off`), `src/main/storage.c`
(`save_settings`, `load_settings`, `save_history_to_flash`) and the schedule handlers of
`src/main/webserver.c` (`add_schedule_handler`, `delete_schedule_handler`, `url_decode`).

Modelling conventions.

* The global variables of `motor_controller.c` and the `static` cursor of
  `check_schedules` are the fields of `State`; every C function is a function
  `State → State` (or `State → Option State` when it contains a `while` loop).
* A `char[N]` buffer is represented by the C string it holds (the characters before
  the terminating zero, one byte each).  The last byte of the `name`, `start_time` and
  `end_time` buffers is never written by the firmware and is zero in the zero-initialised
  globals, so `strncpy(dst, src, N - 1)` leaves the first `N - 1` characters of `src`.
* The C type `int` is `Int`; no value of the model leaves the 32-bit range.  The operators
  `/` and `%` are applied to non-negative minutes only, where C and Lean agree.
* The two fixed arrays are lists indexed with `List.getD`/`List.set`; the theorems
  assume the lengths `MAX_SCHEDULES` and `MAX_HISTORY`.
* Every function that reads the wall clock takes its reading as an argument: the
  `struct tm` obtained by `time`/`localtime_r` is the argument `timeinfo` of
  `add_to_history`, and `check_schedules` takes a `tick_clock`, which holds its own reading
  and the reading of each `add_to_history` call it makes.  No relation between these
  readings is assumed.
* The NVS library is external.  It is modelled as a key/value map in which every
  `nvs_set_*` stores its value under its key and `nvs_commit` has nothing left to do.
* A read `nvs_get_*` returns what is stored under its key or fails, when nothing of the
  type asked for is stored there, and then leaves its output variable alone.
* A handler receives the request body in one `httpd_req_recv` call.  The local buffer
  `content` of `add_schedule_handler` is given by its initialised bytes: the bytes
  received and the terminator written after them.  Where the C code writes outside an
  array, or reads a byte that lies outside it or is not initialised, the model of the
  handler has no result (`none`).
* GPIO calls and log lines have no effect on the state and are left out, except that
  every `motor_on()`/`motor_off()` call made by `check_schedules` is recorded, with the
  loop variables at the call site, in the ghost field `calls`.
-/

set_option maxRecDepth 1000000

namespace Firmware

/-! ## types.h -/

def MAX_SCHEDULES : Nat := 10

def MAX_HISTORY : Nat := 30

def MAX_NAME_LEN : Nat := 32

/-- The struct `schedule_t`. -/
structure schedule_t where
  enabled : Bool
  hour : Int
  minute : Int
  action : Bool
  start_hour : Int
  start_minute : Int
  end_hour : Int
  end_minute : Int
  repeat_daily : Bool
  name : String
deriving DecidableEq, Repr

/-- The struct `schedule_history_t`. -/
structure schedule_history_t where
  name : String
  start_time : String
  end_time : String
  active : Bool
deriving DecidableEq, Repr

/-- A zero-filled `schedule_t`, as in the zero-initialised global array. -/
instance : Inhabited schedule_t :=
  ⟨{ enabled := false, hour := 0, minute := 0, action := false, start_hour := 0,
     start_minute := 0, end_hour := 0, end_minute := 0, repeat_daily := false, name := "" }⟩

/-- A zero-filled `schedule_history_t`. -/
instance : Inhabited schedule_history_t :=
  ⟨{ name := "", start_time := "", end_time := "", active := false }⟩

/-- The fields of `struct tm` that the firmware reads, as `localtime_r` fills them:
`tm_year` counts from 1900 and `tm_mon` from 0. -/
structure tm where
  tm_year : Nat
  tm_mon : Nat
  tm_mday : Nat
  tm_hour : Nat
  tm_min : Nat
deriving DecidableEq, Repr

/-! ## The NVS key/value store -/

/-- What an NVS entry can hold.  A blob is represented by the struct it was copied from. -/
inductive nvs_value where
  | str (s : String)
  | i32 (v : Int)
  | u8 (v : Nat)
  | blob_schedule (s : schedule_t)
  | blob_history (h : schedule_history_t)
deriving DecidableEq, Repr

/-- The content of the namespace opened as `g_nvs_handle`. -/
abbrev nvs_t := String → Option nvs_value

/-- The common effect of `nvs_set_str`, `nvs_set_i32`, `nvs_set_u8` and `nvs_set_blob`. -/
def nvs_set (nvs : nvs_t) (key : String) (v : nvs_value) : nvs_t :=
  fun k => if k = key then some v else nvs k

/-- The key built by `snprintf(key, sizeof(key), "sched_%d", i)`. -/
def sched_key (i : Nat) : String := "sched_" ++ toString i

/-- The key built by `snprintf(key, sizeof(key), "hist_%d", i)`. -/
def hist_key (i : Nat) : String := "hist_" ++ toString i

/-! ## Global state -/

/-- A call of `motor_on()` or `motor_off()` made by `check_schedules`, with the values of
the loop variables `minute` and `i` at the call site.  Each such call is immediately
followed by the `add_to_history` call for the same schedule. -/
inductive motor_call where
  | on (minute : Int) (i : Nat)
  | off (minute : Int) (i : Nat)
deriving DecidableEq, Repr

/-- The global variables of the firmware, the `static int last_checked_minute` of
`check_schedules`, the NVS content, and the ghost record of motor calls. -/
structure State where
  motor_state : Bool
  schedule_count : Int
  history_count : Int
  device_name : String
  device_location : String
  schedules : List schedule_t
  schedule_history : List schedule_history_t
  last_checked_minute : Int
  nvs : nvs_t
  calls : List motor_call

/-! ## C library helpers -/

/-- The C string left in a zero-terminated destination by `strncpy(dst, src, n)`. -/
def strncpy (src : String) (n : Nat) : String := ⟨src.data.take n⟩

/-- The test `s[0] == 0`. -/
def is_empty_str (s : String) : Bool := s.data.isEmpty

/-- Two decimal digits, as `%m`, `%d`, `%H` and `%M` print them. -/
def pad2 (n : Nat) : List Char := [Char.ofNat (48 + n / 10 % 10), Char.ofNat (48 + n % 10)]

/-- The text of the conversion `"%Y-%m-%d %H:%M"` of a clock reading. -/
def ymdhm_text (t : tm) : List Char :=
  Nat.toDigits 10 (t.tm_year + 1900) ++ '-' :: pad2 (t.tm_mon + 1) ++ '-' :: pad2 t.tm_mday
    ++ ' ' :: pad2 t.tm_hour ++ ':' :: pad2 t.tm_min

/-- The C string in `time_str` after
`strftime(time_str, sizeof(time_str), "%Y-%m-%d %H:%M", &timeinfo)`.  The text fits the
20-byte buffer for every year below 10000000; for later years C leaves the content of the
buffer unspecified, and the model keeps the 19 characters that fit. -/
def strftime_ymdhm (t : tm) : String := ⟨(ymdhm_text t).take 19⟩

/-- The loop `for (k = i; k < i + n; k++) if (p k) break;`: the index at which it breaks,
or `none` when it runs to the end. -/
def for_break (p : Nat → Bool) : Nat → Nat → Option Nat
  | 0, _ => none
  | n + 1, i => if p i then some i else for_break p n (i + 1)

/-! ## motor_control.c -/

/-- The function `motor_on`. -/
def motor_on (st : State) : State := { st with motor_state := true }

/-- The function `motor_off`. -/
def motor_off (st : State) : State := { st with motor_state := false }

/-! ## storage.c -/

/-- The loop of `save_settings` over `i < schedule_count && i < MAX_SCHEDULES`, with `n`
iterations left before `i` reaches `MAX_SCHEDULES`. -/
def save_schedules_loop (schedule_count : Int) (schedules : List schedule_t) :
    Nat → Nat → nvs_t → nvs_t
  | 0, _, nvs => nvs
  | n + 1, i, nvs =>
    if (i : Int) < schedule_count then
      save_schedules_loop schedule_count schedules n (i + 1)
        (nvs_set nvs (sched_key i) (.blob_schedule (schedules.getD i default)))
    else nvs

/-- The function `save_settings`. -/
def save_settings (st : State) : State :=
  let nvs1 := nvs_set st.nvs "device_name" (.str st.device_name)
  let nvs2 := nvs_set nvs1 "device_location" (.str st.device_location)
  let nvs3 := nvs_set nvs2 "sched_count" (.i32 st.schedule_count)
  { st with nvs := save_schedules_loop st.schedule_count st.schedules MAX_SCHEDULES 0 nvs3 }

/-- The loop of `save_history_to_flash` over `i < MAX_HISTORY`. -/
def save_history_loop (history : List schedule_history_t) : Nat → Nat → nvs_t → nvs_t
  | 0, _, nvs => nvs
  | n + 1, i, nvs =>
    save_history_loop history n (i + 1)
      (nvs_set nvs (hist_key i) (.blob_history (history.getD i default)))

/-- The function `save_history_to_flash`. -/
def save_history_to_flash (st : State) : State :=
  let nvs1 := save_history_loop st.schedule_history MAX_HISTORY 0 st.nvs
  { st with nvs := nvs_set nvs1 "hist_count" (.i32 st.history_count) }

/-! ## schedule.c: add_to_history -/

/-- The condition of the first loop: `!schedule_history[i].active &&
schedule_history[i].start_time[0] == 0`. -/
def slot_free (history : List schedule_history_t) (i : Nat) : Bool :=
  !(history.getD i default).active && is_empty_str (history.getD i default).start_time

/-- The condition of the other two loops: `schedule_history[i].active &&
strcmp(schedule_history[i].name, schedule_name) == 0`. -/
def slot_active_named (history : List schedule_history_t) (schedule_name : String)
    (i : Nat) : Bool :=
  (history.getD i default).active && decide ((history.getD i default).name = schedule_name)

/-- The shift loop `for (k = i; k < i + n; k++) memcpy(&h[k], &h[k + 1], ...)`. -/
def shift_history (history : List schedule_history_t) :
    Nat → Nat → List schedule_history_t
  | 0, _ => history
  | n + 1, i => shift_history (history.set i (history.getD (i + 1) default)) n (i + 1)

/-- The record written by the `"ON"` branch. -/
def new_record (schedule_name time_str : String) : schedule_history_t :=
  { name := strncpy schedule_name (MAX_NAME_LEN - 1)
    start_time := strncpy time_str 19
    end_time := ""
    active := true }

/-- The `"ON"` branch of `add_to_history` (lines 44-73). -/
def history_on (time_str schedule_name : String) (st : State) : State :=
  let found := for_break (slot_free st.schedule_history) MAX_HISTORY 0
  let history1 :=
    match found with
    | some _ => st.schedule_history
    | none => shift_history st.schedule_history (MAX_HISTORY - 1) 0
  let index :=
    match found with
    | some i => i
    | none => MAX_HISTORY - 1
  let already_active := (for_break (slot_active_named history1 schedule_name) MAX_HISTORY 0).isSome
  if !already_active then
    { st with
      schedule_history := history1.set index (new_record schedule_name time_str)
      history_count :=
        if st.history_count < MAX_HISTORY then st.history_count + 1 else st.history_count }
  else
    { st with schedule_history := history1 }

/-- The `"OFF"` branch of `add_to_history` (lines 75-81). -/
def history_off (time_str schedule_name : String) (st : State) : State :=
  match for_break (slot_active_named st.schedule_history schedule_name) MAX_HISTORY 0 with
  | some i =>
    { st with
      schedule_history :=
        st.schedule_history.set i
          { (st.schedule_history.getD i default) with
            end_time := strncpy time_str 19
            active := false } }
  | none => st

/-- The function `add_to_history`; `timeinfo` is the clock reading of its first lines. -/
def add_to_history (timeinfo : tm) (schedule_name action : String) (st : State) : State :=
  let time_str := strftime_ymdhm timeinfo
  save_history_to_flash
    (if action = "ON" then history_on time_str schedule_name st
     else if action = "OFF" then history_off time_str schedule_name st
     else st)

/-! ## schedule.c: check_schedules -/

/-- The clock readings of one call of `check_schedules`: `timeinfo` is the reading of its
first lines (lines 104-105), and `at_call c` is the reading that `add_to_history` takes in
its own first lines (lines 35-41) when it is called after the motor call `c`.  Within one
call of `check_schedules` a motor call is made at most once for each minute, index and
kind, so `at_call` can hold any readings. -/
structure tick_clock where
  timeinfo : tm
  at_call : motor_call → tm

/-- The readings of a call of `check_schedules` during which the clock reads `t`
throughout. -/
def steady (t : tm) : tick_clock := { timeinfo := t, at_call := fun _ => t }

/-- The body of the `for` loop of `check_schedules` for one schedule index `i`
(lines 122-136). -/
def schedule_step (readings : tick_clock) (minute : Int) (i : Nat) (st : State) : State :=
  let hour := minute / 60
  let min := minute % 60
  if !(st.schedules.getD i default).enabled then st
  else
    let st1 :=
      if (st.schedules.getD i default).start_hour = hour
          ∧ (st.schedules.getD i default).start_minute = min then
        add_to_history (readings.at_call (motor_call.on minute i))
          (st.schedules.getD i default).name "ON"
          { motor_on st with calls := st.calls ++ [motor_call.on minute i] }
      else st
    if (st1.schedules.getD i default).end_hour = hour
        ∧ (st1.schedules.getD i default).end_minute = min then
      let st2 :=
        add_to_history (readings.at_call (motor_call.off minute i))
          (st1.schedules.getD i default).name "OFF"
          { motor_off st1 with calls := st1.calls ++ [motor_call.off minute i] }
      if !(st2.schedules.getD i default).repeat_daily then
        save_settings
          { st2 with
            schedules :=
              st2.schedules.set i { (st2.schedules.getD i default) with enabled := false } }
      else st2
    else st1

/-- The loop `for (int i = 0; i < schedule_count && i < MAX_SCHEDULES; i++)`, with `n`
iterations left before `i` reaches `MAX_SCHEDULES`. -/
def schedule_loop (readings : tick_clock) (minute : Int) : Nat → Nat → State → State
  | 0, _, st => st
  | n + 1, i, st =>
    if (i : Int) < st.schedule_count then
      schedule_loop readings minute n (i + 1) (schedule_step readings minute i st)
    else st

/-- The loop `while (minute != (current_minute_of_day + 1) % (24 * 60))` with a bound
`fuel` on the number of iterations; `none` when the bound is reached before the loop
exits.  `target` is the value the loop condition compares with. -/
def minute_loop (readings : tick_clock) (target : Int) : Nat → Int → State → Option State
  | 0, minute, st => if minute = target then some st else none
  | fuel + 1, minute, st =>
    if minute = target then some st
    else
      minute_loop readings target fuel ((minute + 1) % (24 * 60))
        (schedule_loop readings minute MAX_SCHEDULES 0 st)

/-- The function `check_schedules`, run with at most `fuel` iterations of its `while`
loop; `readings` holds the clock reading of its first lines and those of the
`add_to_history` calls. -/
def check_schedules_fuel (fuel : Nat) (readings : tick_clock) (st : State) : Option State :=
  let current_minute_of_day : Int :=
    (readings.timeinfo.tm_hour : Int) * 60 + (readings.timeinfo.tm_min : Int)
  if st.last_checked_minute = -1 then
    some { st with last_checked_minute := current_minute_of_day }
  else
    (minute_loop readings ((current_minute_of_day + 1) % (24 * 60)) fuel
        ((st.last_checked_minute + 1) % (24 * 60)) st).map
      (fun st1 => { st1 with last_checked_minute := current_minute_of_day })

/-- The function `check_schedules`.  One pass over the minutes of a day is all the loop
can make, so 1440 iterations are enough: see `check_schedules_eq`. -/
def check_schedules (readings : tick_clock) (st : State) : Option State :=
  check_schedules_fuel (24 * 60) readings st

/-- The state after `app_main` on a device with empty flash, before the first call of
`check_schedules`, with the given schedule table. -/
def boot_state (schedule_count : Int) (schedules : List schedule_t) : State :=
  { motor_state := false
    schedule_count := schedule_count
    history_count := 0
    device_name := "Motor Controller"
    device_location := "Green House"
    schedules := schedules
    schedule_history := List.replicate MAX_HISTORY default
    last_checked_minute := -1
    nvs := fun _ => none
    calls := [] }


/-! ## Specification vocabulary -/

/-- The test of line 123 at loop minute `m`: the start boundary of `s` is at minute `m`. -/
def starts_at (s : schedule_t) (m : Int) : Prop :=
  s.start_hour = m / 60 ∧ s.start_minute = m % 60

/-- The test of line 128 at loop minute `m`: the end boundary of `s` is at minute `m`. -/
def ends_at (s : schedule_t) (m : Int) : Prop :=
  s.end_hour = m / 60 ∧ s.end_minute = m % 60

instance (s : schedule_t) (m : Int) : Decidable (starts_at s m) := by
  unfold starts_at; infer_instance

instance (s : schedule_t) (m : Int) : Decidable (ends_at s m) := by
  unfold ends_at; infer_instance

/-- The motor calls that one pass of the loop body makes for schedule `s` at index `i`. -/
def step_calls (m : Int) (i : Nat) (s : schedule_t) : List motor_call :=
  if s.enabled then
    (if starts_at s m then [motor_call.on m i] else [])
      ++ (if ends_at s m then [motor_call.off m i] else [])
  else []

/-- The schedule left in the table by one pass of the loop body. -/
def step_schedule (m : Int) (s : schedule_t) : schedule_t :=
  if s.enabled = true ∧ ends_at s m ∧ s.repeat_daily = false then { s with enabled := false }
  else s

/-- The motor calls of one run of the `for` loop at minute `m`, from index `i`, with `n`
indices left. -/
def loop_calls (m : Int) (schedule_count : Int) (schedules : List schedule_t) :
    Nat → Nat → List motor_call
  | 0, _ => []
  | n + 1, i =>
    if (i : Int) < schedule_count then
      step_calls m i (schedules.getD i default) ++ loop_calls m schedule_count schedules n (i + 1)
    else []

/-- The schedule table after one run of the `for` loop at minute `m`. -/
def loop_schedules (m : Int) (schedule_count : Int) :
    Nat → Nat → List schedule_t → List schedule_t
  | 0, _, l => l
  | n + 1, i, l =>
    if (i : Int) < schedule_count then
      loop_schedules m schedule_count n (i + 1) (l.set i (step_schedule m (l.getD i default)))
    else l

/-- The minutes visited by `d` iterations of the `while` loop that starts at minute `x`. -/
def scanned_minutes (x : Int) (d : Nat) : List Int :=
  (List.range d).map (fun (k : Nat) => (x + (k : Int)) % (24 * 60))

/-- The body of the `while` loop at minute `m` (lines 119-137). -/
def minute_step (readings : tick_clock) (st : State) (m : Int) : State :=
  schedule_loop readings m MAX_SCHEDULES 0 st

/-- The minute `m` lies in the circular range `c + 1 .. n` of minutes of the day. -/
def in_scanned_range (c n m : Int) : Prop :=
  0 ≤ m ∧ m < 24 * 60 ∧ 1 ≤ (m - c) % (24 * 60) ∧ (m - c) % (24 * 60) ≤ (n - c) % (24 * 60)

instance (c n m : Int) : Decidable (in_scanned_range c n m) := by
  unfold in_scanned_range; infer_instance

/-- The number of loop iterations of a tick at minute `n` with the cursor at `c`. -/
def gap (c n : Int) : Nat := ((n - c) % (24 * 60)).toNat

/-- The `current_minute_of_day` computed from a clock reading. -/
def minute_of_day (timeinfo : tm) : Int := (timeinfo.tm_hour : Int) * 60 + (timeinfo.tm_min : Int)

/-- The schedule index recorded with a motor call. -/
def motor_call.index : motor_call → Nat
  | .on _ i => i
  | .off _ i => i

/-- The schedule table after the loop body has run at the minutes `ms`, in this order. -/
def scan_schedules (schedule_count : Int) (ms : List Int) (l : List schedule_t) :
    List schedule_t :=
  ms.foldl (fun l m => loop_schedules m schedule_count MAX_SCHEDULES 0 l) l

/-- The motor calls made while the loop body runs at the minutes `ms`, in this order. -/
def scan_calls (schedule_count : Int) : List Int → List schedule_t → List motor_call
  | [], _ => []
  | m :: ms, l =>
    loop_calls m schedule_count l MAX_SCHEDULES 0
      ++ scan_calls schedule_count ms (loop_schedules m schedule_count MAX_SCHEDULES 0 l)

/-- One schedule followed through the minutes `ms`. -/
def run_schedule (ms : List Int) (s : schedule_t) : schedule_t :=
  ms.foldl (fun s m => step_schedule m s) s

/-- The motor calls made for the schedule at index `i` through the minutes `ms`. -/
def run_calls (i : Nat) : List Int → schedule_t → List motor_call
  | [], _ => []
  | m :: ms, s => step_calls m i s ++ run_calls i ms (step_schedule m s)

/-- The minute of the day of the end boundary of `s`. -/
def end_minute_of_day (s : schedule_t) : Int := s.end_hour * 60 + s.end_minute

/-- The end boundary of `s` is at a minute that a tick with the cursor at `c` scans
strictly before the minute `m`. -/
def end_scanned_before (s : schedule_t) (c m : Int) : Prop :=
  ∃ e : Int, ends_at s e ∧ 0 ≤ e ∧ e < 24 * 60
    ∧ 1 ≤ (e - c) % (24 * 60) ∧ (e - c) % (24 * 60) < (m - c) % (24 * 60)

/-- Schedule `i` is looked at by the `for` loop and is enabled in state `st`. -/
def live (st : State) (i : Nat) : Prop :=
  i < MAX_SCHEDULES ∧ (i : Int) < st.schedule_count
    ∧ (st.schedules.getD i default).enabled = true

instance (st : State) (i : Nat) : Decidable (live st i) := by
  unfold live; infer_instance

/-! ## Example data -/

/-- A schedule with the given name, times and repeat flag, as `add_schedule_handler`
stores it. -/
def mk_schedule (name : String) (sh sm eh em : Int) (repeat_daily : Bool) : schedule_t :=
  { enabled := true, hour := 0, minute := 0, action := false, start_hour := sh,
    start_minute := sm, end_hour := eh, end_minute := em, repeat_daily := repeat_daily,
    name := name }

/-- The schedule table that holds the one schedule `s`. -/
def single_table (s : schedule_t) : List schedule_t := s :: List.replicate 9 default

/-- A clock reading on 2025-07-08 at the given hour and minute. -/
def clock (h m : Nat) : tm := { tm_year := 125, tm_mon := 6, tm_mday := 8, tm_hour := h, tm_min := m
    }

/-- A clock reading on the next day, 2025-07-09. -/
def clock_next_day (h m : Nat) : tm :=
  { tm_year := 125, tm_mon := 6, tm_mday := 9, tm_hour := h, tm_min := m }

/-- A freshly booted device whose table holds one schedule, after its first tick at
05:59. -/
def state_at_0559 (s : schedule_t) : State :=
  { boot_state 1 (single_table s) with last_checked_minute := 359 }

/-- The catch-up property in the words of the specification, for one tick: each start or
end boundary of a schedule that is enabled when the tick begins fires exactly once when
its minute lies in the scanned range, and nothing else fires. -/
def catch_up_as_stated (t : tick_clock) (st : State) : Prop :=
  ∃ st' fired, check_schedules t st = some st' ∧ st'.calls = st.calls ++ fired
    ∧ ∀ (i : Nat) (m : Int),
      ((live st i ∧ starts_at (st.schedules.getD i default) m
          ∧ in_scanned_range st.last_checked_minute (minute_of_day t.timeinfo) m →
        fired.count (motor_call.on m i) = 1)
      ∧ (¬ (live st i ∧ starts_at (st.schedules.getD i default) m
          ∧ in_scanned_range st.last_checked_minute (minute_of_day t.timeinfo) m) →
        fired.count (motor_call.on m i) = 0))
      ∧ ((live st i ∧ ends_at (st.schedules.getD i default) m
          ∧ in_scanned_range st.last_checked_minute (minute_of_day t.timeinfo) m →
        fired.count (motor_call.off m i) = 1)
      ∧ (¬ (live st i ∧ ends_at (st.schedules.getD i default) m
          ∧ in_scanned_range st.last_checked_minute (minute_of_day t.timeinfo) m) →
        fired.count (motor_call.off m i) = 0))

/-- A sequence of `add_to_history` calls, each with its clock reading, name and action. -/
def history_run (calls : List (tm × String × String)) (st : State) : State :=
  calls.foldl (fun s c => add_to_history c.1 c.2.1 c.2.2 s) st

/-- A clock reading on day `d` of July 2025. -/
def clock_on_day (d h m : Nat) : tm :=
  { tm_year := 125, tm_mon := 6, tm_mday := d, tm_hour := h, tm_min := m }

/-- One activation at 06:00 and one deactivation at 06:30 on each of the days
`1, ..., n` of July 2025, named by `name` applied to the day. -/
def daily_pairs (name : Nat → String) (n : Nat) : List (tm × String × String) :=
  (List.range n).flatMap (fun k =>
    [(clock_on_day (k + 1) 6 0, name (k + 1), "ON"), (clock_on_day (k + 1) 6 30, name (k + 1),
        "OFF")])

/-- The device with an empty ledger and an empty schedule table. -/
def empty_state : State := boot_state 0 (List.replicate MAX_SCHEDULES default)

/-- No two entries of the ledger with the same name are both active. -/
def mutually_exclusive (history : List schedule_history_t) : Prop :=
  ∀ i j : Nat, i < j → j < MAX_HISTORY →
    ¬ ((history.getD i default).active = true ∧ (history.getD j default).active = true
        ∧ (history.getD i default).name = (history.getD j default).name)

/-- The ledger after the schedule "Zone1" has run on 29 days and the motor has then been
switched on by hand: 29 closed records and one active record "Manual Control" in slot 29. -/
def full_ledger_state : State :=
  history_run (daily_pairs (fun _ => "Zone1") 29 ++ [(clock_on_day 30 9 0, "Manual Control", "ON")])
    empty_state

/-- The `recordStart` contract in the words of the specification, for one call: the
lowest-index free slot receives the given name, the formatted current timestamp, an empty
end time and `active = true`, and every other slot is unchanged. -/
def record_start_as_stated (t : tm) (name : String) (st : State) : Prop :=
  ∃ j, j < MAX_HISTORY ∧ slot_free st.schedule_history j = true
    ∧ (∀ k, k < j → slot_free st.schedule_history k = false)
    ∧ (add_to_history t name "ON" st).schedule_history
        = st.schedule_history.set j
            { name := name, start_time := strftime_ymdhm t, end_time := "", active := true }

/-- A name of 32 characters. -/
def long_name : String := ⟨List.replicate 32 'A'⟩

/-- The schedule of the concrete scenarios: "Zone1", 06:00-06:30, enabled. -/
def zone1 (repeat_daily : Bool) : schedule_t := mk_schedule "Zone1" 6 0 6 30 repeat_daily

/-- A freshly booted device (empty ledger, cursor unset) whose table holds `zone1`. -/
def zone1_boot (repeat_daily : Bool) : State := boot_state 1 (single_table (zone1 repeat_daily))

/-- Slot `i` of the schedule table and the schedule count are in the store as they are in
memory. -/
def persisted (i : Nat) (st : State) : Prop :=
  st.nvs (sched_key i) = some (.blob_schedule (st.schedules.getD i default))
    ∧ st.nvs "sched_count" = some (.i32 st.schedule_count)

/-- The loop body at `(m, j)` reaches the lines that disable the schedule and save. -/
def disables (st : State) (m : Int) (j : Nat) : Prop :=
  (st.schedules.getD j default).enabled = true ∧ ends_at (st.schedules.getD j default) m
    ∧ (st.schedules.getD j default).repeat_daily = false

instance (st : State) (m : Int) (j : Nat) : Decidable (disables st m j) := by
  unfold disables; infer_instance

/-! ## storage.c: load_settings -/

/-- The call `nvs_get_str(handle, key, out, &size)` with `size` the capacity of `out`: the
C string in `out` afterwards, `cur` being its content before.  The call fails, and leaves
`out` alone, when the key holds no string or the string and its terminator do not fit. -/
def nvs_get_str (nvs : nvs_t) (key : String) (size : Nat) (cur : String) : String :=
  match nvs key with
  | some (.str s) => if s.length + 1 ≤ size then s else cur
  | _ => cur

/-- The call `nvs_get_i32(handle, key, &out)`: the value of `out` afterwards.  The call
fails, and leaves `out` alone, when the key holds no 32-bit integer. -/
def nvs_get_i32 (nvs : nvs_t) (key : String) (cur : Int) : Int :=
  match nvs key with
  | some (.i32 v) => v
  | _ => cur

/-- The call `nvs_get_blob(handle, key, &schedules[i], &size)` with `size` the size of
`schedule_t`: the schedule read, or `none` when the call does not return `ESP_OK` (no
entry under the key, or one that is not a blob of that size). -/
def nvs_get_blob_schedule (nvs : nvs_t) (key : String) : Option schedule_t :=
  match nvs key with
  | some (.blob_schedule s) => some s
  | _ => none

/-- The loop of `load_settings` over `i < schedule_count && i < MAX_SCHEDULES`, with `n`
iterations left before `i` reaches `MAX_SCHEDULES`. -/
def load_schedules_loop (nvs : nvs_t) (schedule_count : Int) :
    Nat → Nat → List schedule_t → List schedule_t
  | 0, _, l => l
  | n + 1, i, l =>
    if (i : Int) < schedule_count then
      load_schedules_loop nvs schedule_count n (i + 1)
        (match nvs_get_blob_schedule nvs (sched_key i) with
         | some s => l.set i s
         | none => l.set i { (l.getD i default) with enabled := false })
    else l

/-- The function `load_settings`. -/
def load_settings (st : State) : State :=
  let device_name := nvs_get_str st.nvs "device_name" MAX_NAME_LEN st.device_name
  let device_location := nvs_get_str st.nvs "device_loc" MAX_NAME_LEN st.device_location
  let read_count := nvs_get_i32 st.nvs "sched_count" st.schedule_count
  let schedule_count := if read_count < 0 ∨ read_count > MAX_SCHEDULES then 0 else read_count
  { st with
    device_name := device_name
    device_location := device_location
    schedule_count := schedule_count
    schedules := load_schedules_loop st.nvs schedule_count MAX_SCHEDULES 0 st.schedules }

/-! ## webserver.c: request parsing -/

/-- The two values of `esp_err_t` that the handlers return. -/
inductive esp_err_t where
  | ESP_OK
  | ESP_FAIL
deriving DecidableEq, Repr

/-- What a handler sends back: the status "302 Found" with a `Location` header and an empty
body, `httpd_resp_send_err(req, HTTPD_400_BAD_REQUEST, message)`, or
`httpd_resp_send_500(req)`. -/
inductive http_response where
  | found (location : String)
  | bad_request (message : String)
  | internal_error
deriving DecidableEq, Repr

/-- The part of `httpd_req_t` that the handlers use: the body of the request (`content_len`
is its length), and whether `httpd_req_recv` fails on it. -/
structure httpd_req_t where
  content : List Char
  recv_error : Bool

/-- The outcome of a handler: its return value, the response sent and the globals. -/
structure handler_result where
  err : esp_err_t
  response : http_response
  state : State

/-- The C string at the start of a buffer: the bytes before the first zero. -/
def c_str (bytes : List Char) : List Char := bytes.takeWhile (fun c => c != Char.ofNat 0)

/-- The return value of `httpd_req_recv(req, content, recv_size)`: all the bytes asked for,
or a negative error code. -/
def httpd_req_recv (req : httpd_req_t) (recv_size : Nat) : Int :=
  if req.recv_error then -1 else recv_size

/-- The C string in the buffer `content` of `size` bytes after the receive and the write of
the terminator: at most `size - 1` bytes of the body are asked for. -/
def received_content (req : httpd_req_t) (size : Nat) : List Char :=
  c_str (req.content.take (min req.content.length (size - 1)))

/-- The initialised bytes of the buffer `content` of `size` bytes after the receive and the
write of the terminator: the bytes received, at most `size - 1` of the body, and the zero
written after them.  The bytes of the buffer behind that zero are not initialised. -/
def received_buffer (req : httpd_req_t) (size : Nat) : List Char :=
  req.content.take (min req.content.length (size - 1)) ++ [Char.ofNat 0]

/-- The successive results of `strtok_r(content, "&", &saveptr)` over the initialised bytes
of the buffer; `cur` is the token being read, in reverse.  Each token is given as the memory
from its first byte on, as it is when the token is returned: the characters of the token,
the zero that ends it (written over the delimiter by `strtok_r`, or the zero that ends the
content) and the bytes behind that zero, which no later call has changed yet.  The scan
ends at the first zero. -/
def strtok_all (delim : Char) : List Char → List Char → List (List Char)
  | [], cur => if cur.isEmpty then [] else [cur.reverse]
  | c :: cs, cur =>
    if c = Char.ofNat 0 then (if cur.isEmpty then [] else [cur.reverse ++ c :: cs])
    else if c = delim then
      (if cur.isEmpty then strtok_all delim cs []
       else (cur.reverse ++ Char.ofNat 0 :: cs) :: strtok_all delim cs [])
    else strtok_all delim cs (c :: cur)

/-- The value of a hexadecimal digit. -/
def hex_value (c : Char) : Option Nat :=
  if '0' ≤ c ∧ c ≤ '9' then some (c.toNat - 48)
  else if 'a' ≤ c ∧ c ≤ 'f' then some (c.toNat - 87)
  else if 'A' ≤ c ∧ c ≤ 'F' then some (c.toNat - 55)
  else none

/-- The test `isspace`. -/
def is_space (c : Char) : Bool :=
  c == ' ' || (9 ≤ c.toNat && c.toNat ≤ 13)

/-- The byte `(char)strtol(code, NULL, 16)` for the buffer `code` that holds the characters
`a` and `b`: `strtol` skips white space, takes a sign and converts the hexadecimal digits
that follow. -/
def strtol_hex2 (a b : Char) : Nat :=
  match hex_value a with
  | some x =>
    (match hex_value b with
     | some y => 16 * x + y
     | none => x)
  | none =>
    if is_space a || a == '+' then (hex_value b).getD 0
    else if a == '-' then (256 - (hex_value b).getD 0) % 256
    else 0

/-- The bytes that `url_decode` writes to `dst` before the terminator, for a string `src`
given by its characters, whose terminator is the last initialised byte of its buffer.  A
`%` with fewer than two characters after it makes the function step past that terminator
and test a byte that is not initialised; the model has no value for that (`none`).
`url_decode_mem` is the same loop over a string with initialised bytes behind it. -/
def url_decode_bytes : List Char → Option (List Char)
  | [] => some []
  | c :: rest =>
    if c = '%' then
      (match rest with
       | a :: b :: rest2 => (url_decode_bytes rest2).map (fun l => Char.ofNat (strtol_hex2 a b) ::
           l)
       | _ => none)
    else if c = '+' then (url_decode_bytes rest).map (fun l => ' ' :: l)
    else (url_decode_bytes rest).map (fun l => c :: l)

/-- The call `url_decode(dst, src)` for a destination buffer of `size` bytes: the C string
in `dst` afterwards.  The function has no bound on what it writes; `none` when the bytes
written and the terminator do not fit the buffer. -/
def url_decode (size : Nat) (src : List Char) : Option String :=
  match url_decode_bytes src with
  | some bytes => if bytes.length + 1 ≤ size then some ⟨c_str bytes⟩ else none
  | none => none

/-- The bytes that `url_decode` writes to `dst` before the terminator, read from the
initialised bytes `mem` that start at `src`.  The loop ends at the first zero.  A `%` takes
the two bytes after it as `code`, whatever they are (`strtol` stops at a zero among them),
and the loop goes on at the third byte after the `%`: for a `%` with fewer than two
characters before the terminator that is a byte behind the terminator.  The model has no
value (`none`) when the loop reads a byte behind the initialised ones. -/
def url_decode_mem : List Char → Option (List Char)
  | [] => none
  | c :: rest =>
    if c = Char.ofNat 0 then some []
    else if c = '%' then
      (match rest with
       | a :: b :: rest2 => (url_decode_mem rest2).map (fun l => Char.ofNat (strtol_hex2 a b) :: l)
       | _ => none)
    else if c = '+' then (url_decode_mem rest).map (fun l => ' ' :: l)
    else (url_decode_mem rest).map (fun l => c :: l)

/-- The call `url_decode(dst, src)` for a destination buffer of `size` bytes and the
initialised bytes `mem` that start at `src`: the C string in `dst` afterwards; `none` when
the bytes written and the terminator do not fit the buffer. -/
def url_decode_into (size : Nat) (mem : List Char) : Option String :=
  match url_decode_mem mem with
  | some bytes => if bytes.length + 1 ≤ size then some ⟨c_str bytes⟩ else none
  | none => none

/-- The number that a run of decimal digits denotes. -/
def digits_value (ds : List Char) : Nat :=
  ds.foldl (fun acc c => 10 * acc + (c.toNat - 48)) 0

/-- The conversion `%d` of `sscanf`: white space is skipped, a sign and at least one digit
are read, and the value is what `strtol` gives, limited to the range of `int`.  The
result is the value and the rest of the input, `none` on a matching failure. -/
def scan_int (s : List Char) : Option (Int × List Char) :=
  let s1 := s.dropWhile is_space
  let s2 := if s1.head? = some '-' ∨ s1.head? = some '+' then s1.tail else s1
  let ds := s2.takeWhile Char.isDigit
  if ds.isEmpty then none
  else
    some (if s1.head? = some '-' then max (-(digits_value ds : Int)) (-2147483648)
          else min (digits_value ds : Int) 2147483647,
      s2.dropWhile Char.isDigit)

/-- The call `sscanf(s, "%d:%d", &hour, &minute)`: the two values when it returns 2. -/
def sscanf_hour_minute (s : List Char) : Option (Int × Int) :=
  match scan_int s with
  | some (h, r) =>
    (match r with
     | c :: r2 => if c = ':' then (scan_int r2).map (fun p => (h, p.1)) else none
     | [] => none)
  | none => none

/-- The call `sscanf(content, "index=%d", &index)`: the value when it returns 1. -/
def sscanf_index (content : List Char) : Option Int :=
  if "index=".data.isPrefixOf content then (scan_int (content.drop 6)).map (fun p => p.1)
  else none

/-! ## webserver.c: add_schedule_handler and delete_schedule_handler -/

/-- The local buffers `name`, `start_time`, `end_time` and the flag `repeat_daily` of
`add_schedule_handler`. -/
structure schedule_form where
  name : String
  start_time : String
  end_time : String
  repeat_daily : Bool
deriving DecidableEq, Repr

/-- One pass of the parsing loop of `add_schedule_handler` (lines 939-948) for a token given
as the memory from its first byte on; `none` when `url_decode` writes beyond its
destination or reads beyond the initialised bytes of `content`. -/
def parse_token (form : schedule_form) (token : List Char) : Option schedule_form :=
  if "name=".data.isPrefixOf token then
    (url_decode_into MAX_NAME_LEN (token.drop 5)).map (fun s => { form with name := s })
  else if "start_time=".data.isPrefixOf token then
    (url_decode_into 10 (token.drop 11)).map (fun s => { form with start_time := s })
  else if "end_time=".data.isPrefixOf token then
    (url_decode_into 10 (token.drop 9)).map (fun s => { form with end_time := s })
  else if "repeat_daily=1".data.isPrefixOf token then
    some { form with repeat_daily := true }
  else some form

/-- The parsing loop of `add_schedule_handler` over the tokens of the buffer `content`, given
by its initialised bytes. -/
def parse_form (content : List Char) : Option schedule_form :=
  (strtok_all '&' content []).foldl (fun f token => f.bind (fun form => parse_token form token))
    (some { name := "", start_time := "", end_time := "", repeat_daily := false })

/-- The schedule written to `schedules[schedule_count]` (lines 969-978). -/
def new_schedule (name : String) (sh sm eh em : Int) (repeat_daily : Bool) : schedule_t :=
  { enabled := true, hour := 0, minute := 0, action := false, start_hour := sh,
    start_minute := sm, end_hour := eh, end_minute := em, repeat_daily := repeat_daily,
    name := strncpy name (MAX_NAME_LEN - 1) }

/-- The validation and the store of `add_schedule_handler` (lines 952-1000), for the form
read from the request; `none` when the new schedule is written at a negative index. -/
def validate_and_add (form : schedule_form) (st : State) : Option handler_result :=
  let invalid : handler_result :=
    { err := .ESP_FAIL, response := .bad_request "Invalid schedule data", state := st }
  if 0 < form.name.length ∧ form.name.length < MAX_NAME_LEN
      ∧ 5 ≤ form.start_time.length ∧ 5 ≤ form.end_time.length then
    match sscanf_hour_minute form.start_time.data, sscanf_hour_minute form.end_time.data with
    | some (sh, sm), some (eh, em) =>
      if 0 ≤ sh ∧ sh ≤ 23 ∧ 0 ≤ sm ∧ sm ≤ 59 ∧ 0 ≤ eh ∧ eh ≤ 23 ∧ 0 ≤ em ∧ em ≤ 59 then
        if st.schedule_count < 0 then none
        else
          some
            { err := .ESP_OK, response := .found "/schedules",
              state := save_settings
                { st with
                  schedules := st.schedules.set st.schedule_count.toNat
                    (new_schedule form.name sh sm eh em form.repeat_daily)
                  schedule_count := st.schedule_count + 1 } }
      else some invalid
    | _, _ => some invalid
  else some invalid

/-- The function `add_schedule_handler`.  The result is `none` when the C function writes
outside an array or reads bytes that are not initialised: `url_decode` beyond a local
buffer or behind the content received, or the new schedule at a negative index. -/
def add_schedule_handler (req : httpd_req_t) (st : State) : Option handler_result :=
  if st.schedule_count ≥ MAX_SCHEDULES then
    some { err := .ESP_FAIL, response := .bad_request "Maximum 10 schedules allowed", state := st }
  else if httpd_req_recv req (min req.content.length (512 - 1)) ≤ 0 then
    some { err := .ESP_FAIL, response := .internal_error, state := st }
  else (parse_form (received_buffer req 512)).bind (fun form => validate_and_add form st)

/-- The loop `for (k = i; k < i + n; k++) memcpy(&schedules[k], &schedules[k + 1], ...)` of
`delete_schedule_handler`. -/
def shift_schedules (schedules : List schedule_t) : Nat → Nat → List schedule_t
  | 0, _ => schedules
  | n + 1, i => shift_schedules (schedules.set i (schedules.getD (i + 1) default)) n (i + 1)

/-- The function `delete_schedule_handler`.  The result is `none` when the shift loop reads
beyond the array, which takes a `schedule_count` above `MAX_SCHEDULES`. -/
def delete_schedule_handler (req : httpd_req_t) (st : State) : Option handler_result :=
  if httpd_req_recv req (min req.content.length (32 - 1)) ≤ 0 then
    some { err := .ESP_FAIL, response := .internal_error, state := st }
  else
    match sscanf_index (received_content req 32) with
    | some index =>
      if 0 ≤ index ∧ index < st.schedule_count then
        if st.schedule_count > MAX_SCHEDULES ∧ index < st.schedule_count - 1 then none
        else
          some { err := .ESP_OK, response := .found "/schedules",
                 state := save_settings
                   { st with
                     schedules := shift_schedules st.schedules
                       (st.schedule_count - 1 - index).toNat index.toNat
                     schedule_count := st.schedule_count - 1 } }
      else some { err := .ESP_OK, response := .found "/schedules", state := st }
    | none => some { err := .ESP_OK, response := .found "/schedules", state := st }

/-- The text `HH:MM` of a time of day, two digits each. -/
def hhmm (h m : Nat) : String := ⟨pad2 h ++ ':' :: pad2 m⟩

/-- A request with the given body that `httpd_req_recv` delivers. -/
def post (body : String) : httpd_req_t := { content := body.data, recv_error := false }

/-- Three schedules "A", "B" and "C" in the table. -/
def three_schedules : State :=
  boot_state 3
    (mk_schedule "A" 6 0 6 30 true :: mk_schedule "B" 7 0 7 30 true
      :: mk_schedule "C" 8 0 8 30 true :: List.replicate 7 default)

/-- A store with the count 2, the schedule `zone1 true` under `sched_0` and nothing under
`sched_1`, on a freshly booted device. -/
def partial_store : State :=
  { empty_state with
    nvs := nvs_set (nvs_set (fun _ => none) "sched_count" (.i32 2))
      (sched_key 0) (.blob_schedule (zone1 true)) }

/-- A device named "Pump A" at the location "Field 7", with no schedule. -/
def renamed_device : State :=
  { empty_state with device_name := "Pump A", device_location := "Field 7" }

/-! ## Vocabulary for the comparison of ledgers and for the order of the motor calls -/

/-- A ledger entry with each timestamp reduced to whether it is set: the name, the active
flag, and whether `start_time` and `end_time` are empty. -/
def entry_shape (e : schedule_history_t) : schedule_history_t :=
  { name := e.name
    start_time := if is_empty_str e.start_time then "" else "set"
    end_time := if is_empty_str e.end_time then "" else "set"
    active := e.active }

/-- The ledger, timestamps aside. -/
def ledger_shape (history : List schedule_history_t) : List schedule_history_t :=
  history.map entry_shape

/-- Two states agree in `motor_state`, the schedule table, the counts, the recorded motor
calls and the ledger, timestamps aside.  The cursor and the store are not compared. -/
def same_but_times (st st' : State) : Prop :=
  st.motor_state = st'.motor_state ∧ st.schedule_count = st'.schedule_count
    ∧ st.history_count = st'.history_count ∧ st.schedules = st'.schedules
    ∧ st.calls = st'.calls
    ∧ ledger_shape st.schedule_history = ledger_shape st'.schedule_history

/-- Lines 123-127 of `check_schedules`, for the schedule `s` that the loop body found at
index `i`. -/
def start_branch (readings : tick_clock) (minute : Int) (i : Nat) (s : schedule_t) (st : State) :
    State :=
  if starts_at s minute then
    add_to_history (readings.at_call (motor_call.on minute i)) s.name "ON"
      { motor_on st with calls := st.calls ++ [motor_call.on minute i] }
  else st

/-- Lines 128-136 of `check_schedules`, for the schedule `s` that the loop body found at
index `i`. -/
def end_branch (readings : tick_clock) (minute : Int) (i : Nat) (s : schedule_t) (st : State) :
    State :=
  if ends_at s minute then
    let st2 :=
      add_to_history (readings.at_call (motor_call.off minute i)) s.name "OFF"
        { motor_off st with calls := st.calls ++ [motor_call.off minute i] }
    if s.repeat_daily = false then
      save_settings { st2 with schedules := st2.schedules.set i { s with enabled := false } }
    else st2
  else st

/-! ## Vocabulary for `url_decode` -/

/-- The test `isxdigit`. -/
def is_hex_digit (c : Char) : Bool := (hex_value c).isSome

/-- Every `%` of `src` is followed by two hexadecimal digits. -/
def escapes_well_formed (src : List Char) : Prop :=
  ∀ i, i < src.length → src.getD i ' ' = '%' →
    i + 2 < src.length ∧ is_hex_digit (src.getD (i + 1) ' ') = true
      ∧ is_hex_digit (src.getD (i + 2) ' ') = true

instance (src : List Char) : Decidable (escapes_well_formed src) := by
  unfold escapes_well_formed; infer_instance

/-- The decoding in the words of the claim: each `%XY` with hexadecimal digits `X` and `Y`
is replaced by the single byte of value `16 * X + Y`, each `+` by a space, and every other
character is copied. -/
def url_decode_reference : List Char → List Char
  | [] => []
  | c :: x :: y :: rest2 =>
    if c = '%' ∧ is_hex_digit x = true ∧ is_hex_digit y = true then
      Char.ofNat (16 * (hex_value x).getD 0 + (hex_value y).getD 0) :: url_decode_reference rest2
    else (if c = '+' then ' ' else c) :: url_decode_reference (x :: y :: rest2)
  | c :: rest => (if c = '+' then ' ' else c) :: url_decode_reference rest

/-- The loop minute recorded with a motor call. -/
def motor_call.minute : motor_call → Int
  | .on m _ => m
  | .off m _ => m

/-- Whether the call is `motor_off()`, the end transition. -/
def motor_call.is_off : motor_call → Bool
  | .on _ _ => false
  | .off _ _ => true

/-- The place of minute `m` in the scan of a tick whose cursor is `c`: 0 for the minute
`c + 1`, counted round the day. -/
def scan_position (c m : Int) : Int := (m - (c + 1)) % (24 * 60)

/-- The processing order of a tick with the cursor at `c`: by scanned minute, then by
schedule index, then start before end. -/
def processed_before (c : Int) (a b : motor_call) : Prop :=
  scan_position c a.minute < scan_position c b.minute
    ∨ (a.minute = b.minute
        ∧ (a.index < b.index ∨ (a.index = b.index ∧ a.is_off = false ∧ b.is_off = true)))

instance (c : Int) (a b : motor_call) : Decidable (processed_before c a b) := by
  unfold processed_before; infer_instance

/-- The value of `motor_state` after the calls `calls`, from the value `b`: that of the last
call, `true` for `motor_on()` and `false` for `motor_off()`. -/
def motor_after (b : Bool) (calls : List motor_call) : Bool :=
  match calls.getLast? with
  | none => b
  | some e => !e.is_off

/-- The schedules "A" 06:00-07:00 and "B" 06:30-06:45, both daily, on a device whose cursor
is at 05:59. -/
def two_zones : State :=
  { boot_state 2 (mk_schedule "A" 6 0 7 0 true :: mk_schedule "B" 6 30 6 45 true
      :: List.replicate 8 default) with last_checked_minute := 359 }

/-! ## Vocabulary for the ledger invariant -/

/-- Slot `i` of the ledger is populated: its `start_time` is not empty. -/
def populated (history : List schedule_history_t) (i : Nat) : Bool :=
  !is_empty_str (history.getD i default).start_time

/-- The ledger `history` with the count `count`, after the calls `calls` of
`add_to_history`: the array has `MAX_HISTORY` slots, the count is at most that, the
populated slots are those below the count, an active slot is populated, and slot `j` below
the count holds the name and the start time written by the `"ON"` call number `k j`, where
`k` does not decrease along the slots. -/
def ledger_packed (calls : List (tm × String × String)) (history : List schedule_history_t)
    (count : Int) (k : Nat → Nat) : Prop :=
  history.length = MAX_HISTORY ∧ 0 ≤ count ∧ count ≤ MAX_HISTORY
    ∧ (∀ i, i < MAX_HISTORY → (populated history i = true ↔ (i : Int) < count))
    ∧ (∀ i, i < MAX_HISTORY → (history.getD i default).active = true → populated history i = true)
    ∧ (∀ j : Nat, (j : Int) < count →
        ∃ c, calls[k j]? = some c ∧ c.2.2 = "ON"
          ∧ (history.getD j default).name = strncpy c.2.1 (MAX_NAME_LEN - 1)
          ∧ (history.getD j default).start_time = strftime_ymdhm c.1)
    ∧ (∀ i j : Nat, i ≤ j → (j : Int) < count → k i ≤ k j)

/-- The state in which the loop body is entered for index `i` at minute `minute`, in the
tick with the clock readings `readings` from the state `st`: the minutes scanned before
`minute` and the indices below `i` at `minute` have been processed. -/
def body_entry (readings : tick_clock) (st : State) (minute : Int) (i : Nat) : State :=
  schedule_loop readings minute i 0
    ((scanned_minutes ((st.last_checked_minute + 1) % (24 * 60))
        (scan_position st.last_checked_minute minute).toNat).foldl (minute_step readings) st)

/-- The schedule "Pulse" with start and end at 06:00, daily, on a device whose cursor is at
05:59. -/
def pulse_state : State := state_at_0559 (mk_schedule "Pulse" 6 0 6 0 true)

/-! ## Vocabulary for the schedule store invariant -/

/-- The fields of a stored schedule are in range: hours in 0..23, minutes in 0..59, and a
name of 1 to 31 characters. -/
def schedule_valid (s : schedule_t) : Prop :=
  0 ≤ s.start_hour ∧ s.start_hour ≤ 23 ∧ 0 ≤ s.start_minute ∧ s.start_minute ≤ 59
    ∧ 0 ≤ s.end_hour ∧ s.end_hour ≤ 23 ∧ 0 ≤ s.end_minute ∧ s.end_minute ≤ 59
    ∧ 0 < s.name.length ∧ s.name.length ≤ 31

instance (s : schedule_t) : Decidable (schedule_valid s) := by
  unfold schedule_valid; infer_instance

/-- The schedule store invariant: `0 ≤ schedule_count ≤ 10` and every schedule at an index
below `schedule_count` is valid. -/
def store_invariant (st : State) : Prop :=
  0 ≤ st.schedule_count ∧ st.schedule_count ≤ 10
    ∧ ∀ i, i < MAX_SCHEDULES → (i : Int) < st.schedule_count →
        schedule_valid (st.schedules.getD i default)

instance (st : State) : Decidable (store_invariant st) := by
  unfold store_invariant; infer_instance

/-- A name of 64 characters. -/
def very_long_name : String := ⟨List.replicate 64 'A'⟩

/-- The readings of a call of `check_schedules` that begins when the clock reads `t` and
whose `add_to_history` calls all read `u`. -/
def clock_then (t u : tm) : tick_clock := { timeinfo := t, at_call := fun _ => u }

/-- The ledger has its 30 entries and the name `X` is active in none of them. -/
def name_inactive (history : List schedule_history_t) (X : String) : Prop :=
  history.length = MAX_HISTORY
    ∧ ∀ k, k < MAX_HISTORY → slot_active_named history X k = false

/-- No pass of the loop body other than the one for `(M, i)` writes a record named `X`: no
other enabled schedule below `cnt` has a name that is stored as `X`, and the schedule at
index `i` starts at no other minute than `M`. -/
def only_start_of (X : String) (i : Nat) (M : Int) (cnt : Int) (l : List schedule_t) : Prop :=
  (∀ j, j < MAX_SCHEDULES → (j : Int) < cnt → j ≠ i → (l.getD j default).enabled = true →
      strncpy (l.getD j default).name (MAX_NAME_LEN - 1) ≠ X)
    ∧ ∀ m, m ≠ M → ¬ starts_at (l.getD i default) m

/-- Two schedules named "P", 06:00-07:00 and 06:30-06:30, both daily, on a device whose
cursor is at 05:59 and whose ledger is empty. -/
def two_pulses : State :=
  { boot_state 2 (mk_schedule "P" 6 0 7 0 true :: mk_schedule "P" 6 30 6 30 true
      :: List.replicate 8 default) with last_checked_minute := 359 }

/-- The calls of `check_schedules` with the clock readings `ts`, one after the other, with
nothing else changing the state in between. -/
def run_ticks : List tick_clock → State → Option State
  | [], st => some st
  | t :: ts, st => (check_schedules t st).bind (run_ticks ts)

/-! # Theorems -/
/-! ## Frame lemmas -/

@[simp] theorem save_history_to_flash_schedules (st : State) :
    (save_history_to_flash st).schedules = st.schedules := rfl
@[simp] theorem save_history_to_flash_schedule_count (st : State) :
    (save_history_to_flash st).schedule_count = st.schedule_count := rfl
@[simp] theorem save_history_to_flash_calls (st : State) :
    (save_history_to_flash st).calls = st.calls := rfl
@[simp] theorem save_history_to_flash_motor_state (st : State) :
    (save_history_to_flash st).motor_state = st.motor_state := rfl
@[simp] theorem save_history_to_flash_history (st : State) :
    (save_history_to_flash st).schedule_history = st.schedule_history := rfl
@[simp] theorem save_history_to_flash_history_count (st : State) :
    (save_history_to_flash st).history_count = st.history_count := rfl
@[simp] theorem save_history_to_flash_cursor (st : State) :
    (save_history_to_flash st).last_checked_minute = st.last_checked_minute := rfl

theorem history_on_frame (ts name : String) (st : State) :
    (history_on ts name st).schedules = st.schedules
    ∧ (history_on ts name st).schedule_count = st.schedule_count
    ∧ (history_on ts name st).calls = st.calls
    ∧ (history_on ts name st).motor_state = st.motor_state
    ∧ (history_on ts name st).last_checked_minute = st.last_checked_minute := by
  unfold history_on
  dsimp only
  split <;> simp

theorem history_off_frame (ts name : String) (st : State) :
    (history_off ts name st).schedules = st.schedules
    ∧ (history_off ts name st).schedule_count = st.schedule_count
    ∧ (history_off ts name st).calls = st.calls
    ∧ (history_off ts name st).motor_state = st.motor_state
    ∧ (history_off ts name st).last_checked_minute = st.last_checked_minute := by
  unfold history_off
  split <;> simp

theorem add_to_history_frame (t : tm) (name action : String) (st : State) :
    (add_to_history t name action st).schedules = st.schedules
    ∧ (add_to_history t name action st).schedule_count = st.schedule_count
    ∧ (add_to_history t name action st).calls = st.calls
    ∧ (add_to_history t name action st).motor_state = st.motor_state
    ∧ (add_to_history t name action st).last_checked_minute = st.last_checked_minute := by
  unfold add_to_history
  dsimp only
  split
  · simpa using history_on_frame _ name st
  · split
    · simpa using history_off_frame _ name st
    · simp

@[simp] theorem add_to_history_schedules (t : tm) (name action : String) (st : State) :
    (add_to_history t name action st).schedules = st.schedules :=
  (add_to_history_frame t name action st).1
@[simp] theorem add_to_history_schedule_count (t : tm) (name action : String) (st : State) :
    (add_to_history t name action st).schedule_count = st.schedule_count :=
  (add_to_history_frame t name action st).2.1
@[simp] theorem add_to_history_calls (t : tm) (name action : String) (st : State) :
    (add_to_history t name action st).calls = st.calls :=
  (add_to_history_frame t name action st).2.2.1
@[simp] theorem add_to_history_motor_state (t : tm) (name action : String) (st : State) :
    (add_to_history t name action st).motor_state = st.motor_state :=
  (add_to_history_frame t name action st).2.2.2.1
@[simp] theorem add_to_history_cursor (t : tm) (name action : String) (st : State) :
    (add_to_history t name action st).last_checked_minute = st.last_checked_minute :=
  (add_to_history_frame t name action st).2.2.2.2


theorem set_getD_self {α : Type} (l : List α) (i : Nat) (d : α) : l.set i (l.getD i d) = l := by
  induction l generalizing i with
  | nil => simp
  | cons a l ih =>
    cases i with
    | zero => simp
    | succ i => simpa using ih i

theorem save_settings_frame (st : State) :
    (save_settings st).schedules = st.schedules
    ∧ (save_settings st).schedule_count = st.schedule_count
    ∧ (save_settings st).calls = st.calls
    ∧ (save_settings st).motor_state = st.motor_state
    ∧ (save_settings st).last_checked_minute = st.last_checked_minute
    ∧ (save_settings st).schedule_history = st.schedule_history
    ∧ (save_settings st).history_count = st.history_count := by
  simp [save_settings]

/-- One pass of the loop body, projected on the schedule table and the motor calls. -/
theorem schedule_step_table (t : tick_clock) (m : Int) (i : Nat) (st : State) :
    (schedule_step t m i st).schedules
        = st.schedules.set i (step_schedule m (st.schedules.getD i default))
    ∧ (schedule_step t m i st).calls = st.calls ++ step_calls m i (st.schedules.getD i default)
    ∧ (schedule_step t m i st).schedule_count = st.schedule_count
    ∧ (schedule_step t m i st).last_checked_minute = st.last_checked_minute := by
  unfold schedule_step step_schedule step_calls starts_at ends_at
  simp only [List.getD_eq_getElem?_getD]
  by_cases he : (st.schedules[i]?.getD default).enabled = true
  · by_cases hs : (st.schedules[i]?.getD default).start_hour = m / 60
        ∧ (st.schedules[i]?.getD default).start_minute = m % 60
    · by_cases hn : (st.schedules[i]?.getD default).end_hour = m / 60
          ∧ (st.schedules[i]?.getD default).end_minute = m % 60
      · by_cases hr : (st.schedules[i]?.getD default).repeat_daily = true
        · simpa [he, hs, hn, hr, motor_on, motor_off] using (set_getD_self st.schedules i
            default).symm
        · simp [he, hs, hn, hr, motor_on, motor_off, save_settings]
      · simpa [he, hs, hn, motor_on, motor_off] using (set_getD_self st.schedules i default).symm
    · by_cases hn : (st.schedules[i]?.getD default).end_hour = m / 60
          ∧ (st.schedules[i]?.getD default).end_minute = m % 60
      · by_cases hr : (st.schedules[i]?.getD default).repeat_daily = true
        · simpa [he, hs, hn, hr, motor_on, motor_off] using (set_getD_self st.schedules i
            default).symm
        · simp [he, hs, hn, hr, motor_on, motor_off, save_settings]
      · simpa [he, hs, hn, motor_on, motor_off] using (set_getD_self st.schedules i default).symm
  · simpa [he] using (set_getD_self st.schedules i default).symm


/-! ## The `for` loop over the schedule table -/

theorem getD_set_ne {α : Type} (l : List α) (i j : Nat) (x d : α) (h : i ≠ j) :
    (l.set i x).getD j d = l.getD j d := by
  simp [List.getD_eq_getElem?_getD, List.getElem?_set_ne h]

theorem step_schedule_default (m : Int) : step_schedule m default = default := by
  simp [step_schedule, default]

theorem getD_of_length_le {α : Type} (l : List α) (j : Nat) (d : α) (h : l.length ≤ j) :
    l.getD j d = d := by
  rw [List.getD_eq_getElem?_getD, List.getElem?_eq_none h]; rfl

theorem getD_set_self {α : Type} (l : List α) (j : Nat) (x d : α) (h : j < l.length) :
    (l.set j x).getD j d = x := by
  simp [List.getD_eq_getElem?_getD, List.getElem?_set_self, h]

theorem getD_set_step (l : List schedule_t) (i j : Nat) (m : Int) :
    (l.set i (step_schedule m (l.getD i default))).getD j default
      = if j = i then step_schedule m (l.getD j default) else l.getD j default := by
  by_cases h : j = i
  · subst h
    by_cases hl : j < l.length
    · rw [getD_set_self _ _ _ _ hl]; simp
    · have h1 : l.getD j default = default := getD_of_length_le _ _ _ (Nat.le_of_not_lt hl)
      have h2 : (l.set j (step_schedule m (l.getD j default))).getD j default = default :=
        getD_of_length_le _ _ _ (by rw [List.length_set]; exact Nat.le_of_not_lt hl)
      rw [h2, h1, step_schedule_default]; simp
  · rw [getD_set_ne _ _ _ _ _ (Ne.symm h)]
    simp [h]

theorem loop_schedules_length (m : Int) (cnt : Int) (n i : Nat) (l : List schedule_t) :
    (loop_schedules m cnt n i l).length = l.length := by
  induction n generalizing i l with
  | zero => rfl
  | succ n ih =>
    unfold loop_schedules
    split
    · rw [ih]; simp
    · rfl

/-- Entry `j` of the table after the `for` loop: entries `i ≤ j < i + n` below
`schedule_count` have taken one step, the others are untouched. -/
theorem loop_schedules_getD (m : Int) (cnt : Int) (n i : Nat) (l : List schedule_t) (j : Nat) :
    (loop_schedules m cnt n i l).getD j default
      = if i ≤ j ∧ j < i + n ∧ (j : Int) < cnt then step_schedule m (l.getD j default)
        else l.getD j default := by
  induction n generalizing i l with
  | zero =>
    have h4 : ¬ (i ≤ j ∧ j < i + 0 ∧ (j : Int) < cnt) := by omega
    rw [if_neg h4]; rfl
  | succ n ih =>
    unfold loop_schedules
    by_cases hc : (i : Int) < cnt
    · rw [if_pos hc, ih, getD_set_step]
      by_cases hji : j = i
      · subst hji
        have h1 : ¬ (j + 1 ≤ j ∧ j < j + 1 + n ∧ (j : Int) < cnt) := by omega
        have h2 : j ≤ j ∧ j < j + (n + 1) ∧ (j : Int) < cnt := ⟨le_refl _, by omega, hc⟩
        rw [if_neg h1, if_pos h2]; simp
      · simp only [hji, if_false]
        by_cases h3 : i + 1 ≤ j ∧ j < i + 1 + n ∧ (j : Int) < cnt
        · have h4 : i ≤ j ∧ j < i + (n + 1) ∧ (j : Int) < cnt := ⟨by omega, by omega, h3.2.2⟩
          rw [if_pos h3, if_pos h4]
        · have h4 : ¬ (i ≤ j ∧ j < i + (n + 1) ∧ (j : Int) < cnt) := by omega
          rw [if_neg h3, if_neg h4]
    · rw [if_neg hc]
      have h4 : ¬ (i ≤ j ∧ j < i + (n + 1) ∧ (j : Int) < cnt) := by omega
      rw [if_neg h4]

theorem loop_calls_congr (m : Int) (cnt : Int) (l l' : List schedule_t) (n i : Nat)
    (h : ∀ j, i ≤ j → l.getD j default = l'.getD j default) :
    loop_calls m cnt l n i = loop_calls m cnt l' n i := by
  induction n generalizing i with
  | zero => rfl
  | succ n ih =>
    unfold loop_calls
    rw [h i (le_refl _), ih (i + 1) (fun j hj => h j (by omega))]

/-- The `for` loop at minute `m`, projected on the schedule table and the motor calls. -/
theorem schedule_loop_table (t : tick_clock) (m : Int) (n i : Nat) (st : State) :
    (schedule_loop t m n i st).schedules = loop_schedules m st.schedule_count n i st.schedules
    ∧ (schedule_loop t m n i st).calls
        = st.calls ++ loop_calls m st.schedule_count st.schedules n i
    ∧ (schedule_loop t m n i st).schedule_count = st.schedule_count
    ∧ (schedule_loop t m n i st).last_checked_minute = st.last_checked_minute := by
  induction n generalizing i st with
  | zero => simp [schedule_loop, loop_schedules, loop_calls]
  | succ n ih =>
    unfold schedule_loop loop_schedules loop_calls
    by_cases hc : (i : Int) < st.schedule_count
    · obtain ⟨h1, h2, h3, h4⟩ := schedule_step_table t m i st
      obtain ⟨k1, k2, k3, k4⟩ := ih (i + 1) (schedule_step t m i st)
      rw [if_pos hc, if_pos hc, if_pos hc, k1, k2, k3, k4, h1, h2, h3, h4]
      refine ⟨rfl, ?_, rfl, rfl⟩
      rw [List.append_assoc]
      congr 2
      apply loop_calls_congr
      intro j hj
      exact getD_set_ne _ _ _ _ _ (by omega)
    · simp [hc]


/-! ## The `while` loop over the minutes -/

theorem scanned_minutes_zero (x : Int) : scanned_minutes x 0 = [] := rfl

theorem scanned_minutes_succ (x : Int) (d : Nat) (hx : 0 ≤ x ∧ x < 24 * 60) :
    scanned_minutes x (d + 1) = x :: scanned_minutes ((x + 1) % (24 * 60)) d := by
  unfold scanned_minutes
  rw [List.range_succ_eq_map, List.map_cons, List.map_map]
  congr 1
  · simp only [Nat.cast_zero, add_zero]
    omega
  · apply List.map_congr_left
    intro k _
    simp only [Function.comp, Nat.cast_succ]
    omega

theorem minute_loop_target (t : tick_clock) (x : Int) (fuel : Nat) (st : State) :
    minute_loop t x fuel x st = some st := by
  cases fuel <;> simp [minute_loop]

/-- With enough fuel the `while` loop exits, after visiting the minutes
`x, x + 1, ..., x + d - 1` (modulo 1440) in this order. -/
theorem minute_loop_eq_foldl (t : tick_clock) (target : Int) (d : Nat) :
    ∀ (fuel : Nat) (x : Int) (st : State), d ≤ fuel → 0 ≤ x → x < 24 * 60 → d < 24 * 60 →
      target = (x + (d : Int)) % (24 * 60) →
      minute_loop t target fuel x st
        = some ((scanned_minutes x d).foldl (minute_step t) st) := by
  induction d with
  | zero =>
    intro fuel x st _ h0 h1 _ ht
    have : target = x := by rw [ht]; simp only [Nat.cast_zero, add_zero]; omega
    rw [this, minute_loop_target]; rfl
  | succ d ih =>
    intro fuel x st hf h0 h1 hd ht
    cases fuel with
    | zero => omega
    | succ fuel =>
      have hne : x ≠ target := by rw [ht]; push_cast; omega
      rw [scanned_minutes_succ x d ⟨h0, h1⟩, List.foldl_cons]
      unfold minute_loop
      rw [if_neg hne]
      exact ih fuel ((x + 1) % (24 * 60)) _ (by omega) (by omega) (by omega) (by omega)
        (by rw [ht]; push_cast; omega)

theorem gap_lt (c n : Int) : gap c n < 24 * 60 := by
  unfold gap; omega

/-- The function `check_schedules` returns whenever the cursor is a minute of the day; its
result is the left fold of the loop body over the scanned minutes, with the cursor moved to
the current minute. -/
theorem check_schedules_eq (t : tick_clock) (st : State)
    (hc : 0 ≤ st.last_checked_minute ∧ st.last_checked_minute < 24 * 60) :
    check_schedules t st
      = some { (scanned_minutes ((st.last_checked_minute + 1) % (24 * 60))
                  (gap st.last_checked_minute (minute_of_day t.timeinfo))).foldl (minute_step t) st
                      with
               last_checked_minute := minute_of_day t.timeinfo } := by
  unfold check_schedules check_schedules_fuel
  have hne : st.last_checked_minute ≠ -1 := by omega
  simp only [hne, if_false]
  rw [minute_loop_eq_foldl t _ (gap st.last_checked_minute (minute_of_day t.timeinfo)) (24 * 60) _
      st
    (le_of_lt (gap_lt _ _)) (by omega) (by omega) (gap_lt _ _)
    (by unfold gap minute_of_day; omega)]
  rfl


/-! ## The scan, projected on the schedule table and the motor calls -/

/-- The scan of the minutes `ms`, projected on the schedule table and the motor calls. -/
theorem foldl_minute_step_table (t : tick_clock) (ms : List Int) (st : State) :
    (ms.foldl (minute_step t) st).schedules = scan_schedules st.schedule_count ms st.schedules
    ∧ (ms.foldl (minute_step t) st).calls
        = st.calls ++ scan_calls st.schedule_count ms st.schedules
    ∧ (ms.foldl (minute_step t) st).schedule_count = st.schedule_count
    ∧ (ms.foldl (minute_step t) st).last_checked_minute = st.last_checked_minute := by
  induction ms generalizing st with
  | nil => simp [scan_schedules, scan_calls]
  | cons m ms ih =>
    obtain ⟨h1, h2, h3, h4⟩ := schedule_loop_table t m MAX_SCHEDULES 0 st
    obtain ⟨k1, k2, k3, k4⟩ := ih (minute_step t st m)
    simp only [minute_step] at k1 k2 k3 k4
    simp only [List.foldl_cons, minute_step, scan_calls]
    rw [k1, k2, k3, k4, h1, h2, h3, h4]
    refine ⟨?_, ?_, rfl, rfl⟩
    · simp [scan_schedules]
    · rw [List.append_assoc]

theorem mem_step_calls (m : Int) (i : Nat) (s : schedule_t) (e : motor_call)
    (h : e ∈ step_calls m i s) : e = motor_call.on m i ∨ e = motor_call.off m i := by
  unfold step_calls at h
  split at h
  · rw [List.mem_append] at h
    rcases h with h | h
    · split at h
      · left; simpa using h
      · simp at h
    · split at h
      · right; simpa using h
      · simp at h
  · simp at h

theorem count_step_calls_of_ne (m : Int) (i : Nat) (s : schedule_t) (e : motor_call)
    (h : e.index ≠ i) : (step_calls m i s).count e = 0 := by
  apply List.count_eq_zero_of_not_mem
  intro hm
  rcases mem_step_calls m i s e hm with h1 | h1 <;> (rw [h1] at h; exact h rfl)

theorem count_loop_calls (m : Int) (cnt : Int) (l : List schedule_t) (e : motor_call)
    (n i : Nat) :
    (loop_calls m cnt l n i).count e
      = if i ≤ e.index ∧ e.index < i + n ∧ (e.index : Int) < cnt then
          (step_calls m e.index (l.getD e.index default)).count e
        else 0 := by
  induction n generalizing i with
  | zero =>
    have h : ¬ (i ≤ e.index ∧ e.index < i + 0 ∧ (e.index : Int) < cnt) := by omega
    rw [if_neg h]; rfl
  | succ n ih =>
    unfold loop_calls
    by_cases hc : (i : Int) < cnt
    · rw [if_pos hc, List.count_append, ih]
      by_cases hi : e.index = i
      · have h1 : ¬ (i + 1 ≤ e.index ∧ e.index < i + 1 + n ∧ (e.index : Int) < cnt) := by omega
        have h2 : i ≤ e.index ∧ e.index < i + (n + 1) ∧ (e.index : Int) < cnt :=
          ⟨by omega, by omega, by rw [hi]; exact hc⟩
        rw [if_neg h1, if_pos h2, hi]; rfl
      · rw [count_step_calls_of_ne m i _ e hi, Nat.zero_add]
        by_cases h3 : i + 1 ≤ e.index ∧ e.index < i + 1 + n ∧ (e.index : Int) < cnt
        · have h4 : i ≤ e.index ∧ e.index < i + (n + 1) ∧ (e.index : Int) < cnt := by omega
          rw [if_pos h3, if_pos h4]
        · have h4 : ¬ (i ≤ e.index ∧ e.index < i + (n + 1) ∧ (e.index : Int) < cnt) := by omega
          rw [if_neg h3, if_neg h4]
    · have h4 : ¬ (i ≤ e.index ∧ e.index < i + (n + 1) ∧ (e.index : Int) < cnt) := by omega
      rw [if_neg hc, if_neg h4]; rfl

theorem run_schedule_cons (m : Int) (ms : List Int) (s : schedule_t) :
    run_schedule (m :: ms) s = run_schedule ms (step_schedule m s) := rfl

/-- Entry `j` of the table after the scan is the schedule followed on its own. -/
theorem scan_schedules_getD (cnt : Int) (ms : List Int) (l : List schedule_t) (j : Nat) :
    (scan_schedules cnt ms l).getD j default
      = if j < MAX_SCHEDULES ∧ (j : Int) < cnt then run_schedule ms (l.getD j default)
        else l.getD j default := by
  induction ms generalizing l with
  | nil => simp [scan_schedules, run_schedule]
  | cons m ms ih =>
    have h := ih (loop_schedules m cnt MAX_SCHEDULES 0 l)
    simp only [scan_schedules, List.foldl_cons] at h ⊢
    rw [h, loop_schedules_getD, run_schedule_cons]
    by_cases hj : j < MAX_SCHEDULES ∧ (j : Int) < cnt
    · have h2 : 0 ≤ j ∧ j < 0 + MAX_SCHEDULES ∧ (j : Int) < cnt := ⟨by omega, by omega, hj.2⟩
      rw [if_pos hj, if_pos hj, if_pos h2]
    · have h2 : ¬ (0 ≤ j ∧ j < 0 + MAX_SCHEDULES ∧ (j : Int) < cnt) := by omega
      rw [if_neg hj, if_neg hj, if_neg h2]

/-- The calls of the scan that carry index `i` are those of schedule `i` followed on its
own. -/
theorem count_scan_calls (cnt : Int) (ms : List Int) (l : List schedule_t) (e : motor_call) :
    (scan_calls cnt ms l).count e
      = if e.index < MAX_SCHEDULES ∧ (e.index : Int) < cnt then
          (run_calls e.index ms (l.getD e.index default)).count e
        else 0 := by
  induction ms generalizing l with
  | nil => simp [scan_calls, run_calls]
  | cons m ms ih =>
    unfold scan_calls run_calls
    rw [List.count_append, List.count_append, ih, count_loop_calls, loop_schedules_getD]
    by_cases hj : e.index < MAX_SCHEDULES ∧ (e.index : Int) < cnt
    · have h2 : 0 ≤ e.index ∧ e.index < 0 + MAX_SCHEDULES ∧ (e.index : Int) < cnt :=
        ⟨by omega, by omega, hj.2⟩
      rw [if_pos hj, if_pos hj, if_pos h2, if_pos h2]
    · have h2 : ¬ (0 ≤ e.index ∧ e.index < 0 + MAX_SCHEDULES ∧ (e.index : Int) < cnt) := by
        omega
      rw [if_neg hj, if_neg hj, if_neg h2]


/-! ## One schedule followed through the scanned minutes -/

theorem run_disabled (i : Nat) (ms : List Int) (s : schedule_t) (h : s.enabled = false) :
    run_calls i ms s = [] ∧ run_schedule ms s = s := by
  induction ms with
  | nil => exact ⟨rfl, rfl⟩
  | cons m ms ih =>
    have h1 : step_schedule m s = s := by simp [step_schedule, h]
    have h2 : step_calls m i s = [] := by simp [step_calls, h]
    rw [run_schedule_cons, run_calls, h1, h2]
    exact ⟨by simpa using ih.1, ih.2⟩

theorem count_on_step_calls (m x : Int) (i : Nat) (s : schedule_t) (h : s.enabled = true) :
    (step_calls x i s).count (motor_call.on m i) = if starts_at s x ∧ x = m then 1 else 0 := by
  unfold step_calls
  rw [if_pos h, List.count_append]
  by_cases h3 : x = m
  · subst h3
    by_cases h1 : starts_at s x <;> by_cases h2 : ends_at s x <;>
      simp [h1, h2, List.count_cons]
  · by_cases h1 : starts_at s x <;> by_cases h2 : ends_at s x <;>
      simp [h1, h2, h3, List.count_cons]

theorem count_off_step_calls (m x : Int) (i : Nat) (s : schedule_t) (h : s.enabled = true) :
    (step_calls x i s).count (motor_call.off m i) = if ends_at s x ∧ x = m then 1 else 0 := by
  unfold step_calls
  rw [if_pos h, List.count_append]
  by_cases h3 : x = m
  · subst h3
    by_cases h1 : starts_at s x <;> by_cases h2 : ends_at s x <;>
      simp [h1, h2, List.count_cons]
  · by_cases h1 : starts_at s x <;> by_cases h2 : ends_at s x <;>
      simp [h1, h2, h3, List.count_cons]

theorem step_schedule_enabled (x : Int) (s : schedule_t) (h : s.enabled = true) :
    (ends_at s x ∧ s.repeat_daily = false → (step_schedule x s).enabled = false)
    ∧ (¬ (ends_at s x ∧ s.repeat_daily = false) → step_schedule x s = s) := by
  unfold step_schedule
  constructor
  · intro h1
    rw [if_pos ⟨h, h1⟩]
  · intro h1
    rw [if_neg (fun h2 => h1 h2.2)]

/-- How often `motor_off` is called for schedule `s` at minute `m` while the minutes
`x, ..., x + d - 1` are scanned. -/
theorem count_off_run (i : Nat) (s : schedule_t) (m : Int) (d : Nat) :
    ∀ x : Int, 0 ≤ x → x < 24 * 60 → d ≤ 24 * 60 →
      (run_calls i (scanned_minutes x d) s).count (motor_call.off m i)
        = if s.enabled = true ∧ ends_at s m ∧ 0 ≤ m ∧ m < 24 * 60 ∧ (m - x) % (24 * 60) < d
          then 1 else 0 := by
  by_cases he : s.enabled = true
  swap
  · intro x _ _ _
    rw [(run_disabled i _ s (by simpa using he)).1]
    simp [he]
  induction d with
  | zero =>
    intro x _ _ _
    have : ¬ (s.enabled = true ∧ ends_at s m ∧ 0 ≤ m ∧ m < 24 * 60
        ∧ (m - x) % (24 * 60) < ((0 : Nat) : Int)) := by
      rintro ⟨_, _, _, _, h⟩
      simp only [Nat.cast_zero] at h
      omega
    rw [if_neg this]; rfl
  | succ d ih =>
    intro x h0 h1 hd
    rw [scanned_minutes_succ x d ⟨h0, h1⟩, run_calls, List.count_append,
      count_off_step_calls m x i s he]
    by_cases hn : ends_at s x ∧ s.repeat_daily = false
    · have hdis := (step_schedule_enabled x s he).1 hn
      rw [(run_disabled i _ _ hdis).1]
      have hn1 := hn.1
      unfold ends_at at hn1 ⊢
      simp only [List.count_nil, Nat.add_zero, he, true_and, Nat.cast_succ]
      split_ifs <;> first | rfl | omega
    · rw [(step_schedule_enabled x s he).2 hn, ih _ (by omega) (by omega) (by omega)]
      unfold ends_at
      simp only [he, true_and, Nat.cast_succ]
      split_ifs <;> first | rfl | omega

/-- How often `motor_on` is called for schedule `s` at minute `m` while the minutes
`x, ..., x + d - 1` are scanned: once when the start boundary is at a scanned minute,
unless the schedule is not repeating and its end boundary was scanned earlier. -/
theorem count_on_run (i : Nat) (s : schedule_t) (m : Int) (d : Nat) :
    ∀ x : Int, 0 ≤ x → x < 24 * 60 → d ≤ 24 * 60 →
      (run_calls i (scanned_minutes x d) s).count (motor_call.on m i)
        = if s.enabled = true ∧ starts_at s m ∧ 0 ≤ m ∧ m < 24 * 60 ∧ (m - x) % (24 * 60) < d
            ∧ (s.repeat_daily = true
              ∨ ¬ (ends_at s (end_minute_of_day s) ∧ 0 ≤ end_minute_of_day s
                  ∧ end_minute_of_day s < 24 * 60
                  ∧ (end_minute_of_day s - x) % (24 * 60) < (m - x) % (24 * 60)))
          then 1 else 0 := by
  by_cases he : s.enabled = true
  swap
  · intro x _ _ _
    rw [(run_disabled i _ s (by simpa using he)).1]
    simp [he]
  induction d with
  | zero =>
    intro x _ _ _
    rw [if_neg]
    · rfl
    · rintro ⟨_, _, _, _, h, _⟩
      simp only [Nat.cast_zero] at h
      omega
  | succ d ih =>
    intro x h0 h1 hd
    rw [scanned_minutes_succ x d ⟨h0, h1⟩, run_calls, List.count_append,
      count_on_step_calls m x i s he]
    by_cases hn : ends_at s x ∧ s.repeat_daily = false
    · have hdis := (step_schedule_enabled x s he).1 hn
      rw [(run_disabled i _ _ hdis).1]
      obtain ⟨hn1, hn2⟩ := hn
      unfold ends_at at hn1 ⊢
      unfold starts_at end_minute_of_day
      simp only [List.count_nil, Nat.add_zero, he, hn2, true_and, Nat.cast_succ, Bool.false_eq_true,
        false_or]
      split_ifs <;> first | rfl | omega
    · rw [(step_schedule_enabled x s he).2 hn, ih _ (by omega) (by omega) (by omega)]
      unfold ends_at at hn ⊢
      unfold starts_at end_minute_of_day
      simp only [he, true_and, Nat.cast_succ]
      by_cases hr : s.repeat_daily = true
      · simp only [hr, true_or, and_true]
        split_ifs <;> first | rfl | omega
      · have hr2 : s.repeat_daily = false := by simpa using hr
        simp only [hr2, and_true, Bool.false_eq_true, false_or] at hn ⊢
        split_ifs <;> first | rfl | omega


theorem end_scanned_before_iff (s : schedule_t) (c m : Int) (h1 : 1 ≤ (m - c) % (24 * 60)) :
    end_scanned_before s c m
      ↔ (ends_at s (end_minute_of_day s) ∧ 0 ≤ end_minute_of_day s
          ∧ end_minute_of_day s < 24 * 60
          ∧ (end_minute_of_day s - (c + 1) % (24 * 60)) % (24 * 60)
              < (m - (c + 1) % (24 * 60)) % (24 * 60)) := by
  unfold end_scanned_before
  constructor
  · rintro ⟨e, he, h2, h3, h4, h5⟩
    have hE : end_minute_of_day s = e := by
      unfold ends_at at he; unfold end_minute_of_day; omega
    rw [hE]
    refine ⟨he, h2, h3, ?_⟩
    omega
  · rintro ⟨he, h2, h3, h4⟩
    exact ⟨_, he, h2, h3, by omega, by omega⟩

/-- The motor calls of a tick, counted per schedule and minute. -/
theorem check_schedules_counts (t : tick_clock) (st : State)
    (hc : 0 ≤ st.last_checked_minute ∧ st.last_checked_minute < 24 * 60) :
    ∃ st' fired, check_schedules t st = some st' ∧ st'.calls = st.calls ++ fired
      ∧ ∀ (i : Nat) (m : Int),
        ((live st i ∧ ends_at (st.schedules.getD i default) m
            ∧ in_scanned_range st.last_checked_minute (minute_of_day t.timeinfo) m →
          fired.count (motor_call.off m i) = 1)
        ∧ (¬ (live st i ∧ ends_at (st.schedules.getD i default) m
            ∧ in_scanned_range st.last_checked_minute (minute_of_day t.timeinfo) m) →
          fired.count (motor_call.off m i) = 0))
        ∧ ((live st i ∧ starts_at (st.schedules.getD i default) m
            ∧ in_scanned_range st.last_checked_minute (minute_of_day t.timeinfo) m
            ∧ ((st.schedules.getD i default).repeat_daily = true
              ∨ ¬ end_scanned_before (st.schedules.getD i default) st.last_checked_minute m) →
          fired.count (motor_call.on m i) = 1)
        ∧ (¬ (live st i ∧ starts_at (st.schedules.getD i default) m
            ∧ in_scanned_range st.last_checked_minute (minute_of_day t.timeinfo) m
            ∧ ((st.schedules.getD i default).repeat_daily = true
              ∨ ¬ end_scanned_before (st.schedules.getD i default) st.last_checked_minute m)) →
          fired.count (motor_call.on m i) = 0)) := by
  refine ⟨_, scan_calls st.schedule_count
      (scanned_minutes ((st.last_checked_minute + 1) % (24 * 60))
        (gap st.last_checked_minute (minute_of_day t.timeinfo))) st.schedules,
    check_schedules_eq t st hc, (foldl_minute_step_table t _ st).2.1, ?_⟩
  intro i m
  have hx0 : 0 ≤ (st.last_checked_minute + 1) % (24 * 60) := by omega
  have hx1 : (st.last_checked_minute + 1) % (24 * 60) < 24 * 60 := by omega
  have hg : gap st.last_checked_minute (minute_of_day t.timeinfo) ≤ 24 * 60 := le_of_lt (gap_lt _ _)
  have hgc : ((gap st.last_checked_minute (minute_of_day t.timeinfo) : Nat) : Int)
      = (minute_of_day t.timeinfo - st.last_checked_minute) % (24 * 60) := by
    unfold gap; omega
  rw [count_scan_calls, count_scan_calls]
  simp only [motor_call.index]
  rw [count_off_run i _ m _ _ hx0 hx1 hg, count_on_run i _ m _ _ hx0 hx1 hg, hgc]
  unfold live in_scanned_range
  refine ⟨⟨?_, ?_⟩, ⟨?_, ?_⟩⟩
  · rintro ⟨⟨h1, h2, h3⟩, h4, h5, h6, h7, h8⟩
    rw [if_pos ⟨h1, h2⟩, if_pos ⟨h3, h4, h5, h6, by omega⟩]
  · intro h
    split_ifs with h1 h2
    · exfalso
      apply h
      exact ⟨⟨h1.1, h1.2, h2.1⟩, h2.2.1, h2.2.2.1, h2.2.2.2.1, by omega, by omega⟩
    · rfl
    · rfl
  · rintro ⟨⟨h1, h2, h3⟩, h4, ⟨h5, h6, h7, h8⟩, h9⟩
    rw [end_scanned_before_iff _ _ _ h7] at h9
    rw [if_pos ⟨h1, h2⟩, if_pos ⟨h3, h4, h5, h6, by omega, h9⟩]
  · intro h
    split_ifs with h1 h2
    · exfalso
      apply h
      obtain ⟨h3, h4, h5, h6, h7, h8⟩ := h2
      have h9 : 1 ≤ (m - st.last_checked_minute) % (24 * 60) := by omega
      refine ⟨⟨h1.1, h1.2, h3⟩, h4, ⟨h5, h6, h9, by omega⟩, ?_⟩
      rw [end_scanned_before_iff _ _ _ h9]
      exact h8
    · rfl
    · rfl

/-! # The claims -/

/-- C1 (as stated, refuted).  A non-repeating schedule 06:30-06:00 is enabled when the tick
at 06:35 begins with the cursor at 05:59.  Its end boundary 06:00 is scanned first and
disables it, so its start boundary 06:30, which lies in the scanned range, never fires:
the catch-up property as the specification words it fails for this tick. -/
theorem catch_up_as_stated_fails :
    ¬ catch_up_as_stated (steady (clock 6 35)) (state_at_0559 (mk_schedule "Night" 6 30 6 0 false))
        := by
  rintro ⟨st', fired, h1, h2, h3⟩
  have hcalls : (check_schedules (steady (clock 6 35))
      (state_at_0559 (mk_schedule "Night" 6 30 6 0 false))).map (fun s => s.calls)
      = some [motor_call.off 360 0] := by decide
  rw [h1] at hcalls
  have h4 : st'.calls = [motor_call.off 360 0] := by simpa using hcalls
  have h5 : fired = [motor_call.off 360 0] := by
    rw [h4] at h2
    simpa [state_at_0559, boot_state] using h2.symm
  have h6 := (h3 0 390).1.1 ⟨by decide, by decide, by decide⟩
  rw [h5] at h6
  revert h6
  decide

/-- C1 (amended).  For every schedule table and every tick with the cursor at a minute of the
day, `check_schedules` returns, and the motor calls it makes are exactly these: one
`motor_off` for each end boundary, at a minute of the scanned range `c + 1 .. n`, of a
schedule that is enabled when the tick begins; one `motor_on` for each start boundary at a
scanned minute of such a schedule, unless the schedule is not repeating and its own end
boundary is scanned earlier in the same tick.  Every other count is zero: no boundary
outside the range fires, and none fires twice. -/
theorem catch_up_fires_live_boundaries_once (t : tick_clock) (st : State)
    (hc : 0 ≤ st.last_checked_minute ∧ st.last_checked_minute < 24 * 60) :
    ∃ st' fired, check_schedules t st = some st' ∧ st'.calls = st.calls ++ fired
      ∧ ∀ (i : Nat) (m : Int),
        ((live st i ∧ ends_at (st.schedules.getD i default) m
            ∧ in_scanned_range st.last_checked_minute (minute_of_day t.timeinfo) m →
          fired.count (motor_call.off m i) = 1)
        ∧ (¬ (live st i ∧ ends_at (st.schedules.getD i default) m
            ∧ in_scanned_range st.last_checked_minute (minute_of_day t.timeinfo) m) →
          fired.count (motor_call.off m i) = 0))
        ∧ ((live st i ∧ starts_at (st.schedules.getD i default) m
            ∧ in_scanned_range st.last_checked_minute (minute_of_day t.timeinfo) m
            ∧ ((st.schedules.getD i default).repeat_daily = true
              ∨ ¬ end_scanned_before (st.schedules.getD i default) st.last_checked_minute m) →
          fired.count (motor_call.on m i) = 1)
        ∧ (¬ (live st i ∧ starts_at (st.schedules.getD i default) m
            ∧ in_scanned_range st.last_checked_minute (minute_of_day t.timeinfo) m
            ∧ ((st.schedules.getD i default).repeat_daily = true
              ∨ ¬ end_scanned_before (st.schedules.getD i default) st.last_checked_minute m)) →
          fired.count (motor_call.on m i) = 0)) :=
  check_schedules_counts t st hc

/-- C1 (amended), applied to the tick at 06:35 of the non-repeating schedule 06:30-06:00
with the cursor at 05:59. -/
theorem catch_up_fires_live_boundaries_once_witness :
    (0 ≤ (state_at_0559 (mk_schedule "Night" 6 30 6 0 false)).last_checked_minute
      ∧ (state_at_0559 (mk_schedule "Night" 6 30 6 0 false)).last_checked_minute < 24 * 60)
    ∧ ∃ st' fired,
      check_schedules (steady (clock 6 35)) (state_at_0559 (mk_schedule "Night" 6 30 6 0 false))
        = some st'
      ∧ st'.calls = (state_at_0559 (mk_schedule "Night" 6 30 6 0 false)).calls ++ fired
      ∧ fired.count (motor_call.off 360 0) = 1 ∧ fired.count (motor_call.on 390 0) = 0 := by
  refine ⟨by decide, ?_⟩
  obtain ⟨st', fired, h1, h2, h3⟩ :=
    catch_up_fires_live_boundaries_once (steady (clock 6 35))
      (state_at_0559 (mk_schedule "Night" 6 30 6 0 false)) (by decide)
  refine ⟨st', fired, h1, h2, (h3 0 360).1.1 ⟨by decide, by decide, by decide⟩, ?_⟩
  apply (h3 0 390).2.2
  rintro ⟨_, _, _, h4⟩
  rcases h4 with h4 | h4
  · revert h4; decide
  · apply h4
    exact ⟨360, by decide, by decide, by decide, by decide, by decide⟩

/-- C2.  The first call of `check_schedules` after the cursor is unset returns the state it
was given with only the cursor changed, to `hour * 60 + minute`: no motor call is made, and
the schedule table, the history ledger, the motor state and the NVS content are the same. -/
theorem bootstrap_tick_only_sets_cursor (t : tick_clock) (st : State)
    (h : st.last_checked_minute = -1) :
    check_schedules t st
      = some { st with last_checked_minute := (t.timeinfo.tm_hour : Int) * 60 + (t.timeinfo.tm_min :
          Int) } := by
  simp [check_schedules, check_schedules_fuel, h]

/-- C2, applied to the first tick, at 05:59, of a freshly booted device with one schedule. -/
theorem bootstrap_tick_only_sets_cursor_witness :
    (boot_state 1 (single_table (mk_schedule "Zone1" 6 0 6 30 true))).last_checked_minute = -1
    ∧ check_schedules (steady (clock 5 59)) (boot_state 1 (single_table (mk_schedule "Zone1" 6 0 6
        30 true)))
      = some { boot_state 1 (single_table (mk_schedule "Zone1" 6 0 6 30 true)) with
               last_checked_minute := ((clock 5 59).tm_hour : Int) * 60
                 + ((clock 5 59).tm_min : Int) } :=
  ⟨rfl, bootstrap_tick_only_sets_cursor (steady (clock 5 59)) _ rfl⟩


/-! ## The history ledger -/

theorem for_break_eq_none (p : Nat → Bool) (n i : Nat) :
    for_break p n i = none ↔ ∀ k, i ≤ k → k < i + n → p k = false := by
  induction n generalizing i with
  | zero =>
    unfold for_break
    constructor
    · intro _ k h1 h2
      omega
    · intro _; rfl
  | succ n ih =>
    unfold for_break
    by_cases hp : p i = true
    · rw [if_pos hp]
      constructor
      · intro h; cases h
      · intro h
        have := h i (le_refl _) (by omega)
        rw [hp] at this
        cases this
    · rw [if_neg hp, ih]
      constructor
      · intro h k h1 h2
        by_cases hk : k = i
        · subst hk; simpa using hp
        · exact h k (by omega) (by omega)
      · intro h k h1 h2
        exact h k (by omega) (by omega)

theorem for_break_eq_some (p : Nat → Bool) (n i j : Nat) :
    for_break p n i = some j
      ↔ i ≤ j ∧ j < i + n ∧ p j = true ∧ ∀ k, i ≤ k → k < j → p k = false := by
  induction n generalizing i with
  | zero =>
    unfold for_break
    constructor
    · intro h; cases h
    · rintro ⟨h1, h2, _⟩
      omega
  | succ n ih =>
    unfold for_break
    by_cases hp : p i = true
    · rw [if_pos hp]
      constructor
      · intro h
        cases h
        exact ⟨le_refl _, by omega, hp, fun k h1 h2 => by omega⟩
      · rintro ⟨h1, _, _, h4⟩
        by_cases hji : i = j
        · rw [hji]
        · have := h4 i (le_refl _) (by omega)
          rw [hp] at this
          cases this
    · rw [if_neg hp, ih]
      constructor
      · rintro ⟨h1, h2, h3, h4⟩
        refine ⟨by omega, by omega, h3, ?_⟩
        intro k h5 h6
        by_cases hk : k = i
        · subst hk; simpa using hp
        · exact h4 k (by omega) h6
      · rintro ⟨h1, h2, h3, h4⟩
        have hne : j ≠ i := by
          intro h; subst h; exact hp h3
        exact ⟨by omega, by omega, h3, fun k h5 h6 => h4 k (by omega) h6⟩

theorem shift_history_length (h : List schedule_history_t) (n i : Nat) :
    (shift_history h n i).length = h.length := by
  induction n generalizing h i with
  | zero => rfl
  | succ n ih => unfold shift_history; rw [ih]; simp

/-- The shift loop moves the entries `i + 1, ..., i + n` one slot down. -/
theorem shift_history_getD (h : List schedule_history_t) (n i j : Nat) :
    (shift_history h n i).getD j default
      = if i ≤ j ∧ j < i + n then h.getD (j + 1) default else h.getD j default := by
  induction n generalizing h i with
  | zero =>
    have : ¬ (i ≤ j ∧ j < i + 0) := by omega
    rw [if_neg this]; rfl
  | succ n ih =>
    unfold shift_history
    rw [ih]
    by_cases h1 : i + 1 ≤ j ∧ j < i + 1 + n
    · have h2 : i ≤ j ∧ j < i + (n + 1) := by omega
      rw [if_pos h1, if_pos h2, getD_set_ne _ _ _ _ _ (by omega)]
    · rw [if_neg h1]
      by_cases h3 : j = i
      · subst h3
        have h2 : j ≤ j ∧ j < j + (n + 1) := by omega
        rw [if_pos h2]
        by_cases hl : j < h.length
        · rw [getD_set_self _ _ _ _ hl]
        · rw [getD_of_length_le _ _ _ (by rw [List.length_set]; omega),
            getD_of_length_le _ _ _ (by omega)]
      · have h2 : ¬ (i ≤ j ∧ j < i + (n + 1)) := by omega
        rw [if_neg h2, getD_set_ne _ _ _ _ _ (by omega)]

theorem ext_getD {α : Type} (l1 l2 : List α) (d : α) (hl : l1.length = l2.length)
    (h : ∀ j, j < l1.length → l1.getD j d = l2.getD j d) : l1 = l2 := by
  apply List.ext_getElem hl
  intro j h1 h2
  have := h j h1
  simpa [List.getD_eq_getElem?_getD, List.getElem?_eq_getElem h1, List.getElem?_eq_getElem h2]
    using this

theorem strncpy_strftime (t : tm) : strncpy (strftime_ymdhm t) 19 = strftime_ymdhm t := by
  simp [strncpy, strftime_ymdhm, List.take_take]

theorem strncpy_of_length_le (s : String) (n : Nat) (h : s.length ≤ n) : strncpy s n = s := by
  unfold strncpy
  have : s.data.take n = s.data := List.take_of_length_le h
  rw [this]

/-- A slot that is active with the name searched for cannot be found when the name is
active nowhere. -/
theorem not_active_after_shift (h : List schedule_history_t) (name : String)
    (hname : ∀ i, i < MAX_HISTORY → slot_active_named h name i = false) :
    for_break (slot_active_named (shift_history h (MAX_HISTORY - 1) 0) name) MAX_HISTORY 0
      = none := by
  rw [for_break_eq_none]
  intro k _ hk
  unfold slot_active_named
  rw [shift_history_getD]
  have hk' : k < MAX_HISTORY := by omega
  by_cases h1 : 0 ≤ k ∧ k < 0 + (MAX_HISTORY - 1)
  · rw [if_pos h1]
    have := hname (k + 1) (by unfold MAX_HISTORY at *; omega)
    simpa [slot_active_named] using this
  · rw [if_neg h1]
    simpa [slot_active_named] using hname k hk'

/-- The ledger written by the `"ON"` branch when no slot is free and the name is not
active: the old entries `1, ..., 29` followed by the new record. -/
theorem history_on_full (ts name : String) (st : State)
    (hlen : st.schedule_history.length = MAX_HISTORY)
    (hfull : ∀ i, i < MAX_HISTORY → slot_free st.schedule_history i = false)
    (hname : ∀ i, i < MAX_HISTORY → slot_active_named st.schedule_history name i = false) :
    (history_on ts name st).schedule_history
        = st.schedule_history.tail ++ [new_record name ts]
    ∧ (history_on ts name st).history_count
        = if st.history_count < MAX_HISTORY then st.history_count + 1 else st.history_count := by
  have hnone : for_break (slot_free st.schedule_history) MAX_HISTORY 0 = none := by
    rw [for_break_eq_none]
    intro k _ hk
    exact hfull k (by omega)
  have hna := not_active_after_shift st.schedule_history name hname
  unfold history_on
  simp only [hnone, hna, Option.isSome_none, Bool.not_false, if_true]
  refine ⟨?_, trivial⟩
  apply ext_getD _ _ default
  · simp [shift_history_length, hlen, MAX_HISTORY]
  · intro j hj
    rw [List.length_set, shift_history_length, hlen] at hj
    by_cases h29 : j = MAX_HISTORY - 1
    · subst h29
      rw [getD_set_self _ _ _ _ (by rw [shift_history_length, hlen]; decide)]
      have : (st.schedule_history.tail ++ [new_record name ts]).getD (MAX_HISTORY - 1) default
          = new_record name ts := by
        rw [List.getD_eq_getElem?_getD, List.getElem?_append_right (by simp [hlen])]
        simp [hlen]
      rw [this]
    · rw [getD_set_ne _ _ _ _ _ (Ne.symm h29), shift_history_getD,
        if_pos ⟨by omega, by unfold MAX_HISTORY at *; omega⟩]
      rw [List.getD_eq_getElem?_getD, List.getD_eq_getElem?_getD,
        List.getElem?_append_left (by simp [hlen]; unfold MAX_HISTORY at *; omega)]
      simp [List.getElem?_tail]


theorem add_to_history_on (t : tm) (name : String) (st : State) :
    (add_to_history t name "ON" st).schedule_history
        = (history_on (strftime_ymdhm t) name st).schedule_history
    ∧ (add_to_history t name "ON" st).history_count
        = (history_on (strftime_ymdhm t) name st).history_count := by
  simp [add_to_history]

theorem new_record_eq (t : tm) (name : String) :
    new_record name (strftime_ymdhm t)
      = { name := strncpy name 31, start_time := strftime_ymdhm t, end_time := "",
          active := true } := by
  simp [new_record, strncpy_strftime, MAX_NAME_LEN]

/-- The ledger written by the `"ON"` branch when slot `j` is the first free one and the name
is not active: slot `j` holds the new record. -/
theorem history_on_free (ts name : String) (st : State) (j : Nat)
    (hj : for_break (slot_free st.schedule_history) MAX_HISTORY 0 = some j)
    (hname : ∀ i, i < MAX_HISTORY → slot_active_named st.schedule_history name i = false) :
    (history_on ts name st).schedule_history = st.schedule_history.set j (new_record name ts)
    ∧ (history_on ts name st).history_count
        = if st.history_count < MAX_HISTORY then st.history_count + 1 else st.history_count := by
  have hna : for_break (slot_active_named st.schedule_history name) MAX_HISTORY 0 = none := by
    rw [for_break_eq_none]
    intro k _ hk
    exact hname k (by omega)
  unfold history_on
  simp only [hj, hna, Option.isSome_none, Bool.not_false, if_true]
  exact ⟨trivial, trivial⟩

/-- The `"ON"` branch leaves the state alone when a slot is free and the name is active. -/
theorem history_on_duplicate (ts name : String) (st : State) (j i : Nat)
    (hj : for_break (slot_free st.schedule_history) MAX_HISTORY 0 = some j)
    (hi : i < MAX_HISTORY) (hname : slot_active_named st.schedule_history name i = true) :
    history_on ts name st = st := by
  have hna : (for_break (slot_active_named st.schedule_history name) MAX_HISTORY 0).isSome
      = true := by
    cases h : for_break (slot_active_named st.schedule_history name) MAX_HISTORY 0 with
    | some k => rfl
    | none =>
      rw [for_break_eq_none] at h
      have := h i (by omega) (by omega)
      rw [hname] at this
      cases this
  unfold history_on
  simp only [hj, hna, Bool.not_true]
  rfl

/-- C3 (failing input).  The schedule "Zone1" runs on 29 days, then the motor is switched
on by hand twice.  The second manual start finds the ledger full, shifts it before it
looks for an active entry, and leaves the active record "Manual Control" in slots 28
and 29: two active entries with the same name. -/
theorem duplicate_start_on_full_ledger_breaks_exclusion :
    ¬ mutually_exclusive
      (history_run
        (daily_pairs (fun _ => "Zone1") 29
          ++ [(clock_on_day 30 9 0, "Manual Control", "ON"),
              (clock_on_day 30 9 1, "Manual Control", "ON")])
        empty_state).schedule_history := by
  intro h
  exact h 28 29 (by decide) (by decide) (by decide)

/-- C4 (failing input).  In the full ledger whose slot 29 holds the active record
"Manual Control", another `add_to_history("Manual Control", "ON")` is not a no-op: the
oldest record is dropped from slot 0 and slot 28 becomes a second copy of slot 29. -/
theorem duplicate_start_on_full_ledger_shifts :
    slot_active_named full_ledger_state.schedule_history "Manual Control" 29 = true
    ∧ (add_to_history (clock_on_day 30 9 1) "Manual Control" "ON"
        full_ledger_state).schedule_history ≠ full_ledger_state.schedule_history
    ∧ (add_to_history (clock_on_day 30 9 1) "Manual Control" "ON"
        full_ledger_state).schedule_history
      = full_ledger_state.schedule_history.tail
          ++ [full_ledger_state.schedule_history.getD 29 default] := by
  decide

/-- C9.  When no slot of the 30-entry ledger is free and the name is not active,
`add_to_history(name, "ON")` yields the ledger whose slots 0..28 are the old slots 1..29, in
order, and whose slot 29 is the new active record; the ledger still has 30 entries, the old
slot 0 is no longer part of it, and a `history_count` of 30 stays 30. -/
theorem full_ledger_start_evicts_slot_zero (t : tm) (name : String) (st : State)
    (hlen : st.schedule_history.length = MAX_HISTORY)
    (hfull : ∀ i, i < MAX_HISTORY → slot_free st.schedule_history i = false)
    (hname : ∀ i, i < MAX_HISTORY → slot_active_named st.schedule_history name i = false) :
    (add_to_history t name "ON" st).schedule_history
        = st.schedule_history.tail
            ++ [{ name := strncpy name 31, start_time := strftime_ymdhm t, end_time := "",
                  active := true }]
    ∧ (add_to_history t name "ON" st).schedule_history.length = MAX_HISTORY
    ∧ (∀ j, j < MAX_HISTORY - 1 →
        (add_to_history t name "ON" st).schedule_history.getD j default
          = st.schedule_history.getD (j + 1) default)
    ∧ (add_to_history t name "ON" st).schedule_history.getD (MAX_HISTORY - 1) default
        = { name := strncpy name 31, start_time := strftime_ymdhm t, end_time := "",
            active := true }
    ∧ (st.history_count = MAX_HISTORY →
        (add_to_history t name "ON" st).history_count = MAX_HISTORY) := by
  obtain ⟨h1, h2⟩ := history_on_full (strftime_ymdhm t) name st hlen hfull hname
  rw [new_record_eq] at h1
  rw [(add_to_history_on t name st).1, (add_to_history_on t name st).2, h1, h2]
  have hl : st.schedule_history.tail.length = MAX_HISTORY - 1 := by simp [hlen]
  refine ⟨rfl, by simp [hlen, MAX_HISTORY], ?_, ?_, ?_⟩
  · intro j hj
    rw [List.getD_eq_getElem?_getD, List.getD_eq_getElem?_getD,
      List.getElem?_append_left (by omega), List.getElem?_tail]
  · rw [List.getD_eq_getElem?_getD, List.getElem?_append_right (by omega), hl]
    simp
  · intro h
    rw [h]
    simp

/-- C9, applied to the ledger left by 30 activation/deactivation pairs with the distinct
names "Z1", ..., "Z30" and one more activation "Z31": the ledger keeps 30 entries, the
first-inserted record "Z1" is no longer in it, and the second-inserted record "Z2" is at
index 0. -/
theorem full_ledger_start_evicts_slot_zero_witness :
    (history_run (daily_pairs (fun k => "Z" ++ toString k) 30) empty_state).schedule_history.length
      = MAX_HISTORY
    ∧ (∀ i, i < MAX_HISTORY →
        slot_free (history_run (daily_pairs (fun k => "Z" ++ toString k) 30)
          empty_state).schedule_history i = false)
    ∧ (add_to_history (clock_on_day 31 6 0) "Z31" "ON"
        (history_run (daily_pairs (fun k => "Z" ++ toString k) 30)
          empty_state)).schedule_history.length = MAX_HISTORY
    ∧ ((add_to_history (clock_on_day 31 6 0) "Z31" "ON"
        (history_run (daily_pairs (fun k => "Z" ++ toString k) 30)
          empty_state)).schedule_history.getD 0 default).name = "Z2"
    ∧ (∀ e ∈ (add_to_history (clock_on_day 31 6 0) "Z31" "ON"
        (history_run (daily_pairs (fun k => "Z" ++ toString k) 30)
          empty_state)).schedule_history, e.name ≠ "Z1") := by
  have h := full_ledger_start_evicts_slot_zero (clock_on_day 31 6 0) "Z31"
    (history_run (daily_pairs (fun k => "Z" ++ toString k) 30) empty_state)
    (by decide) (by decide) (by decide)
  refine ⟨by decide, by decide, h.2.1, ?_, ?_⟩
  · rw [h.2.2.1 0 (by decide)]
    decide
  · rw [h.1]
    decide

/-- When the 30-entry ledger has a free slot and the name is not active,
`add_to_history(name, "ON")` writes exactly the lowest-index free slot: it receives the
first 31 characters of the name (`strncpy` with `sizeof(name) - 1`), the formatted clock
reading as start time, an empty end time and `active = true`; every other slot is
unchanged. -/
theorem history_on_first_free_slot (t : tm) (name : String) (st : State)
    (hlen : st.schedule_history.length = MAX_HISTORY)
    (hfree : ∃ i, i < MAX_HISTORY ∧ slot_free st.schedule_history i = true)
    (hname : ∀ i, i < MAX_HISTORY → slot_active_named st.schedule_history name i = false) :
    ∃ j, j < MAX_HISTORY ∧ slot_free st.schedule_history j = true
      ∧ (∀ k, k < j → slot_free st.schedule_history k = false)
      ∧ (add_to_history t name "ON" st).schedule_history
          = st.schedule_history.set j
              { name := strncpy name 31, start_time := strftime_ymdhm t, end_time := "",
                active := true }
      ∧ (add_to_history t name "ON" st).schedule_history.getD j default
          = { name := strncpy name 31, start_time := strftime_ymdhm t, end_time := "",
              active := true }
      ∧ (∀ k, k ≠ j → (add_to_history t name "ON" st).schedule_history.getD k default
          = st.schedule_history.getD k default) := by
  cases hfb : for_break (slot_free st.schedule_history) MAX_HISTORY 0 with
  | none =>
    rw [for_break_eq_none] at hfb
    obtain ⟨i, hi, hfi⟩ := hfree
    have := hfb i (by omega) (by omega)
    rw [hfi] at this
    cases this
  | some j =>
    have hj := (for_break_eq_some _ _ _ _).1 hfb
    obtain ⟨h1, _⟩ := history_on_free (strftime_ymdhm t) name st j hfb hname
    rw [new_record_eq] at h1
    rw [(add_to_history_on t name st).1, h1]
    refine ⟨j, by omega, hj.2.2.1, fun k hk => hj.2.2.2 k (by omega) hk, rfl, ?_, ?_⟩
    · exact getD_set_self _ _ _ _ (by omega)
    · intro k hk
      exact getD_set_ne _ _ _ _ _ (Ne.symm hk)

/-- C10.  Let the 30-entry ledger have a free slot (`active` false and `start_time` empty)
and let the name, of at most 31 characters as every name that a caller of `add_to_history`
passes, not be active in it.  Then `add_to_history(name, "ON")`, taking the clock reading
`t`, writes exactly the lowest-index free slot: it receives the given name, the formatted
reading as start time, an empty end time and `active = true`, and every other slot is
unchanged. -/
theorem record_start_writes_first_free_slot (t : tm) (name : String) (st : State)
    (hlen : st.schedule_history.length = MAX_HISTORY)
    (hfree : ∃ i, i < MAX_HISTORY ∧ slot_free st.schedule_history i = true)
    (hname : ∀ i, i < MAX_HISTORY → slot_active_named st.schedule_history name i = false)
    (hn : name.length ≤ 31) :
    record_start_as_stated t name st
    ∧ ∃ j, j < MAX_HISTORY ∧ slot_free st.schedule_history j = true
      ∧ (∀ k, k < j → slot_free st.schedule_history k = false)
      ∧ (add_to_history t name "ON" st).schedule_history.getD j default
          = { name := name, start_time := strftime_ymdhm t, end_time := "", active := true }
      ∧ (∀ k, k ≠ j → (add_to_history t name "ON" st).schedule_history.getD k default
          = st.schedule_history.getD k default) := by
  obtain ⟨j, h1, h2, h3, h4, h5, h6⟩ := history_on_first_free_slot t name st hlen hfree hname
  rw [strncpy_of_length_le name 31 hn] at h4 h5
  exact ⟨⟨j, h1, h2, h3, h4⟩, j, h1, h2, h3, h5, h6⟩

/-- C10, applied to the activation of "Zone1" in the empty ledger: slot 0 is written. -/
theorem record_start_writes_first_free_slot_witness :
    empty_state.schedule_history.length = MAX_HISTORY
    ∧ (∃ i, i < MAX_HISTORY ∧ slot_free empty_state.schedule_history i = true)
    ∧ record_start_as_stated (clock 6 0) "Zone1" empty_state
    ∧ (add_to_history (clock 6 0) "Zone1" "ON" empty_state).schedule_history.getD 0 default
        = { name := "Zone1", start_time := "2025-07-08 06:00", end_time := "", active := true } :=
            by
  obtain ⟨h0, j, _, h2, h3, h5, _⟩ :=
    record_start_writes_first_free_slot (clock 6 0) "Zone1" empty_state (by decide)
      ⟨0, by decide, by decide⟩ (by decide) (by decide)
  have hj : j = 0 := by
    by_contra hne
    have := h3 0 (by omega)
    revert this
    decide
  subst hj
  refine ⟨by decide, ⟨0, by decide, by decide⟩, h0, ?_⟩
  rw [h5]
  decide


/-! ## Ticks in which one minute matters -/

theorem mem_scanned_minutes (x : Int) (d : Nat) (m : Int) :
    m ∈ scanned_minutes x d ↔ ∃ k : Nat, k < d ∧ m = (x + (k : Int)) % (24 * 60) := by
  unfold scanned_minutes
  rw [List.mem_map]
  constructor
  · rintro ⟨k, hk, rfl⟩
    exact ⟨k, List.mem_range.1 hk, rfl⟩
  · rintro ⟨k, hk, rfl⟩
    exact ⟨k, List.mem_range.2 hk, rfl⟩

/-- The minutes visited by a tick are those of the scanned range. -/
theorem mem_scanned_iff_in_range (c n m : Int) :
    m ∈ scanned_minutes ((c + 1) % (24 * 60)) (gap c n) ↔ in_scanned_range c n m := by
  rw [mem_scanned_minutes]
  unfold in_scanned_range gap
  constructor
  · rintro ⟨k, hk, rfl⟩
    omega
  · rintro ⟨h1, h2, h3, h4⟩
    refine ⟨((m - c) % (24 * 60) - 1).toNat, by omega, by omega⟩

theorem scanned_minutes_nodup (d : Nat) :
    ∀ x : Int, 0 ≤ x → x < 24 * 60 → d ≤ 24 * 60 → (scanned_minutes x d).Nodup := by
  induction d with
  | zero => intro x _ _ _; exact List.nodup_nil
  | succ d ih =>
    intro x h0 h1 hd
    rw [scanned_minutes_succ x d ⟨h0, h1⟩, List.nodup_cons]
    refine ⟨?_, ih _ (by omega) (by omega) (by omega)⟩
    rw [mem_scanned_minutes]
    rintro ⟨k, hk, h⟩
    omega

/-- A fold in which every element but `M` leaves the state alone applies the step at `M`
once, when `M` is in the list. -/
theorem foldl_fires_once {σ : Type} (f : σ → Int → σ) (P : σ → Prop) (M : Int)
    (ms : List Int) (hnd : ms.Nodup)
    (hskip : ∀ st m, P st → m ∈ ms → m ≠ M → f st m = st)
    (hP : ∀ st, P st → P (f st M)) (st : σ) (h : P st) :
    ms.foldl f st = if M ∈ ms then f st M else st := by
  induction ms generalizing st with
  | nil => simp
  | cons m ms ih =>
    rw [List.nodup_cons] at hnd
    have hskip' : ∀ st m, P st → m ∈ ms → m ≠ M → f st m = st :=
      fun st m h1 h2 h3 => hskip st m h1 (List.mem_cons_of_mem _ h2) h3
    rw [List.foldl_cons]
    by_cases hm : m = M
    · subst hm
      rw [ih hnd.2 hskip' _ (hP st h), if_neg hnd.1]
      simp
    · rw [hskip st m h (List.mem_cons_self _ _) hm, ih hnd.2 hskip' st h]
      have : M ∈ m :: ms ↔ M ∈ ms := by
        rw [List.mem_cons]
        constructor
        · rintro (h1 | h1)
          · exact absurd h1.symm hm
          · exact h1
        · exact Or.inr
      simp only [this]

/-- A tick in which the loop body changes the state at the one scanned minute `M` is that
loop body at `M`, followed by the move of the cursor. -/
theorem check_schedules_single_minute (t : tick_clock) (st : State) (P : State → Prop) (M : Int)
    (hc : 0 ≤ st.last_checked_minute ∧ st.last_checked_minute < 24 * 60)
    (hM : in_scanned_range st.last_checked_minute (minute_of_day t.timeinfo) M)
    (hskip : ∀ st' m, P st' → in_scanned_range st.last_checked_minute (minute_of_day t.timeinfo) m →
      m ≠ M → minute_step t st' m = st')
    (hP : ∀ st', P st' → P (minute_step t st' M)) (h : P st) :
    check_schedules t st
      = some { minute_step t st M with last_checked_minute := minute_of_day t.timeinfo } := by
  rw [check_schedules_eq t st hc,
    foldl_fires_once (minute_step t) P M _
      (scanned_minutes_nodup _ _ (by omega) (by omega) (le_of_lt (gap_lt _ _)))
      (fun st' m h1 h2 h3 => hskip st' m h1 ((mem_scanned_iff_in_range _ _ _).1 h2) h3)
      hP st h,
    if_pos ((mem_scanned_iff_in_range _ _ _).2 hM)]

/-- With one schedule in the table the `for` loop is one pass of its body. -/
theorem minute_step_single (t : tick_clock) (st : State) (m : Int) (h : st.schedule_count = 1) :
    minute_step t st m = schedule_step t m 0 st := by
  have h1 := (schedule_step_table t m 0 st).2.2.1
  unfold minute_step MAX_SCHEDULES
  rw [schedule_loop, if_pos (by rw [h]; decide), schedule_loop, if_neg (by rw [h1, h]; decide)]

/-- The loop body does nothing for a schedule that is disabled. -/
theorem schedule_step_disabled (t : tick_clock) (m : Int) (i : Nat) (st : State)
    (h : (st.schedules.getD i default).enabled = false) : schedule_step t m i st = st := by
  unfold schedule_step
  simp only [h, Bool.not_false, if_true]

/-- The loop body does nothing at a minute that is neither boundary of the schedule. -/
theorem schedule_step_skip (t : tick_clock) (m : Int) (i : Nat) (st : State)
    (h1 : ¬ starts_at (st.schedules.getD i default) m)
    (h2 : ¬ ends_at (st.schedules.getD i default) m) : schedule_step t m i st = st := by
  unfold starts_at at h1
  unfold ends_at at h2
  unfold schedule_step
  simp only [h1, h2, if_false]
  split <;> rfl

/-- The loop body at the start boundary of an enabled schedule, when it is not also its
end boundary. -/
theorem schedule_step_start (t : tick_clock) (m : Int) (i : Nat) (st : State)
    (he : (st.schedules.getD i default).enabled = true)
    (h1 : starts_at (st.schedules.getD i default) m)
    (h2 : ¬ ends_at (st.schedules.getD i default) m) :
    schedule_step t m i st
      = add_to_history (t.at_call (motor_call.on m i)) (st.schedules.getD i default).name "ON"
          { motor_on st with calls := st.calls ++ [motor_call.on m i] } := by
  unfold starts_at at h1
  unfold ends_at at h2
  unfold schedule_step
  simp only [he, h1, Bool.not_true, Bool.false_eq_true, if_false, and_self, if_true,
    add_to_history_schedules, motor_on, h2]

/-- The loop body at the end boundary of an enabled daily schedule, when it is not also its
start boundary. -/
theorem schedule_step_end_daily (t : tick_clock) (m : Int) (i : Nat) (st : State)
    (he : (st.schedules.getD i default).enabled = true)
    (hr : (st.schedules.getD i default).repeat_daily = true)
    (h1 : ¬ starts_at (st.schedules.getD i default) m)
    (h2 : ends_at (st.schedules.getD i default) m) :
    schedule_step t m i st
      = add_to_history (t.at_call (motor_call.off m i)) (st.schedules.getD i default).name "OFF"
          { motor_off st with calls := st.calls ++ [motor_call.off m i] } := by
  unfold starts_at at h1
  unfold ends_at at h2
  unfold schedule_step
  simp only [he, h1, Bool.not_true, Bool.false_eq_true, if_false, h2, and_self, if_true,
    add_to_history_schedules, motor_off, hr]

theorem add_to_history_off (t : tm) (name : String) (st : State) :
    (add_to_history t name "OFF" st).schedule_history
        = (history_off (strftime_ymdhm t) name st).schedule_history
    ∧ (add_to_history t name "OFF" st).history_count
        = (history_off (strftime_ymdhm t) name st).history_count := by
  have h : ¬ ("OFF" = "ON") := by decide
  simp [add_to_history, h]

/-- The `"OFF"` branch closes the slot at which its loop breaks. -/
theorem history_off_found (ts name : String) (st : State) (i : Nat)
    (h : for_break (slot_active_named st.schedule_history name) MAX_HISTORY 0 = some i) :
    (history_off ts name st).schedule_history
        = st.schedule_history.set i
            { (st.schedule_history.getD i default) with
              end_time := strncpy ts 19, active := false }
    ∧ (history_off ts name st).history_count = st.history_count := by
  unfold history_off
  rw [h]
  exact ⟨rfl, rfl⟩

/-- The `"OFF"` branch leaves the state alone when the name is not active. -/
theorem history_off_not_found (ts name : String) (st : State)
    (h : for_break (slot_active_named st.schedule_history name) MAX_HISTORY 0 = none) :
    history_off ts name st = st := by
  unfold history_off
  rw [h]

theorem slot_active_named_new_record (l : List schedule_history_t) (name ts : String) (i : Nat)
    (hn : name.length ≤ 31) (h : l.getD i default = new_record name ts) :
    slot_active_named l name i = true := by
  unfold slot_active_named
  rw [h]
  simp [new_record, MAX_NAME_LEN, strncpy_of_length_le name 31 hn]

/-- The `"ON"` branch for a name that is not active: one slot receives the new record, it
is then the only active slot with that name, and every other slot holds an old entry. -/
theorem history_on_new_record (ts name : String) (st : State)
    (hlen : st.schedule_history.length = MAX_HISTORY) (hn : name.length ≤ 31)
    (hname : ∀ i, i < MAX_HISTORY → slot_active_named st.schedule_history name i = false) :
    ∃ idx, idx < MAX_HISTORY
      ∧ (history_on ts name st).schedule_history.length = MAX_HISTORY
      ∧ (history_on ts name st).schedule_history.getD idx default = new_record name ts
      ∧ (∀ k, k < MAX_HISTORY →
          (slot_active_named (history_on ts name st).schedule_history name k = true ↔ k = idx))
      ∧ (∀ k, k < MAX_HISTORY → k ≠ idx →
          (history_on ts name st).schedule_history.getD k default
              = st.schedule_history.getD k default
          ∨ (history_on ts name st).schedule_history.getD k default
              = st.schedule_history.getD (k + 1) default) := by
  cases hfb : for_break (slot_free st.schedule_history) MAX_HISTORY 0 with
  | some j =>
    have hj := (for_break_eq_some _ _ _ _).1 hfb
    have hj30 : j < MAX_HISTORY := by omega
    obtain ⟨h1, _⟩ := history_on_free ts name st j hfb hname
    rw [h1]
    have hrec : (st.schedule_history.set j (new_record name ts)).getD j default
        = new_record name ts := getD_set_self _ _ _ _ (by omega)
    refine ⟨j, hj30, by simp [hlen], hrec, ?_, ?_⟩
    · intro k hk
      constructor
      · intro h
        by_contra hne
        have h2 := hname k hk
        unfold slot_active_named at h h2
        rw [getD_set_ne _ _ _ _ _ (Ne.symm hne)] at h
        rw [h2] at h
        cases h
      · intro h
        subst h
        exact slot_active_named_new_record _ _ _ _ hn hrec
    · intro k _ hne
      left
      exact getD_set_ne _ _ _ _ _ (Ne.symm hne)
  | none =>
    rw [for_break_eq_none] at hfb
    obtain ⟨h1, _⟩ := history_on_full ts name st hlen (fun i hi => hfb i (by omega) (by omega))
      hname
    rw [h1]
    have hl : st.schedule_history.tail.length = MAX_HISTORY - 1 := by simp [hlen]
    have hrec : (st.schedule_history.tail ++ [new_record name ts]).getD (MAX_HISTORY - 1) default
        = new_record name ts := by
      rw [List.getD_eq_getElem?_getD, List.getElem?_append_right (by omega), hl]
      simp
    have hold : ∀ k, k < MAX_HISTORY - 1 →
        (st.schedule_history.tail ++ [new_record name ts]).getD k default
          = st.schedule_history.getD (k + 1) default := by
      intro k hk
      rw [List.getD_eq_getElem?_getD, List.getD_eq_getElem?_getD,
        List.getElem?_append_left (by omega), List.getElem?_tail]
    refine ⟨MAX_HISTORY - 1, by decide, by simp [hlen, MAX_HISTORY], hrec, ?_, ?_⟩
    · intro k hk
      constructor
      · intro h
        by_contra hne
        have hk' : k < MAX_HISTORY - 1 := by omega
        have h2 := hname (k + 1) (by unfold MAX_HISTORY at *; omega)
        unfold slot_active_named at h h2
        rw [hold k hk', h2] at h
        cases h
      · intro h
        subst h
        exact slot_active_named_new_record _ _ _ _ hn hrec
    · intro k hk hne
      right
      exact hold k (by omega)

theorem starts_at_unique (s : schedule_t) (m m' : Int) (h : starts_at s m) (h' : starts_at s m') :
    m = m' := by
  unfold starts_at at h h'
  omega

theorem ends_at_unique (s : schedule_t) (m m' : Int) (h : ends_at s m) (h' : ends_at s m') :
    m = m' := by
  unfold ends_at at h h'
  omega

/-- A tick over a one-schedule table whose scanned range contains the start minute of the
enabled schedule and not its end minute: one `motor_on` and one `"ON"` history call. -/
theorem tick_over_start (t : tick_clock) (st : State) (S : Int)
    (hc : 0 ≤ st.last_checked_minute ∧ st.last_checked_minute < 24 * 60)
    (hcount : st.schedule_count = 1)
    (hen : (st.schedules.getD 0 default).enabled = true)
    (hS : starts_at (st.schedules.getD 0 default) S)
    (hS1 : in_scanned_range st.last_checked_minute (minute_of_day t.timeinfo) S)
    (hE1 : ∀ m, ends_at (st.schedules.getD 0 default) m →
      ¬ in_scanned_range st.last_checked_minute (minute_of_day t.timeinfo) m) :
    check_schedules t st
      = some { add_to_history (t.at_call (motor_call.on S 0)) (st.schedules.getD 0 default).name
          "ON"
                 { motor_on st with calls := st.calls ++ [motor_call.on S 0] } with
               last_checked_minute := minute_of_day t.timeinfo } := by
  have hSE : ¬ ends_at (st.schedules.getD 0 default) S := fun h => hE1 S h hS1
  rw [check_schedules_single_minute t st
    (fun st' => st'.schedule_count = 1 ∧ st'.schedules = st.schedules) S hc hS1
    (by
      rintro st' m ⟨p1, p2⟩ hm hne
      rw [minute_step_single t st' m p1]
      apply schedule_step_skip <;> rw [p2]
      · exact fun h => hne (starts_at_unique _ m S h hS)
      · exact fun h => hE1 m h hm)
    (by
      rintro st' ⟨p1, p2⟩
      rw [minute_step_single t st' S p1,
        schedule_step_start t S 0 st' (by rw [p2]; exact hen) (by rw [p2]; exact hS)
          (by rw [p2]; exact hSE)]
      exact ⟨by simpa [motor_on] using p1, by simpa [motor_on] using p2⟩)
    ⟨hcount, rfl⟩,
    minute_step_single t st S hcount, schedule_step_start t S 0 st hen hS hSE]

/-- A tick over a one-schedule table whose scanned range contains the end minute of the
enabled daily schedule and not its start minute: one `motor_off` and one `"OFF"` history
call. -/
theorem tick_over_end_daily (t : tick_clock) (st : State) (E : Int)
    (hc : 0 ≤ st.last_checked_minute ∧ st.last_checked_minute < 24 * 60)
    (hcount : st.schedule_count = 1)
    (hen : (st.schedules.getD 0 default).enabled = true)
    (hrep : (st.schedules.getD 0 default).repeat_daily = true)
    (hE : ends_at (st.schedules.getD 0 default) E)
    (hE2 : in_scanned_range st.last_checked_minute (minute_of_day t.timeinfo) E)
    (hS2 : ∀ m, starts_at (st.schedules.getD 0 default) m →
      ¬ in_scanned_range st.last_checked_minute (minute_of_day t.timeinfo) m) :
    check_schedules t st
      = some { add_to_history (t.at_call (motor_call.off E 0)) (st.schedules.getD 0 default).name
          "OFF"
                 { motor_off st with calls := st.calls ++ [motor_call.off E 0] } with
               last_checked_minute := minute_of_day t.timeinfo } := by
  have hES : ¬ starts_at (st.schedules.getD 0 default) E := fun h => hS2 E h hE2
  rw [check_schedules_single_minute t st
    (fun st' => st'.schedule_count = 1 ∧ st'.schedules = st.schedules) E hc hE2
    (by
      rintro st' m ⟨p1, p2⟩ hm hne
      rw [minute_step_single t st' m p1]
      apply schedule_step_skip <;> rw [p2]
      · exact fun h => hS2 m h hm
      · exact fun h => hne (ends_at_unique _ m E h hE))
    (by
      rintro st' ⟨p1, p2⟩
      rw [minute_step_single t st' E p1,
        schedule_step_end_daily t E 0 st' (by rw [p2]; exact hen) (by rw [p2]; exact hrep)
          (by rw [p2]; exact hES) (by rw [p2]; exact hE)]
      exact ⟨by simpa [motor_off] using p1, by simpa [motor_off] using p2⟩)
    ⟨hcount, rfl⟩,
    minute_step_single t st E hcount, schedule_step_end_daily t E 0 st hen hrep hES hE]

/-- The ledger after `add_to_history(name, "OFF")` when the loop breaks at slot `i`. -/
theorem add_to_history_off_found (t : tm) (name : String) (st : State) (i : Nat)
    (h : for_break (slot_active_named st.schedule_history name) MAX_HISTORY 0 = some i) :
    (add_to_history t name "OFF" st).schedule_history
      = st.schedule_history.set i
          { (st.schedule_history.getD i default) with
            end_time := strftime_ymdhm t, active := false } := by
  rw [(add_to_history_off t name st).1, (history_off_found _ name st i h).1, strncpy_strftime]

/-- C6.  Let the table hold one schedule `s`, enabled and repeating daily, its name a C string
of the 32-byte name field, and let no ledger entry with its name be active.  A tick whose
scanned range contains the start minute `S` of `s` and not its end minute makes exactly one
motor call, `motor_on` for `s` at `S`, and leaves exactly one active ledger record with
the name of `s`, the new record in a slot `idx`, every other slot holding an old entry.
A later tick (the cursor then at `c2`) whose scanned range contains the end minute `E` and
not the start minute makes exactly one motor call, `motor_off` for `s` at `E`, closes the
record in slot `idx` (`active` false, `end_time` set), and leaves the schedule table as it
was, so the schedule is still enabled.  The start and the end time of the record are the
formatted clock readings that `add_to_history` takes in the first and in the later tick. -/
theorem daily_schedule_cycle (t1 t2 : tick_clock) (st : State) (s : schedule_t) (S E c2 : Int)
    (hc : 0 ≤ st.last_checked_minute ∧ st.last_checked_minute < 24 * 60)
    (hcount : st.schedule_count = 1) (hs : st.schedules.getD 0 default = s)
    (hen : s.enabled = true) (hrep : s.repeat_daily = true) (hnl : s.name.length ≤ 31)
    (hlen : st.schedule_history.length = MAX_HISTORY)
    (hname : ∀ i, i < MAX_HISTORY → slot_active_named st.schedule_history s.name i = false)
    (hS : starts_at s S) (hE : ends_at s E)
    (hS1 : in_scanned_range st.last_checked_minute (minute_of_day t1.timeinfo) S)
    (hE1 : ¬ in_scanned_range st.last_checked_minute (minute_of_day t1.timeinfo) E)
    (hc2 : 0 ≤ c2 ∧ c2 < 24 * 60)
    (hE2 : in_scanned_range c2 (minute_of_day t2.timeinfo) E)
    (hS2 : ¬ in_scanned_range c2 (minute_of_day t2.timeinfo) S) :
    ∃ st1 st2 idx,
      check_schedules t1 st = some st1
      ∧ st1.calls = st.calls ++ [motor_call.on S 0]
      ∧ st1.motor_state = true
      ∧ idx < MAX_HISTORY
      ∧ st1.schedule_history.getD idx default
          = { name := s.name, start_time := strftime_ymdhm (t1.at_call (motor_call.on S 0)),
              end_time := "", active := true }
      ∧ (∀ k, k < MAX_HISTORY →
          (slot_active_named st1.schedule_history s.name k = true ↔ k = idx))
      ∧ (∀ k, k < MAX_HISTORY → k ≠ idx →
          st1.schedule_history.getD k default = st.schedule_history.getD k default
          ∨ st1.schedule_history.getD k default = st.schedule_history.getD (k + 1) default)
      ∧ check_schedules t2 { st1 with last_checked_minute := c2 } = some st2
      ∧ st2.calls = st1.calls ++ [motor_call.off E 0]
      ∧ st2.motor_state = false
      ∧ st2.schedule_history
          = st1.schedule_history.set idx
              { name := s.name, start_time := strftime_ymdhm (t1.at_call (motor_call.on S 0)),
                end_time := strftime_ymdhm (t2.at_call (motor_call.off E 0)), active := false }
      ∧ st2.schedules = st.schedules
      ∧ (st2.schedules.getD 0 default).enabled = true := by
  subst hs
  -- the first tick
  have tick1 := tick_over_start t1 st S hc hcount hen hS hS1
    (fun m h => by rw [ends_at_unique _ m E h hE]; exact hE1)
  obtain ⟨idx, hidx, _, hrec, huniq, hold⟩ :=
    history_on_new_record (strftime_ymdhm (t1.at_call (motor_call.on S 0)))
      (st.schedules.getD 0 default).name
      { motor_on st with calls := st.calls ++ [motor_call.on S 0] } hlen hnl hname
  rw [← (add_to_history_on (t1.at_call (motor_call.on S 0)) _ _).1] at hrec huniq hold
  rw [new_record_eq, strncpy_of_length_le _ 31 hnl] at hrec
  -- the state between the ticks
  obtain ⟨st1, hst1⟩ : ∃ x, x = ({ add_to_history (t1.at_call (motor_call.on S 0))
        (st.schedules.getD 0 default).name "ON"
      { motor_on st with calls := st.calls ++ [motor_call.on S 0] } with
      last_checked_minute := minute_of_day t1.timeinfo } : State) := ⟨_, rfl⟩
  have e0 : st1.schedule_history = (add_to_history (t1.at_call (motor_call.on S 0))
        (st.schedules.getD 0 default).name "ON"
      { motor_on st with calls := st.calls ++ [motor_call.on S 0] }).schedule_history := by
    rw [hst1]
  rw [← hst1] at tick1
  rw [← e0] at hrec huniq hold
  have e1 : st1.schedules = st.schedules := by rw [hst1]; simp [motor_on]
  have e2 : st1.schedule_count = 1 := by rw [hst1]; simpa [motor_on] using hcount
  have e3 : st1.calls = st.calls ++ [motor_call.on S 0] := by rw [hst1]; simp
  have e4 : st1.motor_state = true := by rw [hst1]; simp [motor_on]
  clear hst1 e0
  have hfound : for_break (slot_active_named st1.schedule_history
      (st.schedules.getD 0 default).name) MAX_HISTORY 0 = some idx := by
    rw [for_break_eq_some]
    refine ⟨by omega, by omega, (huniq idx hidx).2 rfl, ?_⟩
    intro k _ hk
    cases h : slot_active_named st1.schedule_history (st.schedules.getD 0 default).name k
    · rfl
    · have := (huniq k (by omega)).1 h
      omega
  -- the second tick
  have f1 : ({ st1 with last_checked_minute := c2 } : State).schedules = st.schedules := e1
  have tick2 := tick_over_end_daily t2 { st1 with last_checked_minute := c2 } E hc2 e2
    (by rw [f1]; exact hen) (by rw [f1]; exact hrep) (by rw [f1]; exact hE) hE2
    (fun m h => by
      rw [f1] at h
      rw [starts_at_unique _ m S h hS]; exact hS2)
  obtain ⟨st2, hsome⟩ : ∃ x, some x = check_schedules t2 { st1 with last_checked_minute := c2 } :=
    ⟨_, tick2.symm⟩
  have hst2 := Option.some.inj (hsome.trans tick2)
  have hoff := add_to_history_off_found (t2.at_call (motor_call.off E 0)) (st.schedules.getD 0
      default).name
    { motor_off { st1 with last_checked_minute := c2 } with
      calls := st1.calls ++ [motor_call.off E 0] } idx hfound
  rw [show ({ motor_off { st1 with last_checked_minute := c2 } with
      calls := st1.calls ++ [motor_call.off E 0] } : State).schedule_history
      = st1.schedule_history from rfl, hrec] at hoff
  have g0 : st2.schedule_history = (add_to_history (t2.at_call (motor_call.off E 0))
      (st.schedules.getD 0 default).name "OFF"
      { motor_off { st1 with last_checked_minute := c2 } with
        calls := st1.calls ++ [motor_call.off E 0] }).schedule_history := by
    rw [hst2]
    dsimp only
    rw [e1]
  have g1 : st2.schedules = st.schedules := by rw [hst2]; simpa [motor_off] using e1
  have g3 : st2.calls = st1.calls ++ [motor_call.off E 0] := by rw [hst2]; simp
  have g4 : st2.motor_state = false := by rw [hst2]; simp [motor_off]
  rw [← g0] at hoff
  clear hst2 g0
  exact ⟨st1, st2, idx, tick1, e3, e4, hidx, hrec, huniq, hold, hsome.symm, g3, g4, hoff, g1,
    by rw [g1]; exact hen⟩

/-- C6, applied to the daily schedule "Zone1" 06:00-06:30 with the cursor at 05:59: the tick
at 06:05 fires the start, the tick at 06:35 (cursor at 06:05) fires the end, and the
schedule stays enabled. -/
theorem daily_schedule_cycle_witness :
    (state_at_0559 (mk_schedule "Zone1" 6 0 6 30 true)).schedule_count = 1
    ∧ starts_at (mk_schedule "Zone1" 6 0 6 30 true) 360
    ∧ ends_at (mk_schedule "Zone1" 6 0 6 30 true) 390
    ∧ in_scanned_range 359 (minute_of_day (clock 6 5)) 360
    ∧ ¬ in_scanned_range 359 (minute_of_day (clock 6 5)) 390
    ∧ in_scanned_range 365 (minute_of_day (clock 6 35)) 390
    ∧ ¬ in_scanned_range 365 (minute_of_day (clock 6 35)) 360
    ∧ ∃ st1 st2,
        check_schedules (steady (clock 6 5)) (state_at_0559 (mk_schedule "Zone1" 6 0 6 30 true)) =
            some st1
        ∧ st1.calls = [motor_call.on 360 0]
        ∧ check_schedules (steady (clock 6 35)) { st1 with last_checked_minute := 365 } = some st2
        ∧ st2.calls = [motor_call.on 360 0, motor_call.off 390 0]
        ∧ (st2.schedules.getD 0 default).enabled = true := by
  obtain ⟨st1, st2, idx, h1, h2, _, _, _, _, _, h8, h9, _, _, _, h13⟩ :=
    daily_schedule_cycle (steady (clock 6 5)) (steady (clock 6 35)) (state_at_0559 (mk_schedule
        "Zone1" 6 0 6 30 true))
      (mk_schedule "Zone1" 6 0 6 30 true) 360 390 365 (by decide) (by decide) (by decide)
      (by decide) (by decide) (by decide) (by decide) (by decide) (by decide) (by decide)
      (by decide) (by decide) (by decide) (by decide) (by decide)
  refine ⟨by decide, by decide, by decide, by decide, by decide, by decide, by decide,
    st1, st2, h1, ?_, h8, ?_, h13⟩
  · rw [h2]; rfl
  · rw [h9, h2]; rfl


/-- C5 (as stated, refuted).  The three ticks on 2025-07-08, the clock reading 05:59, 06:05
and 06:35 throughout the first, second and third.  After the second tick the one ledger
record named "Zone1" has the start time "2025-07-08 06:05", the time at which the start
was processed, which does not end in "06:00"; after the third tick its end time is
"2025-07-08 06:35", which does not end in "06:30". -/
theorem zone1_record_carries_tick_time :
    ((check_schedules (steady (clock 5 59)) (zone1_boot true)
          >>= check_schedules (steady (clock 6 5))).map
        (fun s => s.schedule_history.filter (fun e => e.name = "Zone1")))
      = some [{ name := "Zone1", start_time := "2025-07-08 06:05", end_time := "",
                active := true }]
    ∧ ¬ ("06:00".data <:+ "2025-07-08 06:05".data)
    ∧ ((check_schedules (steady (clock 5 59)) (zone1_boot true)
          >>= check_schedules (steady (clock 6 5)) >>= check_schedules (steady (clock 6 35))).map
        (fun s => s.schedule_history.filter (fun e => e.name = "Zone1")))
      = some [{ name := "Zone1", start_time := "2025-07-08 06:05",
                end_time := "2025-07-08 06:35", active := false }]
    ∧ ¬ ("06:30".data <:+ "2025-07-08 06:35".data) := by
  decide

/-- C5 (amended).  With the single daily schedule "Zone1" 06:00-06:30, an empty ledger and
an unset cursor, the ticks at 05:59, 06:05 and 06:35 (of any date) give: no effect at 05:59
but the cursor; at 06:05 exactly one motor call, `motor_on`, and one ledger record
"Zone1", active, whose start time is the formatted clock reading that `add_to_history`
takes when it is called in that tick, whatever that reading is; at 06:35 exactly one more
motor call, `motor_off`, the same record closed, with the formatted clock reading that
`add_to_history` takes in that tick as end time and `active` false, and the schedule
still enabled.  Neither time is the boundary, 06:00 or 06:30, of the schedule. -/
theorem zone1_scenario (t1 t2 t3 : tick_clock)
    (h1 : t1.timeinfo.tm_hour = 5 ∧ t1.timeinfo.tm_min = 59)
    (h2 : t2.timeinfo.tm_hour = 6 ∧ t2.timeinfo.tm_min = 5)
    (h3 : t3.timeinfo.tm_hour = 6 ∧ t3.timeinfo.tm_min = 35) :
    ∃ s1 s2 s3,
      check_schedules t1 (zone1_boot true) = some s1
      ∧ s1 = { zone1_boot true with last_checked_minute := 359 }
      ∧ check_schedules t2 s1 = some s2
      ∧ s2.calls = [motor_call.on 360 0]
      ∧ s2.motor_state = true
      ∧ s2.schedule_history
          = { name := "Zone1", start_time := strftime_ymdhm (t2.at_call (motor_call.on 360 0)),
              end_time := "", active := true }
            :: List.replicate 29 default
      ∧ check_schedules t3 s2 = some s3
      ∧ s3.calls = [motor_call.on 360 0, motor_call.off 390 0]
      ∧ s3.motor_state = false
      ∧ s3.schedule_history
          = { name := "Zone1", start_time := strftime_ymdhm (t2.at_call (motor_call.on 360 0)),
              end_time := strftime_ymdhm (t3.at_call (motor_call.off 390 0)),
              active := false } :: List.replicate 29 default
      ∧ (s3.schedules.getD 0 default).enabled = true := by
  have m2 : minute_of_day t2.timeinfo = 365 := by simp [minute_of_day, h2.1, h2.2]
  have m3 : minute_of_day t3.timeinfo = 395 := by simp [minute_of_day, h3.1, h3.2]
  -- 05:59
  have tick1 : check_schedules t1 (zone1_boot true)
      = some { zone1_boot true with last_checked_minute := 359 } := by
    simp [check_schedules, check_schedules_fuel, zone1_boot, boot_state, h1.1, h1.2]
  -- 06:05
  have tick2 := tick_over_start t2 { zone1_boot true with last_checked_minute := 359 } 360
    (by decide) (by decide) (by decide) (by decide) (by rw [m2]; decide)
    (fun m h => by
      have : m = 390 := ends_at_unique _ m 390 h (by decide)
      rw [this, m2]; decide)
  obtain ⟨s2, hsome2⟩ : ∃ x, some x
      = check_schedules t2 { zone1_boot true with last_checked_minute := 359 } :=
    ⟨_, tick2.symm⟩
  have hs2 := Option.some.inj (hsome2.trans tick2)
  have a1 : s2.calls = [motor_call.on 360 0] := by rw [hs2]; simp; rfl
  have a2 : s2.motor_state = true := by rw [hs2]; simp [motor_on]
  have a3 : s2.schedules = (zone1_boot true).schedules := by rw [hs2]; simp [motor_on]
  have a4 : s2.schedule_count = 1 := by rw [hs2]; simp [motor_on]; rfl
  have a5 : s2.last_checked_minute = 365 := by rw [hs2]; exact m2
  have a6 : s2.schedule_history
      = { name := "Zone1", start_time := strftime_ymdhm (t2.at_call (motor_call.on 360 0)),
              end_time := "", active := true }
        :: List.replicate 29 default := by
    rw [hs2]
    dsimp only
    rw [(add_to_history_on (t2.at_call (motor_call.on 360 0)) _ _).1,
      (history_on_free (strftime_ymdhm (t2.at_call (motor_call.on 360 0))) _ _ 0 (by decide)
        (by decide)).1, new_record_eq]
    rfl
  clear hs2 tick2
  -- 06:35
  have tick3 := tick_over_end_daily t3 s2 390 (by rw [a5]; decide) a4
    (by rw [a3]; decide) (by rw [a3]; decide) (by rw [a3]; decide)
    (by rw [a5, m3]; decide)
    (fun m h => by
      rw [a3] at h
      have : m = 360 := starts_at_unique _ m 360 h (by decide)
      rw [this, a5, m3]; decide)
  obtain ⟨s3, hsome3⟩ : ∃ x, some x = check_schedules t3 s2 := ⟨_, tick3.symm⟩
  have hs3 := Option.some.inj (hsome3.trans tick3)
  have hfound : for_break (slot_active_named s2.schedule_history
      (s2.schedules.getD 0 default).name) MAX_HISTORY 0 = some 0 := by
    rw [for_break_eq_some, a6, a3]
    refine ⟨le_refl _, by decide, by rfl, fun k h1 h2 => by omega⟩
  have b1 : s3.calls = [motor_call.on 360 0, motor_call.off 390 0] := by
    rw [hs3]; simp [a1]
  have b2 : s3.motor_state = false := by rw [hs3]; simp [motor_off]
  have b3 : s3.schedules = (zone1_boot true).schedules := by rw [hs3]; simpa [motor_off] using a3
  have b4 : s3.schedule_history
      = { name := "Zone1", start_time := strftime_ymdhm (t2.at_call (motor_call.on 360 0)),
              end_time := strftime_ymdhm (t3.at_call (motor_call.off 390 0)),
          active := false } :: List.replicate 29 default := by
    rw [hs3]
    dsimp only
    rw [add_to_history_off_found (t3.at_call (motor_call.off 390 0)) _
      { motor_off s2 with calls := s2.calls ++ [motor_call.off 390 0] } 0 hfound]
    dsimp only [motor_off]
    rw [a6]
    rfl
  exact ⟨_, s2, s3, tick1, rfl, hsome2.symm, a1, a2, a6, hsome3.symm, b1, b2, b4,
    by rw [b3]; decide⟩

/-- C5 (amended), on 2025-07-08, with a second tick that begins at 06:05 and whose
`add_to_history` call reads 06:06: the record reads "2025-07-08 06:06" after the second
tick and is closed at "2025-07-08 06:35" by the third. -/
theorem zone1_scenario_witness :
    ∃ s2 s3,
      check_schedules (clock_then (clock 6 5) (clock 6 6))
          { zone1_boot true with last_checked_minute := 359 } = some s2
      ∧ s2.calls = [motor_call.on 360 0]
      ∧ s2.schedule_history.getD 0 default
          = { name := "Zone1", start_time := "2025-07-08 06:06", end_time := "", active := true }
      ∧ check_schedules (steady (clock 6 35)) s2 = some s3
      ∧ s3.calls = [motor_call.on 360 0, motor_call.off 390 0]
      ∧ s3.schedule_history.getD 0 default
          = { name := "Zone1", start_time := "2025-07-08 06:06",
              end_time := "2025-07-08 06:35", active := false }
      ∧ (s3.schedules.getD 0 default).enabled = true := by
  obtain ⟨s1, s2, s3, _, h1, h2, h3, _, h5, h6, h7, _, h9, h10⟩ :=
    zone1_scenario (steady (clock 5 59)) (clock_then (clock 6 5) (clock 6 6))
      (steady (clock 6 35)) (by decide) (by decide) (by decide)
  subst h1
  refine ⟨s2, s3, h2, h3, ?_, h6, h7, ?_, h10⟩
  · rw [h5]; decide
  · rw [h9]; decide


/-! ## The NVS content -/

theorem sched_key_ne_sched_count : ∀ i, i < MAX_SCHEDULES → sched_key i ≠ "sched_count" := by
  decide

theorem sched_key_ne_device : ∀ i, i < MAX_SCHEDULES →
    sched_key i ≠ "device_name" ∧ sched_key i ≠ "device_location" := by
  decide

theorem sched_key_ne_hist_count : ∀ i, i < MAX_SCHEDULES → sched_key i ≠ "hist_count" := by
  decide

theorem sched_key_inj : ∀ i, i < MAX_SCHEDULES → ∀ j, j < MAX_SCHEDULES →
    sched_key i = sched_key j → i = j := by
  decide

theorem sched_key_ne_hist_key : ∀ i, i < MAX_SCHEDULES → ∀ j, j < MAX_HISTORY →
    sched_key i ≠ hist_key j := by
  decide

theorem sched_count_ne_hist_key : ∀ j, j < MAX_HISTORY → "sched_count" ≠ hist_key j := by
  decide

theorem nvs_set_ne (nvs : nvs_t) (key k : String) (v : nvs_value) (h : k ≠ key) :
    nvs_set nvs key v k = nvs k := by
  unfold nvs_set
  rw [if_neg h]

theorem nvs_set_self (nvs : nvs_t) (key : String) (v : nvs_value) :
    nvs_set nvs key v key = some v := by
  unfold nvs_set
  rw [if_pos rfl]

/-- The loop of `save_history_to_flash` writes the keys `hist_<j>` only. -/
theorem save_history_loop_other (h : List schedule_history_t) (k : String) (n i : Nat)
    (nvs : nvs_t) (hk : ∀ j, i ≤ j → j < i + n → k ≠ hist_key j) :
    save_history_loop h n i nvs k = nvs k := by
  induction n generalizing i nvs with
  | zero => rfl
  | succ n ih =>
    unfold save_history_loop
    rw [ih (i + 1) _ (fun j h1 h2 => hk j (by omega) (by omega)),
      nvs_set_ne _ _ _ _ (hk i (le_refl _) (by omega))]

/-- A call of `add_to_history` leaves the keys of the schedule table alone. -/
theorem add_to_history_nvs (t : tm) (name action : String) (st : State) (k : String)
    (h1 : k ≠ "hist_count") (h2 : ∀ j, j < MAX_HISTORY → k ≠ hist_key j) :
    (add_to_history t name action st).nvs k = st.nvs k := by
  have key : ∀ s : State, (save_history_to_flash s).nvs k = s.nvs k := by
    intro s
    unfold save_history_to_flash
    dsimp only
    rw [nvs_set_ne _ _ _ _ h1,
      save_history_loop_other _ k _ _ _ (fun j _ hj => h2 j (by omega))]
  unfold add_to_history
  dsimp only
  rw [key]
  split
  · unfold history_on
    dsimp only
    split <;> rfl
  · split
    · unfold history_off
      split <;> rfl
    · rfl

/-- The loop of `save_settings`: the value under `sched_<i>` afterwards. -/
theorem save_schedules_loop_get (cnt : Int) (l : List schedule_t) (i : Nat)
    (hi : i < MAX_SCHEDULES) (n i0 : Nat) (nvs : nvs_t) (hn : i0 + n ≤ MAX_SCHEDULES) :
    save_schedules_loop cnt l n i0 nvs (sched_key i)
      = if i0 ≤ i ∧ i < i0 + n ∧ (i : Int) < cnt then some (.blob_schedule (l.getD i default))
        else nvs (sched_key i) := by
  induction n generalizing i0 nvs with
  | zero =>
    have : ¬ (i0 ≤ i ∧ i < i0 + 0 ∧ (i : Int) < cnt) := by omega
    rw [if_neg this]; rfl
  | succ n ih =>
    unfold save_schedules_loop
    by_cases hc : (i0 : Int) < cnt
    · rw [if_pos hc, ih (i0 + 1) _ (by omega)]
      by_cases hii : i = i0
      · subst hii
        have h1 : ¬ (i + 1 ≤ i ∧ i < i + 1 + n ∧ (i : Int) < cnt) := by omega
        have h2 : i ≤ i ∧ i < i + (n + 1) ∧ (i : Int) < cnt := ⟨le_refl _, by omega, hc⟩
        rw [if_neg h1, if_pos h2, nvs_set_self]
      · have hne : sched_key i ≠ sched_key i0 :=
          fun h => hii (sched_key_inj i hi i0 (by omega) h)
        rw [nvs_set_ne _ _ _ _ hne]
        by_cases h3 : i0 + 1 ≤ i ∧ i < i0 + 1 + n ∧ (i : Int) < cnt
        · have h4 : i0 ≤ i ∧ i < i0 + (n + 1) ∧ (i : Int) < cnt := by omega
          rw [if_pos h3, if_pos h4]
        · have h4 : ¬ (i0 ≤ i ∧ i < i0 + (n + 1) ∧ (i : Int) < cnt) := by omega
          rw [if_neg h3, if_neg h4]
    · have h4 : ¬ (i0 ≤ i ∧ i < i0 + (n + 1) ∧ (i : Int) < cnt) := by omega
      rw [if_neg hc, if_neg h4]

theorem save_schedules_loop_count (cnt : Int) (l : List schedule_t) (n i0 : Nat) (nvs : nvs_t)
    (hn : i0 + n ≤ MAX_SCHEDULES) :
    save_schedules_loop cnt l n i0 nvs "sched_count" = nvs "sched_count" := by
  induction n generalizing i0 nvs with
  | zero => rfl
  | succ n ih =>
    unfold save_schedules_loop
    split
    · rw [ih (i0 + 1) _ (by omega),
        nvs_set_ne _ _ _ _ (Ne.symm (sched_key_ne_sched_count i0 (by omega)))]
    · rfl

/-- What `save_settings` leaves under the keys of the schedule table. -/
theorem save_settings_nvs (st : State) (i : Nat) (hi : i < MAX_SCHEDULES) :
    (save_settings st).nvs (sched_key i)
        = (if (i : Int) < st.schedule_count then
            some (.blob_schedule (st.schedules.getD i default))
          else st.nvs (sched_key i))
    ∧ (save_settings st).nvs "sched_count" = some (.i32 st.schedule_count) := by
  unfold save_settings
  dsimp only
  constructor
  · rw [save_schedules_loop_get _ _ i hi _ _ _ (by decide)]
    by_cases hc : (i : Int) < st.schedule_count
    · rw [if_pos ⟨by omega, by omega, hc⟩, if_pos hc]
    · rw [if_neg (fun h => hc h.2.2), if_neg hc,
        nvs_set_ne _ _ _ _ (sched_key_ne_sched_count i hi),
        nvs_set_ne _ _ _ _ (sched_key_ne_device i hi).2,
        nvs_set_ne _ _ _ _ (sched_key_ne_device i hi).1]
  · rw [save_schedules_loop_count _ _ _ _ _ (by decide), nvs_set_self]

/-- The loop body at `(m, j)`, projected on the keys of the schedule table: they are rewritten
exactly when the schedule is disabled and saved. -/
theorem schedule_step_nvs (t : tick_clock) (m : Int) (j : Nat) (st : State) (i : Nat)
    (hi : i < MAX_SCHEDULES) :
    (schedule_step t m j st).nvs (sched_key i)
        = (if disables st m j ∧ (i : Int) < st.schedule_count then
            some (.blob_schedule ((schedule_step t m j st).schedules.getD i default))
          else st.nvs (sched_key i))
    ∧ (schedule_step t m j st).nvs "sched_count"
        = (if disables st m j then some (.i32 st.schedule_count) else st.nvs "sched_count") := by
  have k1 : ∀ (c : tm) (name action : String) (s : State),
      (add_to_history c name action s).nvs (sched_key i) = s.nvs (sched_key i) :=
    fun c name action s => add_to_history_nvs c name action s _ (sched_key_ne_hist_count i hi)
      (fun j hj => sched_key_ne_hist_key i hi j hj)
  have k2 : ∀ (c : tm) (name action : String) (s : State),
      (add_to_history c name action s).nvs "sched_count" = s.nvs "sched_count" :=
    fun c name action s => add_to_history_nvs c name action s _ (by decide)
      (fun j hj => sched_count_ne_hist_key j hj)
  unfold disables ends_at
  unfold schedule_step
  simp only [List.getD_eq_getElem?_getD]
  by_cases he : (st.schedules[j]?.getD default).enabled = true
  swap
  · simp [he]
  by_cases hn : (st.schedules[j]?.getD default).end_hour = m / 60
      ∧ (st.schedules[j]?.getD default).end_minute = m % 60
  swap
  · by_cases hs : (st.schedules[j]?.getD default).start_hour = m / 60
        ∧ (st.schedules[j]?.getD default).start_minute = m % 60
    · simp [he, hn, hs, k1, k2, motor_on]
    · simp [he, hn, hs]
  by_cases hr : (st.schedules[j]?.getD default).repeat_daily = true
  · by_cases hs : (st.schedules[j]?.getD default).start_hour = m / 60
        ∧ (st.schedules[j]?.getD default).start_minute = m % 60
    · simp [he, hn, hs, hr, k1, k2, motor_on, motor_off]
    · simp [he, hn, hs, hr, k1, k2, motor_off]
  · have hr' : (st.schedules[j]?.getD default).repeat_daily = false := by simpa using hr
    by_cases hs : (st.schedules[j]?.getD default).start_hour = m / 60
        ∧ (st.schedules[j]?.getD default).start_minute = m % 60
    · simp only [he, hn, hs, hr', Bool.not_true, Bool.false_eq_true, if_false, and_self,
        if_true, add_to_history_schedules, motor_on, motor_off, Bool.not_false, and_true,
        true_and]
      rw [(save_settings_nvs _ i hi).1, (save_settings_nvs _ i hi).2]
      simp [k1, k2, (save_settings_frame _).1]
    · simp only [he, hn, hs, hr', Bool.not_true, Bool.false_eq_true, if_false, and_self,
        if_true, add_to_history_schedules, motor_on, motor_off, Bool.not_false, and_true,
        true_and]
      rw [(save_settings_nvs _ i hi).1, (save_settings_nvs _ i hi).2]
      simp [k1, k2, (save_settings_frame _).1]

/-- A disabled, persisted slot `i` stays as it is through any pass of the loop body. -/
theorem schedule_step_keeps_persisted (t : tick_clock) (m : Int) (j : Nat) (st : State) (i : Nat)
    (hi : i < MAX_SCHEDULES) (h : persisted i st)
    (hd : (st.schedules.getD i default).enabled = false) :
    persisted i (schedule_step t m j st)
    ∧ (schedule_step t m j st).schedules.getD i default = st.schedules.getD i default := by
  by_cases hji : j = i
  · subst hji
    rw [schedule_step_disabled t m j st hd]
    exact ⟨h, rfl⟩
  · obtain ⟨h1, _, h3, _⟩ := schedule_step_table t m j st
    obtain ⟨n1, n2⟩ := schedule_step_nvs t m j st i hi
    have hs : (schedule_step t m j st).schedules.getD i default = st.schedules.getD i default := by
      rw [h1, getD_set_ne _ _ _ _ _ hji]
    refine ⟨⟨?_, ?_⟩, hs⟩
    · rw [n1]
      split
      · rfl
      · rw [hs]; exact h.1
    · rw [n2, h3]
      split
      · rfl
      · exact h.2

/-- The pass of the loop body that disables schedule `i` leaves it disabled and persisted. -/
theorem schedule_step_persists (t : tick_clock) (m : Int) (st : State) (i : Nat)
    (hi : i < MAX_SCHEDULES) (hc : (i : Int) < st.schedule_count) (hdis : disables st m i) :
    persisted i (schedule_step t m i st)
    ∧ (schedule_step t m i st).schedules.getD i default
        = { st.schedules.getD i default with enabled := false } := by
  obtain ⟨h1, _, h3, _⟩ := schedule_step_table t m i st
  obtain ⟨n1, n2⟩ := schedule_step_nvs t m i st i hi
  have hs : (schedule_step t m i st).schedules.getD i default
      = { st.schedules.getD i default with enabled := false } := by
    rw [h1, getD_set_step, if_pos rfl]
    unfold step_schedule
    exact if_pos hdis
  refine ⟨⟨?_, ?_⟩, hs⟩
  · rw [n1, if_pos ⟨hdis, hc⟩]
  · rw [n2, if_pos hdis, h3]

theorem schedule_loop_keeps_persisted (t : tick_clock) (m : Int) (i : Nat) (hi : i < MAX_SCHEDULES)
    (n i0 : Nat) (st : State) (h : persisted i st)
    (hd : (st.schedules.getD i default).enabled = false) :
    persisted i (schedule_loop t m n i0 st)
    ∧ (schedule_loop t m n i0 st).schedules.getD i default = st.schedules.getD i default := by
  induction n generalizing i0 st with
  | zero => exact ⟨h, rfl⟩
  | succ n ih =>
    unfold schedule_loop
    split
    · obtain ⟨k1, k2⟩ := schedule_step_keeps_persisted t m i0 st i hi h hd
      obtain ⟨k3, k4⟩ := ih (i0 + 1) _ k1 (by rw [k2]; exact hd)
      exact ⟨k3, by rw [k4, k2]⟩
    · exact ⟨h, rfl⟩

/-- The run of the `for` loop in which schedule `i` is disabled leaves it disabled and
persisted. -/
theorem schedule_loop_persists (t : tick_clock) (m : Int) (i : Nat) (hi : i < MAX_SCHEDULES)
    (n i0 : Nat) (st : State) (h0 : i0 ≤ i) (h1 : i < i0 + n)
    (hc : (i : Int) < st.schedule_count) (hdis : disables st m i) :
    persisted i (schedule_loop t m n i0 st)
    ∧ (schedule_loop t m n i0 st).schedules.getD i default
        = { st.schedules.getD i default with enabled := false } := by
  induction n generalizing i0 st with
  | zero => omega
  | succ n ih =>
    unfold schedule_loop
    rw [if_pos (by omega)]
    by_cases hii : i0 = i
    · subst hii
      obtain ⟨k1, k2⟩ := schedule_step_persists t m st i0 hi hc hdis
      obtain ⟨k3, k4⟩ := schedule_loop_keeps_persisted t m i0 hi n (i0 + 1) _ k1
        (by rw [k2])
      exact ⟨k3, by rw [k4, k2]⟩
    · obtain ⟨g1, _, g3, _⟩ := schedule_step_table t m i0 st
      have hs : (schedule_step t m i0 st).schedules.getD i default
          = st.schedules.getD i default := by
        rw [g1, getD_set_ne _ _ _ _ _ hii]
      have hdis' : disables (schedule_step t m i0 st) m i := by
        unfold disables at hdis ⊢
        rw [hs]; exact hdis
      obtain ⟨k3, k4⟩ := ih (i0 + 1) _ (by omega) (by omega) (by rw [g3]; exact hc) hdis'
      exact ⟨k3, by rw [k4, hs]⟩

theorem foldl_keeps_persisted (t : tick_clock) (i : Nat) (hi : i < MAX_SCHEDULES) (ms : List Int)
    (st : State) (h : persisted i st) (hd : (st.schedules.getD i default).enabled = false) :
    persisted i (ms.foldl (minute_step t) st)
    ∧ (ms.foldl (minute_step t) st).schedules.getD i default = st.schedules.getD i default := by
  induction ms generalizing st with
  | nil => exact ⟨h, rfl⟩
  | cons m ms ih =>
    obtain ⟨k1, k2⟩ := schedule_loop_keeps_persisted t m i hi MAX_SCHEDULES 0 st h hd
    obtain ⟨k3, k4⟩ := ih (minute_step t st m) k1 (by unfold minute_step; rw [k2]; exact hd)
    rw [List.foldl_cons]
    exact ⟨k3, by rw [k4]; exact k2⟩

/-- A scan that visits the end minute of the enabled, non-repeating schedule `i` leaves it
disabled in memory and in the store. -/
theorem foldl_persists (t : tick_clock) (i : Nat) (hi : i < MAX_SCHEDULES) (m : Int) (ms : List Int)
    (st : State) (hm : m ∈ ms) (hc : (i : Int) < st.schedule_count) (hdis : disables st m i) :
    persisted i (ms.foldl (minute_step t) st)
    ∧ (ms.foldl (minute_step t) st).schedules.getD i default
        = { st.schedules.getD i default with enabled := false } := by
  induction ms generalizing st with
  | nil => cases hm
  | cons m0 ms ih =>
    rw [List.foldl_cons]
    by_cases hE : ends_at (st.schedules.getD i default) m0
    · have hdis0 : disables st m0 i := ⟨hdis.1, hE, hdis.2.2⟩
      obtain ⟨k1, k2⟩ := schedule_loop_persists t m0 i hi MAX_SCHEDULES 0 st (by omega)
        (by omega) hc hdis0
      obtain ⟨k3, k4⟩ := foldl_keeps_persisted t i hi ms (minute_step t st m0) k1
        (by unfold minute_step; rw [k2])
      exact ⟨k3, by rw [k4]; exact k2⟩
    · obtain ⟨g1, _, g3, _⟩ := schedule_loop_table t m0 MAX_SCHEDULES 0 st
      have hs : (minute_step t st m0).schedules.getD i default = st.schedules.getD i default := by
        unfold minute_step
        rw [g1, loop_schedules_getD]
        split
        · unfold step_schedule
          rw [if_neg (fun h => hE h.2.1)]
        · rfl
      have hm' : m ∈ ms := by
        rcases List.mem_cons.1 hm with h | h
        · exact absurd (h ▸ hdis.2.1) hE
        · exact h
      have hdis' : disables (minute_step t st m0) m i := by
        unfold disables at hdis ⊢
        rw [hs]; exact hdis
      obtain ⟨k3, k4⟩ := ih (minute_step t st m0) hm'
        (by unfold minute_step; rw [g3]; exact hc) hdis'
      exact ⟨k3, by rw [k4, hs]⟩

/-- C7.  Let schedule `i` be looked at by the tick (index below `schedule_count` and below
`MAX_SCHEDULES`), enabled and with `repeat_daily = false`, and let its end minute lie in the
scanned range.  After the tick its `enabled` flag is false in memory, its other fields are
unchanged, the blob stored under its key `sched_<i>` is that disabled schedule, and the
stored count is the schedule count. -/
theorem one_shot_disabled_and_persisted (t : tick_clock) (st : State) (i : Nat) (m : Int)
    (hc : 0 ≤ st.last_checked_minute ∧ st.last_checked_minute < 24 * 60)
    (hlive : live st i) (hone : (st.schedules.getD i default).repeat_daily = false)
    (hend : ends_at (st.schedules.getD i default) m)
    (hm : in_scanned_range st.last_checked_minute (minute_of_day t.timeinfo) m) :
    ∃ st', check_schedules t st = some st'
      ∧ (st'.schedules.getD i default).enabled = false
      ∧ st'.schedules.getD i default = { st.schedules.getD i default with enabled := false }
      ∧ st'.nvs (sched_key i)
          = some (.blob_schedule { st.schedules.getD i default with enabled := false })
      ∧ st'.nvs "sched_count" = some (.i32 st.schedule_count)
      ∧ st'.schedule_count = st.schedule_count := by
  obtain ⟨h1, h2, h3⟩ := hlive
  obtain ⟨⟨k1, k2⟩, k3⟩ := foldl_persists t i h1 m _ st
    ((mem_scanned_iff_in_range _ _ _).2 hm) h2 ⟨h3, hend, hone⟩
  have k4 := (foldl_minute_step_table t
    (scanned_minutes ((st.last_checked_minute + 1) % (24 * 60))
      (gap st.last_checked_minute (minute_of_day t.timeinfo))) st).2.2.1
  refine ⟨_, check_schedules_eq t st hc, ?_, k3, ?_, ?_, k4⟩
  · dsimp only
    rw [k3]
  · dsimp only
    rw [k1, k3]
  · dsimp only
    rw [k2, k4]

/-- C7, applied to the non-repeating schedule "Zone1" 06:00-06:30 and the tick at 06:35 with
the cursor at 05:59. -/
theorem one_shot_disabled_and_persisted_witness :
    live (state_at_0559 (zone1 false)) 0
    ∧ ends_at ((state_at_0559 (zone1 false)).schedules.getD 0 default) 390
    ∧ in_scanned_range 359 (minute_of_day (clock 6 35)) 390
    ∧ ∃ st', check_schedules (steady (clock 6 35)) (state_at_0559 (zone1 false)) = some st'
      ∧ (st'.schedules.getD 0 default).enabled = false
      ∧ st'.nvs "sched_0" = some (.blob_schedule { zone1 false with enabled := false })
      ∧ st'.nvs "sched_count" = some (.i32 1) := by
  obtain ⟨st', h1, h2, _, h4, h5, _⟩ :=
    one_shot_disabled_and_persisted (steady (clock 6 35)) (state_at_0559 (zone1 false)) 0 390
      (by decide) (by decide) (by decide) (by decide) (by decide)
  exact ⟨by decide, by decide, by decide, st', h1, h2, h4, h5⟩

/-! ## Disabled schedules -/

theorem schedule_loop_all_disabled (t : tick_clock) (m : Int) (n i0 : Nat) (st : State)
    (h : ∀ i, i0 ≤ i → i < i0 + n → (i : Int) < st.schedule_count →
      (st.schedules.getD i default).enabled = false) :
    schedule_loop t m n i0 st = st := by
  induction n generalizing i0 with
  | zero => rfl
  | succ n ih =>
    unfold schedule_loop
    split
    · rename_i hc
      rw [schedule_step_disabled t m i0 st (h i0 (le_refl _) (by omega) hc)]
      exact ih (i0 + 1) (fun i h1 h2 h3 => h i (by omega) (by omega) h3)
    · rfl

/-- A tick over a table in which every schedule the loop looks at is disabled changes the
cursor and nothing else. -/
theorem check_schedules_all_disabled (t : tick_clock) (st : State)
    (hc : 0 ≤ st.last_checked_minute ∧ st.last_checked_minute < 24 * 60)
    (h : ∀ i, i < MAX_SCHEDULES → (i : Int) < st.schedule_count →
      (st.schedules.getD i default).enabled = false) :
    check_schedules t st = some { st with last_checked_minute := minute_of_day t.timeinfo } := by
  have hfold : ∀ ms : List Int, ms.foldl (minute_step t) st = st := by
    intro ms
    induction ms with
    | nil => rfl
    | cons m ms ih =>
      rw [List.foldl_cons]
      have : minute_step t st m = st :=
        schedule_loop_all_disabled t m MAX_SCHEDULES 0 st
          (fun i _ h2 h3 => h i (by omega) h3)
      rw [this, ih]
  rw [check_schedules_eq t st hc, hfold]

/-- C8.  A disabled schedule never fires.  (1) When the loop body reaches a schedule whose
`enabled` flag is false, it leaves the whole state as it is: no motor call, no history
change.  (2) A schedule that is disabled when a tick begins gets no `motor_on` and no
`motor_off` call in that tick, whatever minutes are scanned.  (3) The non-repeating
schedule "Zone1" 06:00-06:30 is disabled by the ticks at 05:59, 06:05 and 06:35, and the
tick of the next day at 06:05 then changes nothing but the cursor: no activation. -/
theorem disabled_schedule_never_fires :
    (∀ (t : tick_clock) (m : Int) (i : Nat) (st : State),
      (st.schedules.getD i default).enabled = false → schedule_step t m i st = st)
    ∧ (∀ (t : tick_clock) (st : State) (i : Nat),
      0 ≤ st.last_checked_minute ∧ st.last_checked_minute < 24 * 60 →
      (st.schedules.getD i default).enabled = false →
      ∃ st' fired, check_schedules t st = some st' ∧ st'.calls = st.calls ++ fired
        ∧ ∀ m : Int, fired.count (motor_call.on m i) = 0 ∧ fired.count (motor_call.off m i) = 0)
    ∧ (∃ s3, (check_schedules (steady (clock 5 59)) (zone1_boot false) >>= check_schedules (steady
        (clock 6 5))
          >>= check_schedules (steady (clock 6 35))) = some s3
        ∧ (s3.schedules.getD 0 default).enabled = false
        ∧ check_schedules (steady (clock_next_day 6 5)) s3
            = some { s3 with last_checked_minute := 365 }) := by
  refine ⟨schedule_step_disabled, ?_, ?_⟩
  · intro t st i hc hd
    obtain ⟨st', fired, h1, h2, h3⟩ := check_schedules_counts t st hc
    refine ⟨st', fired, h1, h2, fun m => ⟨?_, ?_⟩⟩
    · apply (h3 i m).2.2
      rintro ⟨⟨_, _, he⟩, _⟩
      rw [hd] at he
      cases he
    · apply (h3 i m).1.2
      rintro ⟨⟨_, _, he⟩, _⟩
      rw [hd] at he
      cases he
  · have hex : (check_schedules (steady (clock 5 59)) (zone1_boot false) >>= check_schedules (steady
      (clock 6 5))
        >>= check_schedules (steady (clock 6 35))).isSome = true := by decide
    obtain ⟨s3, hs3⟩ := Option.isSome_iff_exists.1 hex
    have hfacts : (check_schedules (steady (clock 5 59)) (zone1_boot false)
        >>= check_schedules (steady (clock 6 5)) >>= check_schedules (steady (clock 6 35))).map
        (fun s => (s.schedule_count, s.last_checked_minute, (s.schedules.getD 0 default).enabled))
        = some (1, 395, false) := by decide
    rw [hs3] at hfacts
    simp only [Option.map_some', Option.some.injEq, Prod.mk.injEq] at hfacts
    obtain ⟨f1, f2, f3⟩ := hfacts
    refine ⟨s3, hs3, f3, ?_⟩
    rw [check_schedules_all_disabled (steady (clock_next_day 6 5)) s3 (by rw [f2]; decide)
      (fun i _ hi => by
        rw [f1] at hi
        have : i = 0 := by omega
        rw [this]; exact f3)]
    rfl

/-- C8, applied to the state left by the three ticks of the "Zone1" scenario: the loop body
at the start minute 06:00 leaves it as it is. -/
theorem disabled_schedule_never_fires_witness :
    ∃ s3, (check_schedules (steady (clock 5 59)) (zone1_boot false) >>= check_schedules (steady
        (clock 6 5))
        >>= check_schedules (steady (clock 6 35))) = some s3
      ∧ (s3.schedules.getD 0 default).enabled = false
      ∧ schedule_step (steady (clock_next_day 6 5)) 360 0 s3 = s3 := by
  obtain ⟨h1, _, s3, h3, h4, _⟩ := disabled_schedule_never_fires
  exact ⟨s3, h3, h4, h1 (steady (clock_next_day 6 5)) 360 0 s3 h4⟩


/-! ## Closing a ledger record -/

theorem slot_active_lt_length (h : List schedule_history_t) (name : String) (j : Nat)
    (hj : slot_active_named h name j = true) : j < h.length := by
  by_contra hlt
  unfold slot_active_named at hj
  rw [getD_of_length_le _ _ _ (Nat.le_of_not_lt hlt)] at hj
  simp [default] at hj

/-- C11.  When some active entry of the ledger has the name, `add_to_history(name, "OFF")`
changes the lowest-index active entry with that name and no other: its `end_time` becomes
the formatted current timestamp and `active` becomes false, its `name` and `start_time`
stay; `history_count` is unchanged. -/
theorem record_end_closes_first_match (t : tm) (name : String) (st : State)
    (h : ∃ i, i < MAX_HISTORY ∧ slot_active_named st.schedule_history name i = true) :
    ∃ j, j < MAX_HISTORY ∧ slot_active_named st.schedule_history name j = true
      ∧ (∀ k, k < j → slot_active_named st.schedule_history name k = false)
      ∧ (add_to_history t name "OFF" st).schedule_history.getD j default
          = { name := (st.schedule_history.getD j default).name
              start_time := (st.schedule_history.getD j default).start_time
              end_time := strftime_ymdhm t
              active := false }
      ∧ (∀ k, k ≠ j → (add_to_history t name "OFF" st).schedule_history.getD k default
          = st.schedule_history.getD k default)
      ∧ (add_to_history t name "OFF" st).schedule_history.length = st.schedule_history.length
      ∧ (add_to_history t name "OFF" st).history_count = st.history_count := by
  cases hfb : for_break (slot_active_named st.schedule_history name) MAX_HISTORY 0 with
  | none =>
    rw [for_break_eq_none] at hfb
    obtain ⟨i, hi, hai⟩ := h
    have := hfb i (by omega) (by omega)
    rw [hai] at this
    cases this
  | some j =>
    have hj := (for_break_eq_some _ _ _ _).1 hfb
    have hjl := slot_active_lt_length _ _ _ hj.2.2.1
    rw [add_to_history_off_found t name st j hfb, (add_to_history_off t name st).2,
      (history_off_found _ name st j hfb).2]
    refine ⟨j, by omega, hj.2.2.1, fun k hk => hj.2.2.2 k (by omega) hk, ?_, ?_, ?_, rfl⟩
    · rw [getD_set_self _ _ _ _ hjl]
    · intro k hk
      exact getD_set_ne _ _ _ _ _ (Ne.symm hk)
    · simp

/-- C11, applied to the ledger that holds one active record "Zone1" in slot 0. -/
theorem record_end_closes_first_match_witness :
    (∃ i, i < MAX_HISTORY ∧ slot_active_named
      (add_to_history (clock 6 0) "Zone1" "ON" empty_state).schedule_history "Zone1" i = true)
    ∧ (add_to_history (clock 6 30) "Zone1" "OFF"
        (add_to_history (clock 6 0) "Zone1" "ON" empty_state)).schedule_history.getD 0 default
      = { name := "Zone1", start_time := "2025-07-08 06:00", end_time := "2025-07-08 06:30",
          active := false } := by
  obtain ⟨j, _, h2, h3, h4, _⟩ :=
    record_end_closes_first_match (clock 6 30) "Zone1"
      (add_to_history (clock 6 0) "Zone1" "ON" empty_state) ⟨0, by decide, by decide⟩
  have hj : j = 0 := by
    by_contra hne
    have := h3 0 (by omega)
    revert this
    decide
  subst hj
  refine ⟨⟨0, by decide, by decide⟩, ?_⟩
  rw [h4]
  decide

/-- C12.  When no entry of the ledger is both active and of the given name,
`add_to_history(name, "OFF")` leaves every ledger entry and `history_count` as they
are. -/
theorem unmatched_end_is_noop (t : tm) (name : String) (st : State)
    (h : ∀ i, i < MAX_HISTORY → slot_active_named st.schedule_history name i = false) :
    (add_to_history t name "OFF" st).schedule_history = st.schedule_history
    ∧ (add_to_history t name "OFF" st).history_count = st.history_count := by
  have hfb : for_break (slot_active_named st.schedule_history name) MAX_HISTORY 0 = none := by
    rw [for_break_eq_none]
    intro k _ hk
    exact h k (by omega)
  rw [(add_to_history_off t name st).1, (add_to_history_off t name st).2,
    history_off_not_found _ name st hfb]
  exact ⟨rfl, rfl⟩

/-- C12, applied to an end of "Zone1" on the ledger whose only active record is
"Manual Control". -/
theorem unmatched_end_is_noop_witness :
    (∀ i, i < MAX_HISTORY → slot_active_named full_ledger_state.schedule_history "Zone1" i = false)
    ∧ (add_to_history (clock_on_day 30 9 5) "Zone1" "OFF" full_ledger_state).schedule_history
        = full_ledger_state.schedule_history
    ∧ (add_to_history (clock_on_day 30 9 5) "Zone1" "OFF" full_ledger_state).history_count
        = full_ledger_state.history_count :=
  ⟨by decide, unmatched_end_is_noop (clock_on_day 30 9 5) "Zone1" full_ledger_state (by decide)⟩


/-! ## The schedule handlers -/

theorem sscanf_hhmm : ∀ h, h < 24 → ∀ m, m < 60 →
    sscanf_hour_minute (hhmm h m).data = some ((h : Int), (m : Int)) := by
  decide

theorem hhmm_length (h m : Nat) : (hhmm h m).length = 5 := rfl

/-- Every result of `validate_and_add` that reports failure carries the state it was given. -/
theorem validate_and_add_failure (form : schedule_form) (st : State) (r : handler_result)
    (h : validate_and_add form st = some r) (hr : r.err = esp_err_t.ESP_FAIL) : r.state = st := by
  unfold validate_and_add at h
  dsimp only at h
  split at h
  · split at h
    · split at h
      · split at h
        · cases h
        · cases h; cases hr
      · cases h; rfl
    · cases h; rfl
  · cases h; rfl

/-- Every result of `add_schedule_handler` that reports failure carries the state it was
given: a rejected add changes neither the table nor the count. -/
theorem add_schedule_handler_failure (req : httpd_req_t) (st : State) (r : handler_result)
    (h : add_schedule_handler req st = some r) (hr : r.err = esp_err_t.ESP_FAIL) :
    r.state = st := by
  unfold add_schedule_handler at h
  split at h
  · cases h; rfl
  · split at h
    · cases h; rfl
    · cases hp : parse_form (received_buffer req 512) with
      | none => rw [hp] at h; cases h
      | some form =>
        rw [hp] at h
        exact validate_and_add_failure form st r h hr

/-- A full table makes `add_schedule_handler` report failure before it reads the request. -/
theorem add_rejects_when_full (req : httpd_req_t) (st : State)
    (h : st.schedule_count ≥ MAX_SCHEDULES) :
    add_schedule_handler req st
      = some { err := .ESP_FAIL, response := .bad_request "Maximum 10 schedules allowed",
               state := st } := by
  unfold add_schedule_handler
  rw [if_pos h]

/-- A form with an empty name, or with a time that `sscanf` reads as an hour outside 0..23 or
a minute outside 0..59, is reported as invalid and nothing is stored. -/
theorem validate_rejects (form : schedule_form) (st : State)
    (h : form.name.length = 0
      ∨ (∃ sh sm, sscanf_hour_minute form.start_time.data = some (sh, sm)
          ∧ ¬ (0 ≤ sh ∧ sh ≤ 23 ∧ 0 ≤ sm ∧ sm ≤ 59))
      ∨ (∃ eh em, sscanf_hour_minute form.end_time.data = some (eh, em)
          ∧ ¬ (0 ≤ eh ∧ eh ≤ 23 ∧ 0 ≤ em ∧ em ≤ 59))) :
    validate_and_add form st
      = some { err := .ESP_FAIL, response := .bad_request "Invalid schedule data",
               state := st } := by
  unfold validate_and_add
  dsimp only
  split
  · rename_i hv
    rcases h with h | ⟨sh, sm, h1, h2⟩ | ⟨eh, em, h1, h2⟩
    · omega
    · rw [h1]
      cases he : sscanf_hour_minute form.end_time.data with
      | none => rfl
      | some p =>
        obtain ⟨eh, em⟩ := p
        dsimp only
        rw [if_neg (fun hc => h2 ⟨hc.1, hc.2.1, hc.2.2.1, hc.2.2.2.1⟩)]
    · rw [h1]
      cases hs : sscanf_hour_minute form.start_time.data with
      | none => rfl
      | some p =>
        obtain ⟨sh, sm⟩ := p
        dsimp only
        rw [if_neg (fun hc => h2 ⟨hc.2.2.2.2.1, hc.2.2.2.2.2.1, hc.2.2.2.2.2.2.1,
          hc.2.2.2.2.2.2.2⟩)]
  · rfl

/-- C13 (failing input).  A request whose name has 32 characters: `url_decode` copies the 32
characters and the terminator into the 32-byte buffer `name` before the length test can
reject them, so the handler writes beyond the buffer and the model has no result for it,
where the claim has a reported failure. -/
theorem add_with_long_name_overruns_buffer :
    long_name.length = 32
    ∧ url_decode MAX_NAME_LEN long_name.data = none
    ∧ (add_schedule_handler (post ("name=" ++ long_name ++ "&start_time=06:00&end_time=06:30"))
        empty_state).isNone = true := by
  decide

/-- The result of `validate_and_add` on a form whose fields pass the validation. -/
theorem validate_and_add_valid (st : State) (name : String) (sh sm eh em : Nat) (rep : Bool)
    (hname : 0 < name.length ∧ name.length ≤ 31) (hcount : 0 ≤ st.schedule_count)
    (hsh : sh ≤ 23) (hsm : sm ≤ 59) (heh : eh ≤ 23) (hem : em ≤ 59) :
    validate_and_add
        { name := name, start_time := hhmm sh sm, end_time := hhmm eh em, repeat_daily := rep } st
      = some
          { err := .ESP_OK, response := .found "/schedules",
            state := save_settings
              { st with
                schedules := st.schedules.set st.schedule_count.toNat
                  (new_schedule name sh sm eh em rep)
                schedule_count := st.schedule_count + 1 } } := by
  unfold validate_and_add
  dsimp only
  rw [if_pos ⟨hname.1, by unfold MAX_NAME_LEN; omega, by rw [hhmm_length], by rw [hhmm_length]⟩,
    sscanf_hhmm sh (by omega) sm (by omega), sscanf_hhmm eh (by omega) em (by omega)]
  dsimp only
  rw [if_pos (by omega), if_neg (by omega)]

/-- C14.  Let the table hold fewer than 10 schedules and let the request be received and
read as a form with a name of 1..31 characters, start and end times `HH:MM` with hours
in 0..23 and minutes in 0..59, and a repeat flag.  The handler reports success; the slot
at index `schedule_count` then holds a schedule with exactly that name, start, end and
repeat flag, `enabled` true and the legacy fields zero; every other slot is unchanged;
`schedule_count` is one more; and the store holds the new count and, under `sched_<j>`,
every schedule of the new table. -/
theorem successful_add_appends (req : httpd_req_t) (st : State) (name : String)
    (sh sm eh em : Nat) (rep : Bool)
    (hrecv : req.recv_error = false)
    (hform : parse_form (received_buffer req 512)
      = some { name := name, start_time := hhmm sh sm, end_time := hhmm eh em,
               repeat_daily := rep })
    (hname : 0 < name.length ∧ name.length ≤ 31)
    (hcount : 0 ≤ st.schedule_count ∧ st.schedule_count < 10)
    (hlen : st.schedules.length = MAX_SCHEDULES)
    (hsh : sh ≤ 23) (hsm : sm ≤ 59) (heh : eh ≤ 23) (hem : em ≤ 59) :
    ∃ r, add_schedule_handler req st = some r
      ∧ r.err = esp_err_t.ESP_OK
      ∧ r.response = http_response.found "/schedules"
      ∧ r.state.schedule_count = st.schedule_count + 1
      ∧ r.state.schedules.getD st.schedule_count.toNat default
          = { enabled := true, hour := 0, minute := 0, action := false, start_hour := sh,
              start_minute := sm, end_hour := eh, end_minute := em, repeat_daily := rep,
              name := name }
      ∧ (∀ j, j ≠ st.schedule_count.toNat →
          r.state.schedules.getD j default = st.schedules.getD j default)
      ∧ r.state.schedules.length = MAX_SCHEDULES
      ∧ (∀ j : Nat, (j : Int) ≤ st.schedule_count →
          r.state.nvs (sched_key j) = some (.blob_schedule (r.state.schedules.getD j default)))
      ∧ r.state.nvs "sched_count" = some (.i32 (st.schedule_count + 1)) := by
  have hbody : req.content ≠ [] := by
    intro h0
    have h1 : parse_form (received_buffer req 512)
        = some { name := "", start_time := "", end_time := "", repeat_daily := false } := by
      unfold received_buffer
      rw [h0]
      rfl
    rw [h1] at hform
    have h2 := congrArg (fun o => o.map (fun f => f.name.length)) hform
    simp only [Option.map_some', Option.some.injEq] at h2
    have h3 : ("" : String).length = 0 := rfl
    omega
  have hpos : 0 < req.content.length := List.length_pos.2 hbody
  have hrecv2 : ¬ httpd_req_recv req (min req.content.length (512 - 1)) ≤ 0 := by
    unfold httpd_req_recv
    rw [hrecv]
    simp only [Bool.false_eq_true, if_false]
    omega
  obtain ⟨st1, hst1⟩ : ∃ x, x = ({ st with
      schedules := st.schedules.set st.schedule_count.toNat (new_schedule name sh sm eh em rep)
      schedule_count := st.schedule_count + 1 } : State) := ⟨_, rfl⟩
  have e1 : st1.schedules
      = st.schedules.set st.schedule_count.toNat (new_schedule name sh sm eh em rep) := by
    rw [hst1]
  have e2 : st1.schedule_count = st.schedule_count + 1 := by rw [hst1]
  have hres : add_schedule_handler req st
      = some { err := .ESP_OK, response := .found "/schedules", state := save_settings st1 } := by
    unfold add_schedule_handler
    rw [if_neg (by unfold MAX_SCHEDULES; omega), if_neg hrecv2, hform, Option.bind,
      validate_and_add_valid st name sh sm eh em rep hname hcount.1 hsh hsm heh hem, hst1]
  have hidx : st.schedule_count.toNat < st.schedules.length := by
    rw [hlen]; unfold MAX_SCHEDULES; omega
  have f1 : (save_settings st1).schedules = st1.schedules := (save_settings_frame st1).1
  have f2 : (save_settings st1).schedule_count = st1.schedule_count :=
    (save_settings_frame st1).2.1
  refine ⟨_, hres, rfl, rfl, ?_, ?_, ?_, ?_, ?_, ?_⟩
  · dsimp only
    rw [f2, e2]
  · dsimp only
    rw [f1, e1, getD_set_self _ _ _ _ hidx]
    unfold new_schedule
    rw [strncpy_of_length_le name _ (by unfold MAX_NAME_LEN; omega)]
  · intro j hj
    dsimp only
    rw [f1, e1, getD_set_ne _ _ _ _ _ (Ne.symm hj)]
  · dsimp only
    rw [f1, e1, List.length_set, hlen]
  · intro j hj
    dsimp only
    rw [(save_settings_nvs st1 j (by unfold MAX_SCHEDULES; omega)).1, if_pos (by rw [e2]; omega),
      f1]
  · dsimp only
    rw [(save_settings_nvs st1 0 (by decide)).2, e2]

/-- C14, applied to the request of a browser form for "Zone 1", 06:00-06:30, daily, on the
empty table. -/
theorem successful_add_appends_witness :
    parse_form (received_buffer
        (post "name=Zone+1&start_time=06%3A00&end_time=06%3A30&repeat_daily=1") 512)
      = some { name := "Zone 1", start_time := hhmm 6 0, end_time := hhmm 6 30,
               repeat_daily := true }
    ∧ ∃ r, add_schedule_handler
          (post "name=Zone+1&start_time=06%3A00&end_time=06%3A30&repeat_daily=1") empty_state
        = some r
      ∧ r.err = esp_err_t.ESP_OK
      ∧ r.state.schedule_count = 1
      ∧ r.state.schedules.getD 0 default = mk_schedule "Zone 1" 6 0 6 30 true
      ∧ r.state.nvs "sched_0" = some (.blob_schedule (mk_schedule "Zone 1" 6 0 6 30 true))
      ∧ r.state.nvs "sched_count" = some (.i32 1) := by
  obtain ⟨r, h1, h2, _, h4, h5, _, _, h8, h9⟩ :=
    successful_add_appends
      (post "name=Zone+1&start_time=06%3A00&end_time=06%3A30&repeat_daily=1") empty_state
      "Zone 1" 6 0 6 30 true rfl (by decide) (by decide) (by decide) (by decide) (by decide)
      (by decide) (by decide) (by decide)
  have h5b : r.state.schedules.getD 0 default = mk_schedule "Zone 1" 6 0 6 30 true := h5
  have h10 := h8 0 (by decide)
  rw [h5b] at h10
  exact ⟨by decide, r, h1, h2, h4, h5b, h10, h9⟩


/-- The shift loop of `delete_schedule_handler` moves the entries `i + 1, ..., i + n` one slot
down. -/
theorem shift_schedules_getD (l : List schedule_t) (n i j : Nat) :
    (shift_schedules l n i).getD j default
      = if i ≤ j ∧ j < i + n then l.getD (j + 1) default else l.getD j default := by
  induction n generalizing l i with
  | zero =>
    have : ¬ (i ≤ j ∧ j < i + 0) := by omega
    rw [if_neg this]; rfl
  | succ n ih =>
    unfold shift_schedules
    rw [ih]
    by_cases h1 : i + 1 ≤ j ∧ j < i + 1 + n
    · have h2 : i ≤ j ∧ j < i + (n + 1) := by omega
      rw [if_pos h1, if_pos h2, getD_set_ne _ _ _ _ _ (by omega)]
    · rw [if_neg h1]
      by_cases h3 : j = i
      · subst h3
        have h2 : j ≤ j ∧ j < j + (n + 1) := by omega
        rw [if_pos h2]
        by_cases hl : j < l.length
        · rw [getD_set_self _ _ _ _ hl]
        · rw [getD_of_length_le _ _ _ (by rw [List.length_set]; omega),
            getD_of_length_le _ _ _ (by omega)]
      · have h2 : ¬ (i ≤ j ∧ j < i + (n + 1)) := by omega
        rw [if_neg h2, getD_set_ne _ _ _ _ _ (by omega)]

theorem shift_schedules_length (l : List schedule_t) (n i : Nat) :
    (shift_schedules l n i).length = l.length := by
  induction n generalizing l i with
  | zero => rfl
  | succ n ih => unfold shift_schedules; rw [ih]; simp

theorem getElem?_of_getD_eq {α : Type} (l1 l2 : List α) (d : α) (j k : Nat)
    (h1 : j < l1.length) (h2 : k < l2.length) (h : l1.getD j d = l2.getD k d) :
    l1[j]? = l2[k]? := by
  simpa [List.getD_eq_getElem?_getD, List.getElem?_eq_getElem h1, List.getElem?_eq_getElem h2]
    using h

/-- The first `n - 1` entries after the shift from index `i` are the first `n` entries
before it with the one at index `i` removed. -/
theorem take_shift_schedules (l : List schedule_t) (n i : Nat) (hi : i < n)
    (hn : n ≤ l.length) :
    (shift_schedules l (n - 1 - i) i).take (n - 1) = (l.take n).eraseIdx i := by
  apply List.ext_getElem?
  intro j
  rw [List.getElem?_take, List.getElem?_eraseIdx, List.getElem?_take, List.getElem?_take]
  by_cases hj : j < n - 1
  · rw [if_pos hj]
    have hsh := shift_schedules_getD l (n - 1 - i) i j
    by_cases hji : j < i
    · rw [if_pos hji, if_pos (by omega)]
      rw [if_neg (by omega)] at hsh
      exact getElem?_of_getD_eq _ _ default j j (by rw [shift_schedules_length]; omega)
        (by omega) hsh
    · rw [if_neg hji, if_pos (by omega)]
      rw [if_pos (by omega)] at hsh
      exact getElem?_of_getD_eq _ _ default j (j + 1) (by rw [shift_schedules_length]; omega)
        (by omega) hsh
  · rw [if_neg hj]
    by_cases hji : j < i
    · omega
    · rw [if_neg hji, if_neg (by omega)]


theorem recv_pos_of_content (req : httpd_req_t) (size : Nat) (hs : 2 ≤ size)
    (hrecv : req.recv_error = false) (hbody : req.content ≠ []) :
    ¬ httpd_req_recv req (min req.content.length (size - 1)) ≤ 0 := by
  have hpos : 0 < req.content.length := List.length_pos.2 hbody
  unfold httpd_req_recv
  rw [hrecv]
  simp only [Bool.false_eq_true, if_false]
  omega

theorem content_ne_nil_of_index (req : httpd_req_t) (index : Int)
    (h : sscanf_index (received_content req 32) = some index) : req.content ≠ [] := by
  intro h0
  have h1 : sscanf_index (received_content req 32) = none := by
    unfold received_content
    rw [h0]
    rfl
  rw [h1] at h
  cases h

/-- C15.  Let the request be received and read as `index=<index>` with
`0 ≤ index < schedule_count`, in a table of at most 10 schedules.  The handler reports
success; `schedule_count` is one less; the schedules at the indices below the new count
are, in order, the old schedules below the old count with exactly the one at `index`
removed; and the new count is stored. -/
theorem delete_compacts (req : httpd_req_t) (st : State) (index : Int)
    (hrecv : req.recv_error = false)
    (hparse : sscanf_index (received_content req 32) = some index)
    (hidx : 0 ≤ index ∧ index < st.schedule_count)
    (hcount : st.schedule_count ≤ 10) (hlen : st.schedules.length = MAX_SCHEDULES) :
    ∃ r, delete_schedule_handler req st = some r
      ∧ r.err = esp_err_t.ESP_OK
      ∧ r.state.schedule_count = st.schedule_count - 1
      ∧ r.state.schedules.take (st.schedule_count.toNat - 1)
          = (st.schedules.take st.schedule_count.toNat).eraseIdx index.toNat
      ∧ (∀ j : Nat, (j : Int) < index →
          r.state.schedules.getD j default = st.schedules.getD j default)
      ∧ (∀ j : Nat, index ≤ (j : Int) → (j : Int) < st.schedule_count - 1 →
          r.state.schedules.getD j default = st.schedules.getD (j + 1) default)
      ∧ r.state.nvs "sched_count" = some (.i32 (st.schedule_count - 1)) := by
  obtain ⟨st1, hst1⟩ : ∃ x, x = ({ st with
      schedules := shift_schedules st.schedules (st.schedule_count - 1 - index).toNat index.toNat
      schedule_count := st.schedule_count - 1 } : State) := ⟨_, rfl⟩
  have e1 : st1.schedules
      = shift_schedules st.schedules (st.schedule_count - 1 - index).toNat index.toNat := by
    rw [hst1]
  have e2 : st1.schedule_count = st.schedule_count - 1 := by rw [hst1]
  have hres : delete_schedule_handler req st
      = some { err := .ESP_OK, response := .found "/schedules", state := save_settings st1 } := by
    unfold delete_schedule_handler
    rw [if_neg (recv_pos_of_content req 32 (by decide) hrecv
      (content_ne_nil_of_index req index hparse)), hparse]
    dsimp only
    rw [if_pos hidx, if_neg (by unfold MAX_SCHEDULES; omega), hst1]
  have f1 : (save_settings st1).schedules = st1.schedules := (save_settings_frame st1).1
  have f2 : (save_settings st1).schedule_count = st1.schedule_count :=
    (save_settings_frame st1).2.1
  have hn : (st.schedule_count - 1 - index).toNat
      = st.schedule_count.toNat - 1 - index.toNat := by omega
  refine ⟨_, hres, rfl, ?_, ?_, ?_, ?_, ?_⟩
  · dsimp only
    rw [f2, e2]
  · dsimp only
    rw [f1, e1, hn]
    exact take_shift_schedules st.schedules _ _ (by omega)
      (by rw [hlen]; unfold MAX_SCHEDULES; omega)
  · intro j hj
    dsimp only
    rw [f1, e1, shift_schedules_getD, if_neg (by omega)]
  · intro j hj1 hj2
    dsimp only
    rw [f1, e1, shift_schedules_getD, if_pos (by omega)]
  · dsimp only
    rw [(save_settings_nvs st1 0 (by decide)).2, e2]

/-- C15, applied to the deletion of index 1 from the table "A", "B", "C": "A" and "C"
remain, in this order. -/
theorem delete_compacts_witness :
    sscanf_index (received_content (post "index=1") 32) = some 1
    ∧ ∃ r, delete_schedule_handler (post "index=1") three_schedules = some r
      ∧ r.state.schedule_count = 2
      ∧ r.state.schedules.take 2
          = [mk_schedule "A" 6 0 6 30 true, mk_schedule "C" 8 0 8 30 true] := by
  obtain ⟨r, h1, _, h3, h4, _⟩ :=
    delete_compacts (post "index=1") three_schedules 1 rfl (by decide) (by decide) (by decide)
      (by decide)
  refine ⟨by decide, r, h1, h3, ?_⟩
  have h5 : r.state.schedules.take 2
      = (three_schedules.schedules.take 3).eraseIdx 1 := h4
  rw [h5]
  decide


theorem delete_out_of_range (req : httpd_req_t) (st : State) (index : Int)
    (hrecv : req.recv_error = false)
    (hparse : sscanf_index (received_content req 32) = some index)
    (hidx : ¬ (0 ≤ index ∧ index < st.schedule_count)) :
    delete_schedule_handler req st
      = some { err := .ESP_OK, response := .found "/schedules", state := st } := by
  unfold delete_schedule_handler
  rw [if_neg (recv_pos_of_content req 32 (by decide) hrecv
    (content_ne_nil_of_index req index hparse)), hparse]
  dsimp only
  rw [if_neg hidx]

/-- C16.  With one schedule in the table, the request `index=5` (out of range) leaves the
count at 1, and the handler returns `ESP_OK` with the redirect to `/schedules`: the same
return value and the same response as for the request `index=0`, which deletes the
schedule. -/
theorem out_of_range_delete_reports_success :
    (delete_schedule_handler (post "index=5") (zone1_boot true)).map
        (fun r => (r.err, r.response, r.state.schedule_count))
      = some (esp_err_t.ESP_OK, http_response.found "/schedules", 1)
    ∧ (delete_schedule_handler (post "index=0") (zone1_boot true)).map
        (fun r => (r.err, r.response, r.state.schedule_count))
      = some (esp_err_t.ESP_OK, http_response.found "/schedules", 0) := by
  decide


theorem load_schedules_loop_length (nvs : nvs_t) (cnt : Int) (n i0 : Nat)
    (l : List schedule_t) : (load_schedules_loop nvs cnt n i0 l).length = l.length := by
  induction n generalizing i0 l with
  | zero => rfl
  | succ n ih =>
    unfold load_schedules_loop
    split
    · rw [ih]
      split <;> exact List.length_set _ _ _
    · rfl

/-- Slot `j` after the loop of `load_settings`: the stored schedule where the read
succeeds, the slot with `enabled = false` where it fails, untouched outside the loop. -/
theorem load_schedules_loop_getD (nvs : nvs_t) (cnt : Int) (j : Nat) (n i0 : Nat)
    (l : List schedule_t) (hj : j < l.length) :
    (load_schedules_loop nvs cnt n i0 l).getD j default
      = if i0 ≤ j ∧ j < i0 + n ∧ (j : Int) < cnt then
          (match nvs_get_blob_schedule nvs (sched_key j) with
           | some s => s
           | none => { (l.getD j default) with enabled := false })
        else l.getD j default := by
  induction n generalizing i0 l with
  | zero =>
    have : ¬ (i0 ≤ j ∧ j < i0 + 0 ∧ (j : Int) < cnt) := by omega
    rw [if_neg this]; rfl
  | succ n ih =>
    unfold load_schedules_loop
    by_cases hc : (i0 : Int) < cnt
    · rw [if_pos hc, ih (i0 + 1) _ (by
        split <;> (rw [List.length_set]; exact hj))]
      by_cases hji : j = i0
      · subst hji
        rw [if_neg (by omega), if_pos ⟨le_refl _, by omega, hc⟩]
        cases hb : nvs_get_blob_schedule nvs (sched_key j) with
        | some s => exact getD_set_self _ _ _ _ hj
        | none => exact getD_set_self _ _ _ _ hj
      · have hset : ∀ v : schedule_t, (l.set i0 v).getD j default = l.getD j default :=
          fun v => getD_set_ne _ _ _ _ _ (fun h => hji h.symm)
        by_cases hcond : i0 + 1 ≤ j ∧ j < i0 + 1 + n ∧ (j : Int) < cnt
        · rw [if_pos hcond, if_pos ⟨by omega, by omega, hcond.2.2⟩]
          cases hb : nvs_get_blob_schedule nvs (sched_key j) with
          | some s => rfl
          | none =>
            dsimp only
            cases hb0 : nvs_get_blob_schedule nvs (sched_key i0) with
            | some s0 => dsimp only; rw [hset]
            | none => dsimp only; rw [hset]
        · rw [if_neg hcond, if_neg (by omega)]
          cases hb0 : nvs_get_blob_schedule nvs (sched_key i0) with
          | some s0 => exact hset _
          | none => exact hset _
    · rw [if_neg hc, if_neg (by omega)]


theorem load_settings_count (st : State) :
    (load_settings st).schedule_count
      = if nvs_get_i32 st.nvs "sched_count" st.schedule_count < 0
            ∨ nvs_get_i32 st.nvs "sched_count" st.schedule_count > MAX_SCHEDULES then 0
        else nvs_get_i32 st.nvs "sched_count" st.schedule_count := rfl

theorem load_settings_schedules (st : State) :
    (load_settings st).schedules
      = load_schedules_loop st.nvs (load_settings st).schedule_count MAX_SCHEDULES 0
          st.schedules := rfl

theorem load_settings_device_name (st : State) :
    (load_settings st).device_name
      = nvs_get_str st.nvs "device_name" MAX_NAME_LEN st.device_name := rfl

theorem load_settings_device_location (st : State) :
    (load_settings st).device_location
      = nvs_get_str st.nvs "device_loc" MAX_NAME_LEN st.device_location := rfl

theorem nvs_get_i32_found (nvs : nvs_t) (key : String) (cur v : Int)
    (h : nvs key = some (.i32 v)) : nvs_get_i32 nvs key cur = v := by
  unfold nvs_get_i32
  rw [h]

theorem load_settings_count_of_store (st : State) (k : Int)
    (hk : st.nvs "sched_count" = some (.i32 k)) (hrange : 0 ≤ k ∧ k ≤ 10) :
    (load_settings st).schedule_count = k := by
  rw [load_settings_count, nvs_get_i32_found _ _ _ _ hk, if_neg (by unfold MAX_SCHEDULES; omega)]

theorem load_settings_getD (st : State) (i : Nat) (hlen : st.schedules.length = MAX_SCHEDULES)
    (hcount : (load_settings st).schedule_count ≤ 10)
    (hi : (i : Int) < (load_settings st).schedule_count) :
    (load_settings st).schedules.getD i default
      = (match nvs_get_blob_schedule st.nvs (sched_key i) with
         | some s => s
         | none => { (st.schedules.getD i default) with enabled := false }) := by
  have hi10 : i < MAX_SCHEDULES := by unfold MAX_SCHEDULES; omega
  rw [load_settings_schedules, load_schedules_loop_getD _ _ _ _ _ _ (by rw [hlen]; exact hi10),
    if_pos ⟨Nat.zero_le _, by omega, hi⟩]

/-- C17.  Let `st` hold between 0 and 10 schedules.  After `save_settings` on `st`,
`load_settings` run in any memory `st0` over the store that `save_settings` left gives
the `schedule_count` of `st` and, at every index below it, the schedule of `st`: the
loaded table and the saved one agree as sequences of `schedule_count` schedules. -/
theorem schedules_round_trip (st st0 : State)
    (hcount : 0 ≤ st.schedule_count ∧ st.schedule_count ≤ 10)
    (hlen : st.schedules.length = MAX_SCHEDULES)
    (hlen0 : st0.schedules.length = MAX_SCHEDULES) :
    (load_settings { st0 with nvs := (save_settings st).nvs }).schedule_count
        = st.schedule_count
    ∧ (∀ i : Nat, (i : Int) < st.schedule_count →
        (load_settings { st0 with nvs := (save_settings st).nvs }).schedules.getD i default
          = st.schedules.getD i default)
    ∧ (load_settings { st0 with nvs := (save_settings st).nvs }).schedules.take
          st.schedule_count.toNat
        = st.schedules.take st.schedule_count.toNat := by
  obtain ⟨st1, hst1⟩ : ∃ x, x = ({ st0 with nvs := (save_settings st).nvs } : State) :=
    ⟨_, rfl⟩
  rw [← hst1]
  have e1 : st1.nvs = (save_settings st).nvs := by rw [hst1]
  have e2 : st1.schedules = st0.schedules := by rw [hst1]
  have hc : (load_settings st1).schedule_count = st.schedule_count :=
    load_settings_count_of_store st1 _
      (by rw [e1]; exact (save_settings_nvs st 0 (by decide)).2) hcount
  have hpt : ∀ i : Nat, (i : Int) < st.schedule_count →
      (load_settings st1).schedules.getD i default = st.schedules.getD i default := by
    intro i hi
    have hi10 : i < MAX_SCHEDULES := by unfold MAX_SCHEDULES; omega
    rw [load_settings_getD st1 i (by rw [e2]; exact hlen0) (by rw [hc]; exact hcount.2)
      (by rw [hc]; exact hi), e1]
    unfold nvs_get_blob_schedule
    rw [(save_settings_nvs st i hi10).1, if_pos hi]
  refine ⟨hc, hpt, ?_⟩
  have hl1 : (load_settings st1).schedules.length = MAX_SCHEDULES := by
    rw [load_settings_schedules, load_schedules_loop_length, e2, hlen0]
  apply ext_getD _ _ default
  · rw [List.length_take, List.length_take, hl1, hlen]
  · intro j hj
    rw [List.length_take, hl1] at hj
    have hj1 : j < st.schedule_count.toNat := by omega
    rw [List.getD_eq_getElem?_getD, List.getD_eq_getElem?_getD, List.getElem?_take_of_lt hj1,
      List.getElem?_take_of_lt hj1, ← List.getD_eq_getElem?_getD, ← List.getD_eq_getElem?_getD]
    exact hpt j (by omega)

/-- C17, applied to the table "A", "B", "C" loaded into a freshly booted device. -/
theorem schedules_round_trip_witness :
    (load_settings { empty_state with nvs := (save_settings three_schedules).nvs }).schedule_count
        = 3
    ∧ (load_settings { empty_state with nvs := (save_settings three_schedules).nvs }).schedules.take
        3
        = [mk_schedule "A" 6 0 6 30 true, mk_schedule "B" 7 0 7 30 true,
           mk_schedule "C" 8 0 8 30 true] := by
  obtain ⟨h1, _, h3⟩ :=
    schedules_round_trip three_schedules empty_state (by decide) (by decide) (by decide)
  exact ⟨h1, h3⟩

/-- C19.  Let the store hold the count `k` with `0 ≤ k ≤ 10`.  After `load_settings` the
count is `k`, and for every slot below `k`: if the read of its blob succeeds, the slot is
the stored schedule; if the read fails, the slot has `enabled = false` (its other fields
are what they were in memory).  Neither depends on the reads of the other slots. -/
theorem partial_failure_isolation (st : State) (k : Int)
    (hk : st.nvs "sched_count" = some (.i32 k)) (hrange : 0 ≤ k ∧ k ≤ 10)
    (hlen : st.schedules.length = MAX_SCHEDULES) :
    (load_settings st).schedule_count = k
    ∧ ∀ i : Nat, (i : Int) < k →
        (∀ s, nvs_get_blob_schedule st.nvs (sched_key i) = some s →
          (load_settings st).schedules.getD i default = s)
        ∧ (nvs_get_blob_schedule st.nvs (sched_key i) = none →
          ((load_settings st).schedules.getD i default).enabled = false
          ∧ (load_settings st).schedules.getD i default
              = { (st.schedules.getD i default) with enabled := false }) := by
  have hc : (load_settings st).schedule_count = k := load_settings_count_of_store st k hk hrange
  refine ⟨hc, ?_⟩
  intro i hi
  have hg := load_settings_getD st i hlen (by rw [hc]; exact hrange.2) (by rw [hc]; exact hi)
  constructor
  · intro s hs
    rw [hg, hs]
  · intro hn
    rw [hg, hn]
    exact ⟨rfl, rfl⟩

/-- C19, applied to a store with the count 2 whose `sched_0` holds `zone1 true` and whose
`sched_1` is missing: slot 0 is `zone1 true` and slot 1 is disabled. -/
theorem partial_failure_isolation_witness :
    (load_settings partial_store).schedule_count = 2
    ∧ (load_settings partial_store).schedules.getD 0 default = zone1 true
    ∧ ((load_settings partial_store).schedules.getD 1 default).enabled = false := by
  obtain ⟨h1, h2⟩ := partial_failure_isolation partial_store 2 (by decide) (by decide) (by decide)
  exact ⟨h1, (h2 0 (by decide)).1 (zone1 true) (by decide),
    ((h2 1 (by decide)).2 (by decide)).1⟩

theorem save_schedules_loop_zero (l : List schedule_t) (n i0 : Nat) (nvs : nvs_t) :
    save_schedules_loop 0 l n i0 nvs = nvs := by
  cases n with
  | zero => rfl
  | succ n =>
    unfold save_schedules_loop
    rw [if_neg (by omega)]

/-- Whatever name and location are saved from a device without schedules, a freshly booted
device that loads the store has the saved name (when it fits) and its default location. -/
theorem load_after_save_device (name location : String) (hname : name.length + 1 ≤ MAX_NAME_LEN) :
    (load_settings { empty_state with
        nvs := (save_settings { empty_state with
          device_name := name, device_location := location }).nvs }).device_name = name
    ∧ (load_settings { empty_state with
        nvs := (save_settings { empty_state with
          device_name := name, device_location := location }).nvs }).device_location
        = "Green House" := by
  have hnvs : (save_settings { empty_state with
      device_name := name, device_location := location }).nvs
      = nvs_set (nvs_set (nvs_set (fun _ => none) "device_name" (.str name))
          "device_location" (.str location)) "sched_count" (.i32 0) := by
    unfold save_settings
    exact save_schedules_loop_zero _ _ _ _
  constructor
  · rw [load_settings_device_name]
    dsimp only
    rw [hnvs]
    unfold nvs_get_str
    rw [nvs_set_ne _ _ _ _ (by decide), nvs_set_ne _ _ _ _ (by decide), nvs_set_self]
    dsimp only
    rw [if_pos hname]
  · rw [load_settings_device_location]
    dsimp only
    rw [hnvs]
    unfold nvs_get_str
    rw [nvs_set_ne _ _ _ _ (by decide), nvs_set_ne _ _ _ _ (by decide),
      nvs_set_ne _ _ _ _ (by decide)]
    rfl

/-- C20.  The device named "Pump A" at the location "Field 7" is saved with
`save_settings`; a freshly booted device that runs `load_settings` over this store has
the name "Pump A" and the location "Green House", the default: the location is written
under the key `device_location` and read under the key `device_loc`. -/
theorem device_location_not_restored :
    (save_settings renamed_device).nvs "device_location" = some (.str "Field 7")
    ∧ (save_settings renamed_device).nvs "device_loc" = none
    ∧ (load_settings { empty_state with
        nvs := (save_settings renamed_device).nvs }).device_name = "Pump A"
    ∧ (load_settings { empty_state with
        nvs := (save_settings renamed_device).nvs }).device_location = "Green House" := by
  decide


/-! ## Two ticks against one -/

theorem entry_shape_getD (h h' : List schedule_history_t)
    (hs : ledger_shape h = ledger_shape h') (i : Nat) :
    entry_shape (h.getD i default) = entry_shape (h'.getD i default) := by
  have key : ∀ l : List schedule_history_t,
      (ledger_shape l).getD i default = entry_shape (l.getD i default) := by
    intro l
    unfold ledger_shape
    rw [List.getD_eq_getElem?_getD, List.getD_eq_getElem?_getD, List.getElem?_map]
    cases l[i]? <;> rfl
  rw [← key h, ← key h', hs]

theorem is_empty_of_shape (a b : String)
    (h : (if is_empty_str a then "" else "set") = (if is_empty_str b then "" else "set")) :
    is_empty_str a = is_empty_str b := by
  cases ha : is_empty_str a <;> cases hb : is_empty_str b <;> simp [ha, hb] at h ⊢

theorem slot_free_shape (h h' : List schedule_history_t)
    (hs : ledger_shape h = ledger_shape h') (i : Nat) : slot_free h i = slot_free h' i := by
  have e := entry_shape_getD h h' hs i
  unfold entry_shape at e
  have e1 : (h.getD i default).active = (h'.getD i default).active := by injection e
  have e2 : is_empty_str (h.getD i default).start_time
      = is_empty_str (h'.getD i default).start_time := by
    apply is_empty_of_shape
    injection e
  unfold slot_free
  rw [e1, e2]

theorem slot_active_named_shape (h h' : List schedule_history_t)
    (hs : ledger_shape h = ledger_shape h') (name : String) (i : Nat) :
    slot_active_named h name i = slot_active_named h' name i := by
  have e := entry_shape_getD h h' hs i
  unfold entry_shape at e
  have e1 : (h.getD i default).active = (h'.getD i default).active := by injection e
  have e2 : (h.getD i default).name = (h'.getD i default).name := by injection e
  unfold slot_active_named
  rw [e1, e2]

theorem ledger_shape_set (h h' : List schedule_history_t)
    (hs : ledger_shape h = ledger_shape h') (i : Nat) (x x' : schedule_history_t)
    (hx : entry_shape x = entry_shape x') :
    ledger_shape (h.set i x) = ledger_shape (h'.set i x') := by
  unfold ledger_shape at hs ⊢
  rw [List.map_set, List.map_set, hs, hx]

theorem ledger_shape_shift (n : Nat) : ∀ (i : Nat) (h h' : List schedule_history_t),
    ledger_shape h = ledger_shape h' →
    ledger_shape (shift_history h n i) = ledger_shape (shift_history h' n i) := by
  induction n with
  | zero => intro i h h' hs; exact hs
  | succ n ih =>
    intro i h h' hs
    unfold shift_history
    exact ih _ _ _ (ledger_shape_set h h' hs i _ _ (entry_shape_getD h h' hs (i + 1)))

theorem strftime_not_empty (t : tm) : is_empty_str (strncpy (strftime_ymdhm t) 19) = false := by
  rw [strncpy_strftime]
  have key : ∀ l : List Char, l ≠ [] → (l.take 19).isEmpty = false := by
    intro l hl
    cases l with
    | nil => exact absurd rfl hl
    | cons a l => rfl
  unfold is_empty_str strftime_ymdhm
  apply key
  intro h
  have hlen := congrArg List.length h
  unfold ymdhm_text at hlen
  rw [List.length_append, List.length_cons] at hlen
  simp only [List.length_nil] at hlen
  omega

theorem entry_shape_new_record (name ts ts' : String)
    (hts : is_empty_str (strncpy ts 19) = false) (hts' : is_empty_str (strncpy ts' 19) = false) :
    entry_shape (new_record name ts) = entry_shape (new_record name ts') := by
  unfold entry_shape new_record
  simp only [hts, hts']

theorem history_on_sim (ts ts' name : String) (st st' : State)
    (hts : is_empty_str (strncpy ts 19) = false) (hts' : is_empty_str (strncpy ts' 19) = false)
    (h : same_but_times st st') :
    same_but_times (history_on ts name st) (history_on ts' name st') := by
  obtain ⟨h1, h2, h3, h4, h5, h6⟩ := h
  have hfree : slot_free st.schedule_history = slot_free st'.schedule_history :=
    funext (slot_free_shape _ _ h6)
  have hrec := entry_shape_new_record name ts ts' hts hts'
  unfold history_on
  dsimp only
  rw [hfree]
  cases hf : for_break (slot_free st'.schedule_history) MAX_HISTORY 0 with
  | some j =>
    dsimp only
    have hact : slot_active_named st.schedule_history name
        = slot_active_named st'.schedule_history name :=
      funext (slot_active_named_shape _ _ h6 name)
    rw [hact]
    cases (for_break (slot_active_named st'.schedule_history name) MAX_HISTORY 0).isSome
    · simp only [Bool.not_false, if_true]
      exact ⟨h1, h2, by dsimp only; rw [h3], h4, h5, ledger_shape_set _ _ h6 _ _ _ hrec⟩
    · simp only [Bool.not_true, Bool.false_eq_true, if_false]
      exact ⟨h1, h2, h3, h4, h5, h6⟩
  | none =>
    dsimp only
    have hsh := ledger_shape_shift (MAX_HISTORY - 1) 0 _ _ h6
    generalize shift_history st.schedule_history (MAX_HISTORY - 1) 0 = sh at hsh ⊢
    generalize shift_history st'.schedule_history (MAX_HISTORY - 1) 0 = sh' at hsh ⊢
    have hact : slot_active_named sh name = slot_active_named sh' name :=
      funext (slot_active_named_shape _ _ hsh name)
    rw [hact]
    cases (for_break (slot_active_named sh' name) MAX_HISTORY 0).isSome
    · simp only [Bool.not_false, if_true]
      exact ⟨h1, h2, by dsimp only; rw [h3], h4, h5, ledger_shape_set _ _ hsh _ _ _ hrec⟩
    · simp only [Bool.not_true, Bool.false_eq_true, if_false]
      exact ⟨h1, h2, h3, h4, h5, hsh⟩

theorem history_off_sim (ts ts' name : String) (st st' : State)
    (hts : is_empty_str (strncpy ts 19) = false) (hts' : is_empty_str (strncpy ts' 19) = false)
    (h : same_but_times st st') :
    same_but_times (history_off ts name st) (history_off ts' name st') := by
  obtain ⟨h1, h2, h3, h4, h5, h6⟩ := h
  have hact : slot_active_named st.schedule_history name
      = slot_active_named st'.schedule_history name :=
    funext (slot_active_named_shape _ _ h6 name)
  unfold history_off
  rw [hact]
  cases hf : for_break (slot_active_named st'.schedule_history name) MAX_HISTORY 0 with
  | some j =>
    dsimp only
    refine ⟨h1, h2, h3, h4, h5, ledger_shape_set _ _ h6 _ _ _ ?_⟩
    have e := entry_shape_getD _ _ h6 j
    unfold entry_shape at e ⊢
    have e1 : (st.schedule_history.getD j default).name
        = (st'.schedule_history.getD j default).name := by injection e
    have e2 : (if is_empty_str (st.schedule_history.getD j default).start_time then ""
          else "set")
        = (if is_empty_str (st'.schedule_history.getD j default).start_time then ""
          else "set") := by injection e
    simp only [hts, hts', e1, e2]
  | none => exact ⟨h1, h2, h3, h4, h5, h6⟩

theorem save_history_to_flash_sim (st st' : State) (h : same_but_times st st') :
    same_but_times (save_history_to_flash st) (save_history_to_flash st') := h

theorem add_to_history_sim (t t' : tm) (name action : String) (st st' : State)
    (h : same_but_times st st') :
    same_but_times (add_to_history t name action st) (add_to_history t' name action st') := by
  unfold add_to_history
  dsimp only
  apply save_history_to_flash_sim
  split
  · exact history_on_sim _ _ name st st' (strftime_not_empty t) (strftime_not_empty t') h
  · split
    · exact history_off_sim _ _ name st st' (strftime_not_empty t) (strftime_not_empty t') h
    · exact h

/-- The loop body is its start branch followed by its end branch, both for the schedule
found at index `i` when the body is entered. -/
theorem schedule_step_eq (t : tick_clock) (m : Int) (i : Nat) (st : State) :
    schedule_step t m i st
      = if (st.schedules.getD i default).enabled = true then
          end_branch t m i (st.schedules.getD i default)
            (start_branch t m i (st.schedules.getD i default) st)
        else st := by
  unfold schedule_step start_branch end_branch starts_at ends_at
  simp only [List.getD_eq_getElem?_getD]
  by_cases he : (st.schedules[i]?.getD default).enabled = true
  · by_cases hs : (st.schedules[i]?.getD default).start_hour = m / 60
        ∧ (st.schedules[i]?.getD default).start_minute = m % 60
    · by_cases hn : (st.schedules[i]?.getD default).end_hour = m / 60
          ∧ (st.schedules[i]?.getD default).end_minute = m % 60
      · by_cases hr : (st.schedules[i]?.getD default).repeat_daily = true
        · simp [he, hs, hn, hr, motor_on, motor_off]
        · simp [he, hs, hn, hr, motor_on, motor_off]
      · simp [he, hs, hn, motor_on, motor_off]
    · by_cases hn : (st.schedules[i]?.getD default).end_hour = m / 60
          ∧ (st.schedules[i]?.getD default).end_minute = m % 60
      · by_cases hr : (st.schedules[i]?.getD default).repeat_daily = true
        · simp [he, hs, hn, hr, motor_on, motor_off]
        · simp [he, hs, hn, hr, motor_on, motor_off]
      · simp [he, hs, hn, motor_on, motor_off]
  · simp [he]

theorem start_branch_sim (t t' : tick_clock) (m : Int) (i : Nat) (s : schedule_t) (st st' : State)
    (h : same_but_times st st') :
    same_but_times (start_branch t m i s st) (start_branch t' m i s st') := by
  unfold start_branch
  split
  · apply add_to_history_sim
    obtain ⟨h1, h2, h3, h4, h5, h6⟩ := h
    exact ⟨rfl, h2, h3, h4, by dsimp only [motor_on]; rw [h5], h6⟩
  · exact h

theorem end_branch_sim (t t' : tick_clock) (m : Int) (i : Nat) (s : schedule_t) (st st' : State)
    (h : same_but_times st st') :
    same_but_times (end_branch t m i s st) (end_branch t' m i s st') := by
  have hoff : same_but_times
      (add_to_history (t.at_call (motor_call.off m i)) s.name "OFF"
        { motor_off st with calls := st.calls ++ [motor_call.off m i] })
      (add_to_history (t'.at_call (motor_call.off m i)) s.name "OFF"
        { motor_off st' with calls := st'.calls ++ [motor_call.off m i] }) := by
    apply add_to_history_sim
    obtain ⟨h1, h2, h3, h4, h5, h6⟩ := h
    exact ⟨rfl, h2, h3, h4, by dsimp only [motor_off]; rw [h5], h6⟩
  unfold end_branch
  split
  · dsimp only
    split
    · obtain ⟨h1, h2, h3, h4, h5, h6⟩ := hoff
      refine ⟨?_, ?_, ?_, ?_, ?_, ?_⟩
      · rw [(save_settings_frame _).2.2.2.1, (save_settings_frame _).2.2.2.1]; exact h1
      · rw [(save_settings_frame _).2.1, (save_settings_frame _).2.1]; exact h2
      · rw [(save_settings_frame _).2.2.2.2.2.2, (save_settings_frame _).2.2.2.2.2.2]; exact h3
      · rw [(save_settings_frame _).1, (save_settings_frame _).1]
        dsimp only
        rw [h4]
      · rw [(save_settings_frame _).2.2.1, (save_settings_frame _).2.2.1]; exact h5
      · rw [(save_settings_frame _).2.2.2.2.2.1, (save_settings_frame _).2.2.2.2.2.1]; exact h6
    · exact hoff
  · exact h

theorem schedule_step_sim (t t' : tick_clock) (m : Int) (i : Nat) (st st' : State)
    (h : same_but_times st st') :
    same_but_times (schedule_step t m i st) (schedule_step t' m i st') := by
  rw [schedule_step_eq, schedule_step_eq, ← h.2.2.2.1]
  split
  · exact end_branch_sim t t' m i _ _ _ (start_branch_sim t t' m i _ _ _ h)
  · exact h

theorem schedule_loop_sim (t t' : tick_clock) (m : Int) (n : Nat) : ∀ (i : Nat) (st st' : State),
    same_but_times st st' →
    same_but_times (schedule_loop t m n i st) (schedule_loop t' m n i st') := by
  induction n with
  | zero => intro i st st' h; exact h
  | succ n ih =>
    intro i st st' h
    unfold schedule_loop
    rw [← h.2.1]
    split
    · exact ih _ _ _ (schedule_step_sim t t' m i st st' h)
    · exact h

theorem foldl_minute_step_sim (t t' : tick_clock) (ms : List Int) : ∀ (st st' : State),
    same_but_times st st' →
    same_but_times (ms.foldl (minute_step t) st) (ms.foldl (minute_step t') st') := by
  induction ms with
  | nil => intro st st' h; exact h
  | cons m ms ih =>
    intro st st' h
    rw [List.foldl_cons, List.foldl_cons]
    exact ih _ _ (schedule_loop_sim t t' m _ _ _ _ h)

theorem scanned_minutes_append (x : Int) (d1 d2 : Nat) :
    scanned_minutes x (d1 + d2)
      = scanned_minutes x d1 ++ scanned_minutes ((x + (d1 : Int)) % (24 * 60)) d2 := by
  unfold scanned_minutes
  rw [List.range_add, List.map_append, List.map_map]
  congr 1
  apply List.map_congr_left
  intro k _
  simp only [Function.comp]
  push_cast
  omega

theorem same_but_times_refl (st : State) : same_but_times st st :=
  ⟨rfl, rfl, rfl, rfl, rfl, rfl⟩

theorem same_but_times_cursor (st : State) (c : Int) :
    same_but_times { st with last_checked_minute := c } st :=
  ⟨rfl, rfl, rfl, rfl, rfl, rfl⟩

/-- C21.  Let the cursor `c` and the minute `a` (of the clock reading `ta`) be minutes of
the day and `b` the minute of the clock reading `tb`, with
`(a - c) mod 1440 + (b - a) mod 1440 = (b - c) mod 1440`.
Both ticks of "`ta` then `tb`" and the single tick at `tb` return, and the state after the
two ticks has the same recorded motor calls (each followed by its history call), schedule
table, `schedule_count`, `motor_state`, cursor, `history_count` and, timestamps aside,
ledger as the state after the single tick. -/
theorem two_ticks_equal_one (ta tb : tick_clock) (st : State)
    (hc : 0 ≤ st.last_checked_minute ∧ st.last_checked_minute < 24 * 60)
    (ha : minute_of_day ta.timeinfo < 24 * 60)
    (hgap : (minute_of_day ta.timeinfo - st.last_checked_minute) % (24 * 60)
        + (minute_of_day tb.timeinfo - minute_of_day ta.timeinfo) % (24 * 60)
      = (minute_of_day tb.timeinfo - st.last_checked_minute) % (24 * 60)) :
    ∃ s1 s2 s3, check_schedules ta st = some s1 ∧ check_schedules tb s1 = some s2
      ∧ check_schedules tb st = some s3
      ∧ s2.calls = s3.calls ∧ s2.schedules = s3.schedules
      ∧ s2.schedule_count = s3.schedule_count ∧ s2.motor_state = s3.motor_state
      ∧ s2.last_checked_minute = s3.last_checked_minute
      ∧ s2.history_count = s3.history_count
      ∧ ledger_shape s2.schedule_history = ledger_shape s3.schedule_history := by
  have ha0 : 0 ≤ minute_of_day ta.timeinfo := by unfold minute_of_day; omega
  obtain ⟨ms1, hms1⟩ : ∃ x, x = scanned_minutes ((st.last_checked_minute + 1) % (24 * 60))
      (gap st.last_checked_minute (minute_of_day ta.timeinfo)) := ⟨_, rfl⟩
  obtain ⟨ms2, hms2⟩ : ∃ x, x = scanned_minutes ((minute_of_day ta.timeinfo + 1) % (24 * 60))
      (gap (minute_of_day ta.timeinfo) (minute_of_day tb.timeinfo)) := ⟨_, rfl⟩
  have hms : scanned_minutes ((st.last_checked_minute + 1) % (24 * 60))
      (gap st.last_checked_minute (minute_of_day tb.timeinfo)) = ms1 ++ ms2 := by
    have hg : gap st.last_checked_minute (minute_of_day tb.timeinfo)
        = gap st.last_checked_minute (minute_of_day ta.timeinfo)
          + gap (minute_of_day ta.timeinfo) (minute_of_day tb.timeinfo) := by
      unfold gap; omega
    have hx : ((st.last_checked_minute + 1) % (24 * 60)
        + ((gap st.last_checked_minute (minute_of_day ta.timeinfo) : Nat) : Int)) % (24 * 60)
        = (minute_of_day ta.timeinfo + 1) % (24 * 60) := by
      unfold gap; omega
    rw [hg, scanned_minutes_append, hx, ← hms1, ← hms2]
  obtain ⟨s1, hs1⟩ : ∃ x, x = ({ ms1.foldl (minute_step ta) st with
      last_checked_minute := minute_of_day ta.timeinfo } : State) := ⟨_, rfl⟩
  have e1 : check_schedules ta st = some s1 := by
    rw [check_schedules_eq ta st hc, ← hms1, hs1]
  have c1 : s1.last_checked_minute = minute_of_day ta.timeinfo := by rw [hs1]
  have sim1 : same_but_times s1 (ms1.foldl (minute_step tb) st) := by
    have k1 : same_but_times s1 (ms1.foldl (minute_step ta) st) := by
      rw [hs1]; exact same_but_times_cursor _ _
    have k2 := foldl_minute_step_sim ta tb ms1 st st (same_but_times_refl st)
    exact ⟨k1.1.trans k2.1, k1.2.1.trans k2.2.1, k1.2.2.1.trans k2.2.2.1,
      k1.2.2.2.1.trans k2.2.2.2.1, k1.2.2.2.2.1.trans k2.2.2.2.2.1,
      k1.2.2.2.2.2.trans k2.2.2.2.2.2⟩
  obtain ⟨s2, hs2⟩ : ∃ x, x = ({ ms2.foldl (minute_step tb) s1 with
      last_checked_minute := minute_of_day tb.timeinfo } : State) := ⟨_, rfl⟩
  have e2 : check_schedules tb s1 = some s2 := by
    rw [check_schedules_eq tb s1 (by rw [c1]; exact ⟨ha0, ha⟩), c1, ← hms2, hs2]
  obtain ⟨s3, hs3⟩ : ∃ x, x = ({ (ms1 ++ ms2).foldl (minute_step tb) st with
      last_checked_minute := minute_of_day tb.timeinfo } : State) := ⟨_, rfl⟩
  have e3 : check_schedules tb st = some s3 := by
    rw [check_schedules_eq tb st hc, hms, hs3]
  have sim2 := foldl_minute_step_sim tb tb ms2 _ _ sim1
  rw [← List.foldl_append] at sim2
  obtain ⟨k1, k2, k3, k4, k5, k6⟩ := sim2
  refine ⟨s1, s2, s3, e1, e2, e3, ?_, ?_, ?_, ?_, ?_, ?_, ?_⟩
  · rw [hs2, hs3]; exact k5
  · rw [hs2, hs3]; exact k4
  · rw [hs2, hs3]; exact k2
  · rw [hs2, hs3]; exact k1
  · rw [hs2, hs3]
  · rw [hs2, hs3]; exact k3
  · rw [hs2, hs3]; exact k6

/-- C21, applied to `zone1` (daily) with the cursor at 05:59: the ticks at 06:05 and 06:35
against the tick at 06:35 alone.  Both runs call `motor_on` and `motor_off` once. -/
theorem two_ticks_equal_one_witness :
    ∃ s1 s2 s3, check_schedules (steady (clock 6 5)) (state_at_0559 (zone1 true)) = some s1
      ∧ check_schedules (steady (clock 6 35)) s1 = some s2
      ∧ check_schedules (steady (clock 6 35)) (state_at_0559 (zone1 true)) = some s3
      ∧ s2.calls = s3.calls ∧ s3.calls = [motor_call.on 360 0, motor_call.off 390 0]
      ∧ s2.motor_state = s3.motor_state
      ∧ ledger_shape s2.schedule_history = ledger_shape s3.schedule_history := by
  obtain ⟨s1, s2, s3, e1, e2, e3, h1, _, _, h4, _, _, h7⟩ :=
    two_ticks_equal_one (steady (clock 6 5)) (steady (clock 6 35)) (state_at_0559 (zone1 true))
      (by decide) (by decide) (by decide)
  refine ⟨s1, s2, s3, e1, e2, e3, h1, ?_, h4, h7⟩
  have e4 : check_schedules (steady (clock 6 35)) (state_at_0559 (zone1 true)) = some s3 := e3
  have e5 : (check_schedules (steady (clock 6 35)) (state_at_0559 (zone1 true))).map (fun s =>
      s.calls)
      = some [motor_call.on 360 0, motor_call.off 390 0] := by decide
  rw [e4] at e5
  exact Option.some.inj e5


/-! ## url_decode -/

theorem escapes_well_formed_tail (c : Char) (rest : List Char)
    (h : escapes_well_formed (c :: rest)) : escapes_well_formed rest := by
  intro i hi hp
  have := h (i + 1) (by simp; omega) (by simpa using hp)
  simp only [List.length_cons, List.getD_cons_succ] at this
  exact ⟨by omega, this.2.1, this.2.2⟩

theorem strtol_hex2_digits (a b : Char) (ha : is_hex_digit a = true) (hb : is_hex_digit b = true) :
    strtol_hex2 a b = 16 * (hex_value a).getD 0 + (hex_value b).getD 0 := by
  unfold is_hex_digit at ha hb
  unfold strtol_hex2
  cases hx : hex_value a with
  | none => rw [hx] at ha; cases ha
  | some x =>
    cases hy : hex_value b with
    | none => rw [hy] at hb; cases hb
    | some y => rfl

theorem url_decode_bytes_reference_aux (n : Nat) : ∀ src : List Char, src.length ≤ n →
    escapes_well_formed src →
    url_decode_bytes src = some (url_decode_reference src)
      ∧ (url_decode_reference src).length ≤ src.length := by
  induction n with
  | zero =>
    intro src hn _
    have : src = [] := List.length_eq_zero.1 (by omega)
    subst this
    exact ⟨rfl, le_refl _⟩
  | succ n ih =>
    intro src hn hw
    cases src with
    | nil => exact ⟨rfl, le_refl _⟩
    | cons c rest =>
      have hrest : rest.length ≤ n := by simpa using hn
      by_cases hc : c = '%'
      · have h0 := hw 0 (by simp) (by simpa using hc)
        cases rest with
        | nil => simp at h0
        | cons a rest1 =>
          cases rest1 with
          | nil => simp at h0
          | cons b rest2 =>
            simp only [List.getD_cons_succ, List.getD_cons_zero] at h0
            obtain ⟨_, ha, hb⟩ := h0
            have hw2 : escapes_well_formed rest2 :=
              escapes_well_formed_tail _ _ (escapes_well_formed_tail _ _
                (escapes_well_formed_tail _ _ hw))
            obtain ⟨k1, k2⟩ := ih rest2 (by simp at hrest; omega) hw2
            unfold url_decode_bytes url_decode_reference
            rw [if_pos hc, if_pos ⟨hc, ha, hb⟩]
            dsimp only
            rw [k1, strtol_hex2_digits a b ha hb]
            exact ⟨rfl, by simp only [List.length_cons]; omega⟩
      · obtain ⟨k1, k2⟩ := ih rest hrest (escapes_well_formed_tail _ _ hw)
        have href : url_decode_reference (c :: rest)
            = (if c = '+' then ' ' else c) :: url_decode_reference rest := by
          cases rest with
          | nil => rfl
          | cons a rest1 =>
            cases rest1 with
            | nil => rfl
            | cons b rest2 =>
              rw [url_decode_reference, if_neg (fun h => hc h.1)]
        rw [href]
        unfold url_decode_bytes
        rw [if_neg hc, k1]
        by_cases hp : c = '+'
        · rw [if_pos hp, if_pos hp]
          exact ⟨rfl, by simp only [List.length_cons]; omega⟩
        · rw [if_neg hp, if_neg hp]
          exact ⟨rfl, by simp only [List.length_cons]; omega⟩

theorem url_decode_reference_plain (src : List Char) (h1 : '%' ∉ src) (h2 : '+' ∉ src) :
    url_decode_reference src = src := by
  induction src with
  | nil => rfl
  | cons c rest ih =>
    have hc : c ≠ '%' := fun h => h1 (by rw [h]; exact List.mem_cons_self _ _)
    have hp : c ≠ '+' := fun h => h2 (by rw [h]; exact List.mem_cons_self _ _)
    have href : url_decode_reference (c :: rest)
        = (if c = '+' then ' ' else c) :: url_decode_reference rest := by
      cases rest with
      | nil => rfl
      | cons a rest1 =>
        cases rest1 with
        | nil => rfl
        | cons b rest2 =>
          rw [url_decode_reference, if_neg (fun h => hc h.1)]
    rw [href, if_neg hp, ih (fun h => h1 (List.mem_cons_of_mem _ h))
      (fun h => h2 (List.mem_cons_of_mem _ h))]

theorem c_str_of_no_zero (bytes : List Char) (h : Char.ofNat 0 ∉ bytes) : c_str bytes = bytes := by
  unfold c_str
  rw [List.takeWhile_eq_self_iff]
  intro c hc
  simp only [bne_iff_ne, ne_eq]
  intro h0
  exact h (h0 ▸ hc)

theorem url_decode_mem_zero (rest : List Char) :
    url_decode_mem (Char.ofNat 0 :: rest) = some [] := by
  conv_lhs => unfold url_decode_mem
  rw [if_pos rfl]

theorem url_decode_mem_escape (a b : Char) (rest2 : List Char) :
    url_decode_mem ('%' :: a :: b :: rest2)
      = (url_decode_mem rest2).map (fun l => Char.ofNat (strtol_hex2 a b) :: l) := by
  conv_lhs => unfold url_decode_mem
  rw [if_neg (by decide), if_pos rfl]

theorem url_decode_mem_copy (c : Char) (rest : List Char) (h0 : c ≠ Char.ofNat 0)
    (hc : c ≠ '%') :
    url_decode_mem (c :: rest)
      = (url_decode_mem rest).map (fun l => (if c = '+' then ' ' else c) :: l) := by
  conv_lhs => unfold url_decode_mem
  rw [if_neg h0, if_neg hc]
  split <;> rfl

theorem url_decode_bytes_escape (a b : Char) (rest2 : List Char) :
    url_decode_bytes ('%' :: a :: b :: rest2)
      = (url_decode_bytes rest2).map (fun l => Char.ofNat (strtol_hex2 a b) :: l) := by
  conv_lhs => unfold url_decode_bytes
  rw [if_pos rfl]

theorem url_decode_bytes_copy (c : Char) (rest : List Char) (hc : c ≠ '%') :
    url_decode_bytes (c :: rest)
      = (url_decode_bytes rest).map (fun l => (if c = '+' then ' ' else c) :: l) := by
  conv_lhs => unfold url_decode_bytes
  rw [if_neg hc]
  split <;> rfl

/-- A string whose decoding stays within it is decoded the same way whatever follows its
terminator. -/
theorem url_decode_mem_of_bytes (n : Nat) : ∀ (src after l : List Char), src.length ≤ n →
    Char.ofNat 0 ∉ src → url_decode_bytes src = some l →
    url_decode_mem (src ++ Char.ofNat 0 :: after) = some l := by
  induction n with
  | zero =>
    intro src after l hn _ h
    have : src = [] := List.length_eq_zero.1 (by omega)
    subst this
    simp only [url_decode_bytes, Option.some.injEq] at h
    subst h
    exact url_decode_mem_zero after
  | succ n ih =>
    intro src after l hn h0 h
    cases src with
    | nil =>
      simp only [url_decode_bytes, Option.some.injEq] at h
      subst h
      exact url_decode_mem_zero after
    | cons c rest =>
      have hc0 : c ≠ Char.ofNat 0 := fun hc => h0 (hc ▸ List.mem_cons_self _ _)
      have hr0 : Char.ofNat 0 ∉ rest := fun hm => h0 (List.mem_cons_of_mem _ hm)
      have hrest : rest.length ≤ n := by simpa using hn
      by_cases hc : c = '%'
      · subst hc
        cases rest with
        | nil => unfold url_decode_bytes at h; rw [if_pos rfl] at h; cases h
        | cons a rest1 =>
          cases rest1 with
          | nil => unfold url_decode_bytes at h; rw [if_pos rfl] at h; cases h
          | cons b rest2 =>
            rw [url_decode_bytes_escape] at h
            simp only [List.cons_append]
            rw [url_decode_mem_escape]
            cases hd : url_decode_bytes rest2 with
            | none => rw [hd] at h; cases h
            | some l2 =>
              rw [hd] at h
              rw [ih rest2 after l2 (by simp at hrest; omega)
                (fun hm => hr0 (List.mem_cons_of_mem _ (List.mem_cons_of_mem _ hm))) hd]
              exact h
      · rw [url_decode_bytes_copy c rest hc] at h
        rw [List.cons_append, url_decode_mem_copy c _ hc0 hc]
        cases hd : url_decode_bytes rest with
        | none => rw [hd] at h; cases h
        | some l2 =>
          rw [hd] at h
          rw [ih rest after l2 hrest hr0 hd]
          exact h

/-- C22.  Let every `%` of `src` be followed by two hexadecimal digits.  The bytes that
`url_decode` writes before the terminator are `src` with each `%XY` replaced by the byte of
value `16 * X + Y`, each `+` by a space and every other character copied; they are never
more than the characters of `src`; a string without `%` and `+` is written unchanged; and
in a destination with room for `src` the C string left is the one these bytes spell (all of
them when no decoded byte is zero).  The same bytes are written, and the same C string is
left, when `src` stands in memory before its terminator and any further bytes, as a token
of a request body does. -/
theorem url_decode_follows_reference (src : List Char) (h : escapes_well_formed src) :
    url_decode_bytes src = some (url_decode_reference src)
    ∧ (url_decode_reference src).length ≤ src.length
    ∧ ('%' ∉ src → '+' ∉ src → url_decode_bytes src = some src)
    ∧ (∀ size, src.length + 1 ≤ size →
        url_decode size src = some ⟨c_str (url_decode_reference src)⟩)
    ∧ (Char.ofNat 0 ∉ url_decode_reference src → ∀ size, src.length + 1 ≤ size →
        url_decode size src = some ⟨url_decode_reference src⟩)
    ∧ (Char.ofNat 0 ∉ src → ∀ after,
        url_decode_mem (src ++ Char.ofNat 0 :: after) = some (url_decode_reference src)
        ∧ ∀ size, src.length + 1 ≤ size →
            url_decode_into size (src ++ Char.ofNat 0 :: after)
              = some ⟨c_str (url_decode_reference src)⟩) := by
  obtain ⟨k1, k2⟩ := url_decode_bytes_reference_aux src.length src (le_refl _) h
  have k3 : ∀ size, src.length + 1 ≤ size →
      url_decode size src = some ⟨c_str (url_decode_reference src)⟩ := by
    intro size hs
    unfold url_decode
    rw [k1]
    dsimp only
    rw [if_pos (by omega)]
  refine ⟨k1, k2, ?_, k3, ?_, ?_⟩
  · intro h1 h2
    rw [k1, url_decode_reference_plain src h1 h2]
  · intro h0 size hs
    rw [k3 size hs, c_str_of_no_zero _ h0]
  · intro h0 after
    have k4 := url_decode_mem_of_bytes src.length src after _ (le_refl _) h0 k1
    refine ⟨k4, ?_⟩
    intro size hs
    unfold url_decode_into
    rw [k4]
    dsimp only
    rw [if_pos (by omega)]

/-- C22, applied to `Zone%201+a` and to `%20`, alone and as the first token of a request
body. -/
theorem url_decode_follows_reference_witness :
    escapes_well_formed "Zone%201+a".data
    ∧ url_decode_bytes "Zone%201+a".data = some "Zone 1 a".data
    ∧ url_decode_bytes "%20".data = some " ".data
    ∧ url_decode MAX_NAME_LEN "Zone%201+a".data = some "Zone 1 a"
    ∧ url_decode_mem ("Zone%201+a".data ++ Char.ofNat 0 :: ("start_time=06:00".data
        ++ [Char.ofNat 0])) = some "Zone 1 a".data :=
  ⟨by decide,
   (url_decode_follows_reference "Zone%201+a".data (by decide)).1.trans (by decide),
   (url_decode_follows_reference "%20".data (by decide)).1.trans (by decide),
   ((url_decode_follows_reference "Zone%201+a".data (by decide)).2.2.2.2.1 (by decide)
      MAX_NAME_LEN (by decide)).trans (by decide),
   (((url_decode_follows_reference "Zone%201+a".data (by decide)).2.2.2.2.2 (by decide)
      ("start_time=06:00".data ++ [Char.ofNat 0])).1).trans (by decide)⟩

/-- A `%` directly before the terminator that `strtok_r` wrote over a delimiter: `url_decode`
takes the terminator and the byte behind it as `code`, writes a zero, and goes on two
bytes behind the terminator.  For the body `start_time=06:00&end_time=06:30&name=ab%&x`
these bytes are the `x` and the terminator of the content, all initialised: the name read
is "ab" and the add is accepted. -/
theorem short_escape_reads_on :
    url_decode_mem ("ab%".data ++ Char.ofNat 0 :: 'x' :: [Char.ofNat 0])
      = some ['a', 'b', Char.ofNat 0]
    ∧ url_decode_bytes "ab%".data = none
    ∧ parse_form (received_buffer (post "start_time=06:00&end_time=06:30&name=ab%&x") 512)
      = some { name := "ab", start_time := "06:00", end_time := "06:30", repeat_daily := false }
    ∧ (add_schedule_handler (post "start_time=06:00&end_time=06:30&name=ab%&x")
        empty_state).map (fun r => (r.err, r.state.schedule_count,
          (r.state.schedules.getD 0 default).name))
      = some (esp_err_t.ESP_OK, 1, "ab")
    ∧ (add_schedule_handler (post "start_time=06:00&end_time=06:30&name=ab%")
        empty_state).isNone = true := by
  decide


/-! ## The order of the motor calls -/

theorem mem_loop_calls (m : Int) (cnt : Int) (l : List schedule_t) (e : motor_call) (n : Nat) :
    ∀ i : Nat, e ∈ loop_calls m cnt l n i →
      e.minute = m ∧ i ≤ e.index ∧ e.index < i + n ∧ (e.index : Int) < cnt := by
  induction n with
  | zero => intro i h; simp [loop_calls] at h
  | succ n ih =>
    intro i h
    unfold loop_calls at h
    split at h
    · next hc =>
      rw [List.mem_append] at h
      rcases h with h | h
      · rcases mem_step_calls m i _ e h with h1 | h1 <;> subst h1 <;>
          exact ⟨rfl, le_refl _, (by show i < i + (n + 1); omega), hc⟩
      · obtain ⟨k1, k2, k3, k4⟩ := ih (i + 1) h
        exact ⟨k1, by omega, by omega, k4⟩
    · simp at h

theorem step_calls_pairwise (c m : Int) (i : Nat) (s : schedule_t) :
    (step_calls m i s).Pairwise (processed_before c) := by
  unfold step_calls
  by_cases he : s.enabled = true
  · rw [if_pos he]
    by_cases h1 : starts_at s m <;> by_cases h2 : ends_at s m <;>
      simp [h1, h2, processed_before, motor_call.minute, motor_call.index, motor_call.is_off]
  · rw [if_neg he]
    exact List.Pairwise.nil

theorem loop_calls_pairwise (c m : Int) (cnt : Int) (l : List schedule_t) (n : Nat) :
    ∀ i : Nat, (loop_calls m cnt l n i).Pairwise (processed_before c) := by
  induction n with
  | zero => intro i; exact List.Pairwise.nil
  | succ n ih =>
    intro i
    unfold loop_calls
    split
    · rw [List.pairwise_append]
      refine ⟨step_calls_pairwise c m i _, ih (i + 1), ?_⟩
      intro a ha b hb
      obtain ⟨k1, k2, _, _⟩ := mem_loop_calls m cnt l b n (i + 1) hb
      right
      rcases mem_step_calls m i _ a ha with h1 | h1 <;> subst h1 <;>
        exact ⟨k1.symm, Or.inl (by show i < b.index; omega)⟩
    · exact List.Pairwise.nil

/-- The calls made while the minutes `x, ..., x + d - 1` are scanned are in processing order,
and each carries one of these minutes. -/
theorem scan_calls_pairwise (c : Int) (cnt : Int) (d : Nat) :
    ∀ (x : Int) (k0 : Nat) (l : List schedule_t), 0 ≤ x → x < 24 * 60 →
      x = (c + 1 + (k0 : Int)) % (24 * 60) → k0 + d ≤ 24 * 60 →
      (scan_calls cnt (scanned_minutes x d) l).Pairwise (processed_before c)
      ∧ ∀ e ∈ scan_calls cnt (scanned_minutes x d) l,
          e.minute ∈ scanned_minutes x d ∧ e.index < MAX_SCHEDULES
            ∧ (e.index : Int) < cnt := by
  induction d with
  | zero =>
    intro x k0 l _ _ _ _
    exact ⟨List.Pairwise.nil, fun e he => by simp [scanned_minutes, scan_calls] at he⟩
  | succ d ih =>
    intro x k0 l h0 h1 hx hk
    rw [scanned_minutes_succ x d ⟨h0, h1⟩]
    unfold scan_calls
    obtain ⟨p1, p2⟩ := ih ((x + 1) % (24 * 60)) (k0 + 1)
      (loop_schedules x cnt MAX_SCHEDULES 0 l) (by omega) (by omega)
      (by push_cast; omega) (by omega)
    have hpos : ∀ e ∈ loop_calls x cnt l MAX_SCHEDULES 0,
        e.minute = x ∧ e.index < MAX_SCHEDULES ∧ (e.index : Int) < cnt := by
      intro e he
      obtain ⟨k1, _, k3, k4⟩ := mem_loop_calls x cnt l e _ _ he
      exact ⟨k1, by omega, k4⟩
    constructor
    · rw [List.pairwise_append]
      refine ⟨loop_calls_pairwise c x cnt l _ 0, p1, ?_⟩
      intro a ha b hb
      left
      have ea := (hpos a ha).1
      obtain ⟨k, hk1, hk2⟩ := (mem_scanned_minutes _ _ _).1 (p2 b hb).1
      unfold scan_position
      rw [ea, hk2]
      omega
    · intro e he
      rw [List.mem_append] at he
      rcases he with he | he
      · obtain ⟨k1, k2, k3⟩ := hpos e he
        exact ⟨by rw [k1]; exact List.mem_cons_self _ _, k2, k3⟩
      · obtain ⟨k1, k2, k3⟩ := p2 e he
        exact ⟨List.mem_cons_of_mem _ k1, k2, k3⟩

theorem check_schedules_bootstrap (t : tick_clock) (st : State) (h : st.last_checked_minute = -1) :
    check_schedules t st = some { st with last_checked_minute := minute_of_day t.timeinfo } := by
  unfold check_schedules check_schedules_fuel
  rw [if_pos h]
  rfl

/-- C25.  The motor calls of a tick, each followed by its history call, are made in
processing order: of two calls the earlier one has the earlier minute in the scan that
starts after the cursor, or the same minute and the lower schedule index, or the same
minute and schedule and is the start where the later one is the end.  Each call carries a
scanned minute and the index of a schedule below `schedule_count`. -/
theorem transitions_in_processing_order (t : tick_clock) (st : State)
    (hc : st.last_checked_minute = -1
      ∨ (0 ≤ st.last_checked_minute ∧ st.last_checked_minute < 24 * 60)) :
    ∃ st' fired, check_schedules t st = some st' ∧ st'.calls = st.calls ++ fired
      ∧ fired.Pairwise (processed_before st.last_checked_minute)
      ∧ ∀ e ∈ fired, in_scanned_range st.last_checked_minute (minute_of_day t.timeinfo) e.minute
          ∧ e.index < MAX_SCHEDULES ∧ (e.index : Int) < st.schedule_count := by
  rcases hc with hc | hc
  · refine ⟨_, [], check_schedules_bootstrap t st hc, ?_, List.Pairwise.nil, ?_⟩
    · simp
    · intro e he; cases he
  · have hg := gap_lt st.last_checked_minute (minute_of_day t.timeinfo)
    obtain ⟨p1, p2⟩ := scan_calls_pairwise st.last_checked_minute st.schedule_count
      (gap st.last_checked_minute (minute_of_day t.timeinfo)) ((st.last_checked_minute + 1) % (24 *
          60)) 0
      st.schedules (by omega) (by omega) (by simp) (by omega)
    refine ⟨_, _, check_schedules_eq t st hc, (foldl_minute_step_table t _ st).2.1, p1, ?_⟩
    intro e he
    obtain ⟨k1, k2, k3⟩ := p2 e he
    exact ⟨(mem_scanned_iff_in_range _ _ _).1 k1, k2, k3⟩


/-- C25, applied to the tick at 06:50 over "A" 06:00-07:00 and "B" 06:30-06:45 with the
cursor at 05:59: the calls are the start of A, the start of B and the end of B, in this
order. -/
theorem transitions_in_processing_order_witness :
    (check_schedules (steady (clock 6 50)) two_zones).map (fun s => s.calls)
      = some [motor_call.on 360 0, motor_call.on 390 1, motor_call.off 405 1]
    ∧ ∃ st' fired, check_schedules (steady (clock 6 50)) two_zones = some st'
      ∧ st'.calls = two_zones.calls ++ fired
      ∧ fired.Pairwise (processed_before two_zones.last_checked_minute)
      ∧ ∀ e ∈ fired, in_scanned_range two_zones.last_checked_minute
            (minute_of_day (clock 6 50)) e.minute
          ∧ e.index < MAX_SCHEDULES ∧ (e.index : Int) < two_zones.schedule_count :=
  ⟨by decide, transitions_in_processing_order (steady (clock 6 50)) two_zones (Or.inr (by decide))⟩

/-! ## The number of iterations of the `while` loop -/

/-- With fewer than `d` iterations allowed, the `while` loop that has `d` minutes to visit
does not reach its exit. -/
theorem minute_loop_none (t : tick_clock) (target : Int) (fuel : Nat) :
    ∀ (d : Nat) (x : Int) (st : State), fuel < d → 0 ≤ x → x < 24 * 60 → d < 24 * 60 →
      target = (x + (d : Int)) % (24 * 60) → minute_loop t target fuel x st = none := by
  induction fuel with
  | zero =>
    intro d x st hf h0 h1 hd ht
    have hne : x ≠ target := by rw [ht]; omega
    unfold minute_loop
    rw [if_neg hne]
  | succ fuel ih =>
    intro d x st hf h0 h1 hd ht
    have hne : x ≠ target := by rw [ht]; omega
    unfold minute_loop
    rw [if_neg hne]
    exact ih (d - 1) ((x + 1) % (24 * 60)) _ (by omega) (by omega) (by omega) (by omega)
      (by rw [ht]; omega)

theorem scanned_minutes_length (x : Int) (d : Nat) : (scanned_minutes x d).length = d := by
  simp [scanned_minutes]

theorem scanned_minutes_getD (x : Int) (d k : Nat) (hk : k < d) :
    (scanned_minutes x d).getD k 0 = (x + (k : Int)) % (24 * 60) := by
  unfold scanned_minutes
  rw [List.getD_eq_getElem?_getD, List.getElem?_map, List.getElem?_range hk]
  rfl

/-- C24.  Let the cursor `c` be a minute of the day and `n` the current minute.  The `while`
loop of `check_schedules` exits after exactly `(n - c) mod 1440` iterations: with fewer
iterations allowed there is no result, with that many the function returns.  The loop body
has then run once for each of the minutes `(c + 1 + k) mod 1440`, `k = 0, 1, ...`, in this
order; these minutes are pairwise different, they are the minutes of the circular range
`c + 1 .. n`, and there are at most 1439 of them.  When `n = c` the state is returned as it
was.  The cursor is `n` afterwards. -/
theorem single_bounded_pass (t : tick_clock) (st : State)
    (hc : 0 ≤ st.last_checked_minute ∧ st.last_checked_minute < 24 * 60) :
    (∀ fuel, fuel < gap st.last_checked_minute (minute_of_day t.timeinfo) →
      check_schedules_fuel fuel t st = none)
    ∧ (gap st.last_checked_minute (minute_of_day t.timeinfo) : Int)
        = (minute_of_day t.timeinfo - st.last_checked_minute) % (24 * 60)
    ∧ gap st.last_checked_minute (minute_of_day t.timeinfo) ≤ 1439
    ∧ (∃ st' visited, check_schedules_fuel (gap st.last_checked_minute (minute_of_day t.timeinfo)) t
        st
            = some st'
        ∧ check_schedules t st = some st'
        ∧ st' = { visited.foldl (minute_step t) st with
                  last_checked_minute := minute_of_day t.timeinfo }
        ∧ st'.last_checked_minute = minute_of_day t.timeinfo
        ∧ visited.length = gap st.last_checked_minute (minute_of_day t.timeinfo)
        ∧ (∀ k : Nat, k < visited.length →
            visited.getD k 0 = (st.last_checked_minute + 1 + (k : Int)) % (24 * 60))
        ∧ visited.Nodup
        ∧ (∀ m, m ∈ visited
            ↔ in_scanned_range st.last_checked_minute (minute_of_day t.timeinfo) m)
        ∧ (minute_of_day t.timeinfo = st.last_checked_minute → visited = [] ∧ st' = st)) := by
  have hg := gap_lt st.last_checked_minute (minute_of_day t.timeinfo)
  have hne : st.last_checked_minute ≠ -1 := by omega
  refine ⟨?_, ?_, by omega, ?_⟩
  · intro fuel hf
    unfold check_schedules_fuel
    simp only [hne, if_false]
    rw [minute_loop_none t _ fuel (gap st.last_checked_minute (minute_of_day t.timeinfo)) _ st hf
      (by omega) (by omega) hg (by unfold gap minute_of_day; omega)]
    rfl
  · unfold gap; omega
  · refine ⟨_, scanned_minutes ((st.last_checked_minute + 1) % (24 * 60))
      (gap st.last_checked_minute (minute_of_day t.timeinfo)), ?_, check_schedules_eq t st hc, rfl,
          rfl,
      scanned_minutes_length _ _, ?_,
      scanned_minutes_nodup _ _ (by omega) (by omega) (le_of_lt hg),
      fun m => mem_scanned_iff_in_range _ _ m, ?_⟩
    · unfold check_schedules_fuel
      simp only [hne, if_false]
      rw [minute_loop_eq_foldl t _ (gap st.last_checked_minute (minute_of_day t.timeinfo)) _ _ st
        (le_refl _) (by omega) (by omega) hg (by unfold gap minute_of_day; omega)]
      rfl
    · intro k hk
      rw [scanned_minutes_length] at hk
      rw [scanned_minutes_getD _ _ _ hk]
      omega
    · intro hn
      have h0 : gap st.last_checked_minute (minute_of_day t.timeinfo) = 0 := by
        unfold gap; rw [hn]; simp
      rw [h0, hn]
      exact ⟨rfl, rfl⟩

/-- C24, applied to the tick at 06:35 with the cursor at 05:59 (36 iterations) and to the
tick at 05:59 with the cursor at 05:59 (none). -/
theorem single_bounded_pass_witness :
    gap (state_at_0559 (zone1 true)).last_checked_minute (minute_of_day (clock 6 35)) = 36
    ∧ check_schedules_fuel 35 (steady (clock 6 35)) (state_at_0559 (zone1 true)) = none
    ∧ (check_schedules_fuel 36 (steady (clock 6 35)) (state_at_0559 (zone1 true))).isSome = true
    ∧ gap (state_at_0559 (zone1 true)).last_checked_minute (minute_of_day (clock 5 59)) = 0 :=
  ⟨by decide,
   (single_bounded_pass (steady (clock 6 35)) (state_at_0559 (zone1 true)) (by decide)).1 35 (by
       decide),
   by decide, by decide⟩


/-! ## What a tick does to the schedule table -/

/-- A schedule followed through the minutes `ms` is left as it is, or it was enabled and
not repeating, had its end boundary at one of the minutes, and is now disabled. -/
theorem run_schedule_cases (ms : List Int) (s : schedule_t) :
    run_schedule ms s = s
    ∨ (s.enabled = true ∧ s.repeat_daily = false ∧ (∃ e, e ∈ ms ∧ ends_at s e)
        ∧ run_schedule ms s = { s with enabled := false }) := by
  induction ms with
  | nil => left; rfl
  | cons m ms ih =>
    rw [run_schedule_cons]
    by_cases hcond : s.enabled = true ∧ ends_at s m ∧ s.repeat_daily = false
    · right
      have hstep : step_schedule m s = { s with enabled := false } := by
        unfold step_schedule; rw [if_pos hcond]
      rw [hstep, (run_disabled 0 ms _ rfl).2]
      exact ⟨hcond.1, hcond.2.2, ⟨m, List.mem_cons_self _ _, hcond.2.1⟩, rfl⟩
    · have hstep : step_schedule m s = s := by
        unfold step_schedule; rw [if_neg hcond]
      rw [hstep]
      rcases ih with h | ⟨h1, h2, ⟨e, he1, he2⟩, h4⟩
      · left; exact h
      · right; exact ⟨h1, h2, ⟨e, List.mem_cons_of_mem _ he1, he2⟩, h4⟩

theorem scan_schedules_length (cnt : Int) (ms : List Int) (l : List schedule_t) :
    (scan_schedules cnt ms l).length = l.length := by
  induction ms generalizing l with
  | nil => rfl
  | cons m ms ih =>
    have h := ih (loop_schedules m cnt MAX_SCHEDULES 0 l)
    simp only [scan_schedules, List.foldl_cons] at h ⊢
    rw [h, loop_schedules_length]

/-- Entry `j` of the table after the scan of the minutes `ms`. -/
theorem scan_schedules_cases (cnt : Int) (ms : List Int) (l : List schedule_t) (j : Nat) :
    (scan_schedules cnt ms l).getD j default = l.getD j default
    ∨ ((l.getD j default).enabled = true ∧ (l.getD j default).repeat_daily = false
        ∧ j < MAX_SCHEDULES ∧ (j : Int) < cnt
        ∧ (∃ e, e ∈ ms ∧ ends_at (l.getD j default) e)
        ∧ (scan_schedules cnt ms l).getD j default
            = { (l.getD j default) with enabled := false }) := by
  rw [scan_schedules_getD]
  by_cases hj : j < MAX_SCHEDULES ∧ (j : Int) < cnt
  · rw [if_pos hj]
    rcases run_schedule_cases ms (l.getD j default) with h | ⟨h1, h2, h3, h4⟩
    · left; exact h
    · right; exact ⟨h1, h2, hj.1, hj.2, h3, h4⟩
  · rw [if_neg hj]
    left; rfl

/-- C29.  A tick leaves `schedule_count` and the length of the table as they are, and every
entry of the table either unchanged or changed in `enabled` alone, from true to false; the
latter only for an entry below `schedule_count` with `repeat_daily = false` whose end
minute lies in the range scanned by the tick.  Name, start, end and `repeat_daily` of
every entry are unchanged, and an entry with `repeat_daily = true` is unchanged. -/
theorem tick_frame_on_table (t : tick_clock) (st : State)
    (hc : st.last_checked_minute = -1
      ∨ (0 ≤ st.last_checked_minute ∧ st.last_checked_minute < 24 * 60)) :
    ∃ st', check_schedules t st = some st'
      ∧ st'.schedule_count = st.schedule_count
      ∧ st'.schedules.length = st.schedules.length
      ∧ ∀ j : Nat,
          (st'.schedules.getD j default = st.schedules.getD j default
            ∨ ((st.schedules.getD j default).enabled = true
                ∧ (st.schedules.getD j default).repeat_daily = false
                ∧ live st j
                ∧ (∃ e, in_scanned_range st.last_checked_minute (minute_of_day t.timeinfo) e
                    ∧ ends_at (st.schedules.getD j default) e)
                ∧ st'.schedules.getD j default
                    = { (st.schedules.getD j default) with enabled := false }))
          ∧ (st'.schedules.getD j default).name = (st.schedules.getD j default).name
          ∧ (st'.schedules.getD j default).start_hour = (st.schedules.getD j default).start_hour
          ∧ (st'.schedules.getD j default).start_minute
              = (st.schedules.getD j default).start_minute
          ∧ (st'.schedules.getD j default).end_hour = (st.schedules.getD j default).end_hour
          ∧ (st'.schedules.getD j default).end_minute = (st.schedules.getD j default).end_minute
          ∧ (st'.schedules.getD j default).repeat_daily
              = (st.schedules.getD j default).repeat_daily
          ∧ ((st.schedules.getD j default).repeat_daily = true →
              st'.schedules.getD j default = st.schedules.getD j default) := by
  suffices hmain : ∃ st', check_schedules t st = some st'
      ∧ st'.schedule_count = st.schedule_count
      ∧ st'.schedules.length = st.schedules.length
      ∧ ∀ j : Nat, st'.schedules.getD j default = st.schedules.getD j default
        ∨ ((st.schedules.getD j default).enabled = true
            ∧ (st.schedules.getD j default).repeat_daily = false
            ∧ live st j
            ∧ (∃ e, in_scanned_range st.last_checked_minute (minute_of_day t.timeinfo) e
                ∧ ends_at (st.schedules.getD j default) e)
            ∧ st'.schedules.getD j default
                = { (st.schedules.getD j default) with enabled := false }) by
    obtain ⟨st', h4, h1, h2, h3⟩ := hmain
    refine ⟨st', h4, h1, h2, fun j => ?_⟩
    rcases h3 j with h | ⟨k1, k2, k3, k4, k5⟩
    · exact ⟨Or.inl h, by rw [h], by rw [h], by rw [h], by rw [h], by rw [h], by rw [h],
        fun _ => h⟩
    · exact ⟨Or.inr ⟨k1, k2, k3, k4, k5⟩, by rw [k5], by rw [k5], by rw [k5], by rw [k5],
        by rw [k5], by rw [k5], fun hr => by rw [k2] at hr; cases hr⟩
  rcases hc with hc | hc
  · exact ⟨_, check_schedules_bootstrap t st hc, rfl, rfl, fun j => Or.inl rfl⟩
  · obtain ⟨f1, _, f3, _⟩ := foldl_minute_step_table t
      (scanned_minutes ((st.last_checked_minute + 1) % (24 * 60))
        (gap st.last_checked_minute (minute_of_day t.timeinfo))) st
    refine ⟨_, check_schedules_eq t st hc, f3, ?_, ?_⟩
    · show (List.foldl (minute_step t) st _).schedules.length = _
      rw [f1, scan_schedules_length]
    intro j
    show (List.foldl (minute_step t) st _).schedules.getD j default = _ ∨ _
    rw [f1]
    rcases scan_schedules_cases st.schedule_count _ st.schedules j with h | ⟨k1, k2, k3, k4, k5, k6⟩
    · left; exact h
    · right
      obtain ⟨e, he1, he2⟩ := k5
      exact ⟨k1, k2, ⟨k3, k4, k1⟩, ⟨e, (mem_scanned_iff_in_range _ _ _).1 he1, he2⟩, k6⟩


/-- C29, applied to the tick at 06:35 over the one-shot "Zone1" with the cursor at 05:59. -/
theorem tick_frame_on_table_witness :
    ∃ st', check_schedules (steady (clock 6 35)) (state_at_0559 (zone1 false)) = some st'
      ∧ st'.schedule_count = 1
      ∧ (st'.schedules.getD 0 default).name = "Zone1"
      ∧ (st'.schedules.getD 0 default).repeat_daily = false := by
  obtain ⟨st', h1, h2, _, h4⟩ :=
    tick_frame_on_table (steady (clock 6 35)) (state_at_0559 (zone1 false)) (Or.inr (by decide))
  exact ⟨st', h1, h2, (h4 0).2.1, (h4 0).2.2.2.2.2.2.1⟩

/-! ## One-shot schedules -/

/-- Of two different members of a list in which every element stands in `R` to the later
ones, the one that does not follow the other comes first. -/
theorem sublist_pair_of_pairwise {α : Type} (R : α → α → Prop) (l : List α)
    (hp : l.Pairwise R) (a b : α) (ha : a ∈ l) (hb : b ∈ l) (hab : a ≠ b) (hR : ¬ R b a) :
    List.Sublist [a, b] l := by
  induction l with
  | nil => cases ha
  | cons x xs ih =>
    rw [List.pairwise_cons] at hp
    rcases List.mem_cons.1 ha with ha1 | ha1
    · subst ha1
      rcases List.mem_cons.1 hb with hb1 | hb1
      · exact absurd hb1.symm hab
      · exact List.Sublist.cons₂ _ (List.singleton_sublist.2 hb1)
    · rcases List.mem_cons.1 hb with hb1 | hb1
      · subst hb1
        exact absurd (hp.1 a ha1) hR
      · exact List.Sublist.cons _ (ih hp.2 ha1 hb1)

/-- C23 (as stated, refuted).  The one-shot schedule "Zone1" 06:00-06:30 is in the table of
a device that boots at 06:10.  The tick at 06:10 sets the cursor; the tick at 06:35 scans
the end minute 06:30 and disables the schedule.  The only motor call of the two ticks is
the `motor_off` of 06:30, and the ledger is still empty: no activation was ever fired. -/
theorem one_shot_disabled_without_activation :
    ((check_schedules (steady (clock 6 10)) (zone1_boot false)).map
        (fun s => (s.schedules.getD 0 default).enabled)) = some true
    ∧ ((check_schedules (steady (clock 6 10)) (zone1_boot false) >>= check_schedules (steady (clock
        6 35))).map
        (fun s => ((s.schedules.getD 0 default).enabled, s.calls,
          s.schedule_history.filter (fun e => e.name = "Zone1"))))
      = some (false, [motor_call.off 390 0], []) := by
  decide

/-- When a tick changes the `enabled` flag of a schedule from true to false, the schedule
has `repeat_daily = false`, its end minute `e` lies in the scanned range and `motor_off`,
with its "OFF" history call, was called for it at `e` exactly once in this tick.  If its
start minute lies in the scanned range and is not scanned after `e`, then `motor_on`,
with its "ON" history call, was called for it exactly once in this tick, before that
`motor_off`. -/
theorem disabling_tick (t : tick_clock) (st : State) (i : Nat)
    (hc : 0 ≤ st.last_checked_minute ∧ st.last_checked_minute < 24 * 60)
    (hen : (st.schedules.getD i default).enabled = true) :
    ∃ st' fired, check_schedules t st = some st' ∧ st'.calls = st.calls ++ fired
      ∧ ((st'.schedules.getD i default).enabled = false →
          (st.schedules.getD i default).repeat_daily = false
          ∧ ∃ e, in_scanned_range st.last_checked_minute (minute_of_day t.timeinfo) e
            ∧ ends_at (st.schedules.getD i default) e
            ∧ fired.count (motor_call.off e i) = 1
            ∧ ∀ m, starts_at (st.schedules.getD i default) m →
                in_scanned_range st.last_checked_minute (minute_of_day t.timeinfo) m →
                scan_position st.last_checked_minute m ≤ scan_position st.last_checked_minute e →
                fired.count (motor_call.on m i) = 1
                ∧ List.Sublist [motor_call.on m i, motor_call.off e i] fired) := by
  have hg := gap_lt st.last_checked_minute (minute_of_day t.timeinfo)
  obtain ⟨st', fired, h1, h2, h3⟩ := check_schedules_counts t st hc
  refine ⟨st', fired, h1, h2, ?_⟩
  intro hdis
  -- the table and the calls of the tick
  have h1' := check_schedules_eq t st hc
  rw [h1] at h1'
  have hst' := Option.some.inj h1'
  obtain ⟨f1, f2, _, _⟩ := foldl_minute_step_table t
    (scanned_minutes ((st.last_checked_minute + 1) % (24 * 60))
      (gap st.last_checked_minute (minute_of_day t.timeinfo))) st
  have htab : st'.schedules = scan_schedules st.schedule_count
      (scanned_minutes ((st.last_checked_minute + 1) % (24 * 60))
        (gap st.last_checked_minute (minute_of_day t.timeinfo))) st.schedules := by
    rw [hst']; exact f1
  have hfired : fired = scan_calls st.schedule_count
      (scanned_minutes ((st.last_checked_minute + 1) % (24 * 60))
        (gap st.last_checked_minute (minute_of_day t.timeinfo))) st.schedules := by
    have : st'.calls = st.calls ++ scan_calls st.schedule_count
        (scanned_minutes ((st.last_checked_minute + 1) % (24 * 60))
          (gap st.last_checked_minute (minute_of_day t.timeinfo))) st.schedules := by
      rw [hst']; exact f2
    rw [h2] at this
    exact List.append_cancel_left this
  have hsorted : fired.Pairwise (processed_before st.last_checked_minute) := by
    rw [hfired]
    exact (scan_calls_pairwise st.last_checked_minute st.schedule_count
      (gap st.last_checked_minute (minute_of_day t.timeinfo)) ((st.last_checked_minute + 1) % (24 *
          60)) 0
      st.schedules (by omega) (by omega) (by simp) (by omega)).1
  rw [htab] at hdis
  rcases scan_schedules_cases st.schedule_count _ st.schedules i with h | ⟨_, k2, k3, k4, k5, _⟩
  · rw [h, hen] at hdis; cases hdis
  · obtain ⟨e, he1, he2⟩ := k5
    have he3 := (mem_scanned_iff_in_range _ _ _).1 he1
    have hlive : live st i := ⟨k3, k4, hen⟩
    have hoff := (h3 i e).1.1 ⟨hlive, he2, he3⟩
    refine ⟨k2, e, he3, he2, hoff, ?_⟩
    intro m hm1 hm2 hm3
    have hnb : ¬ end_scanned_before (st.schedules.getD i default) st.last_checked_minute m := by
      rintro ⟨e', q1, q2, q3, q4, q5⟩
      have := ends_at_unique _ _ _ q1 he2
      subst this
      unfold scan_position at hm3
      unfold in_scanned_range at hm2 he3
      omega
    have hon := (h3 i m).2.1 ⟨hlive, hm1, hm2, Or.inr hnb⟩
    refine ⟨hon, sublist_pair_of_pairwise _ fired hsorted _ _ ?_ ?_ (by simp) ?_⟩
    · exact List.count_pos_iff.1 (by omega)
    · exact List.count_pos_iff.1 (by omega)
    · unfold processed_before
      simp only [motor_call.minute, motor_call.index, motor_call.is_off]
      intro hcon
      rcases hcon with hcon | ⟨_, hcon | hcon⟩
      · omega
      · omega
      · exact absurd hcon.2.1 (by decide)

/-! ## The motor state after a tick -/

theorem motor_after_append (b : Bool) (l1 l2 : List motor_call) :
    motor_after b (l1 ++ l2) = motor_after (motor_after b l1) l2 := by
  unfold motor_after
  rw [List.getLast?_append]
  cases l2.getLast? <;> cases l1.getLast? <;> rfl

theorem start_branch_motor (t : tick_clock) (m : Int) (i : Nat) (s : schedule_t) (st : State) :
    (start_branch t m i s st).motor_state = if starts_at s m then true else st.motor_state := by
  unfold start_branch
  split
  · rw [add_to_history_motor_state]; rfl
  · rfl

theorem end_branch_motor (t : tick_clock) (m : Int) (i : Nat) (s : schedule_t) (st : State) :
    (end_branch t m i s st).motor_state = if ends_at s m then false else st.motor_state := by
  unfold end_branch
  split
  · dsimp only
    split
    · rw [(save_settings_frame _).2.2.2.1]
      exact add_to_history_motor_state _ _ _ _
    · rw [add_to_history_motor_state]; rfl
  · rfl

/-- One pass of the loop body leaves `motor_state` at the value set by its last motor
call. -/
theorem schedule_step_motor (t : tick_clock) (m : Int) (i : Nat) (st : State) :
    (schedule_step t m i st).motor_state
      = motor_after st.motor_state (step_calls m i (st.schedules.getD i default)) := by
  rw [schedule_step_eq]
  generalize st.schedules.getD i default = s
  unfold step_calls
  by_cases he : s.enabled = true
  · rw [if_pos he, if_pos he, end_branch_motor, start_branch_motor]
    by_cases hs : starts_at s m <;> by_cases hn : ends_at s m <;>
      simp [hs, hn, motor_after, motor_call.is_off]
  · rw [if_neg he, if_neg he]
    rfl

theorem schedule_loop_motor (t : tick_clock) (m : Int) (n i : Nat) (st : State) :
    (schedule_loop t m n i st).motor_state
      = motor_after st.motor_state (loop_calls m st.schedule_count st.schedules n i) := by
  induction n generalizing i st with
  | zero => rfl
  | succ n ih =>
    unfold schedule_loop loop_calls
    by_cases hc : (i : Int) < st.schedule_count
    · obtain ⟨h1, _, h3, _⟩ := schedule_step_table t m i st
      rw [if_pos hc, if_pos hc, ih, motor_after_append, schedule_step_motor, h1, h3]
      congr 1
      apply loop_calls_congr
      intro j hj
      exact getD_set_ne _ _ _ _ _ (by omega)
    · rw [if_neg hc, if_neg hc]
      rfl

theorem foldl_minute_step_motor (t : tick_clock) (ms : List Int) (st : State) :
    (ms.foldl (minute_step t) st).motor_state
      = motor_after st.motor_state (scan_calls st.schedule_count ms st.schedules) := by
  induction ms generalizing st with
  | nil => rfl
  | cons m ms ih =>
    obtain ⟨h1, _, h3, _⟩ := schedule_loop_table t m MAX_SCHEDULES 0 st
    rw [List.foldl_cons, ih]
    show _ = motor_after st.motor_state
      (loop_calls m st.schedule_count st.schedules MAX_SCHEDULES 0
        ++ scan_calls st.schedule_count ms
            (loop_schedules m st.schedule_count MAX_SCHEDULES 0 st.schedules))
    unfold minute_step
    rw [motor_after_append, schedule_loop_motor, h1, h3]

/-- Everything a tick with a cursor in the day does to the schedule table, the motor calls
and `motor_state`. -/
theorem check_schedules_scan (t : tick_clock) (st : State)
    (hc : 0 ≤ st.last_checked_minute ∧ st.last_checked_minute < 24 * 60) :
    ∃ st', check_schedules t st = some st'
      ∧ st'.schedules = scan_schedules st.schedule_count
          (scanned_minutes ((st.last_checked_minute + 1) % (24 * 60))
            (gap st.last_checked_minute (minute_of_day t.timeinfo))) st.schedules
      ∧ st'.calls = st.calls ++ scan_calls st.schedule_count
          (scanned_minutes ((st.last_checked_minute + 1) % (24 * 60))
            (gap st.last_checked_minute (minute_of_day t.timeinfo))) st.schedules
      ∧ st'.motor_state = motor_after st.motor_state (scan_calls st.schedule_count
          (scanned_minutes ((st.last_checked_minute + 1) % (24 * 60))
            (gap st.last_checked_minute (minute_of_day t.timeinfo))) st.schedules)
      ∧ st'.schedule_count = st.schedule_count
      ∧ st'.last_checked_minute = minute_of_day t.timeinfo := by
  obtain ⟨f1, f2, f3, _⟩ := foldl_minute_step_table t
    (scanned_minutes ((st.last_checked_minute + 1) % (24 * 60))
      (gap st.last_checked_minute (minute_of_day t.timeinfo))) st
  exact ⟨_, check_schedules_eq t st hc, f1, f2, foldl_minute_step_motor t _ st, f3, rfl⟩

/-- C30.  In a tick with a cursor in the day, no motor call is made exactly when no start or
end boundary of an enabled schedule below `schedule_count` lies in the scanned range, and
`motor_state` is then unchanged; otherwise `motor_state` is true afterwards if and only if
the last call in processing order was a `motor_on`, the start of a schedule. -/
theorem motor_follows_last_boundary (t : tick_clock) (st : State)
    (hc : 0 ≤ st.last_checked_minute ∧ st.last_checked_minute < 24 * 60) :
    ∃ st' fired, check_schedules t st = some st' ∧ st'.calls = st.calls ++ fired
      ∧ (fired = [] ↔
          ¬ ∃ (i : Nat) (m : Int), live st i
            ∧ in_scanned_range st.last_checked_minute (minute_of_day t.timeinfo) m
            ∧ (starts_at (st.schedules.getD i default) m
                ∨ ends_at (st.schedules.getD i default) m))
      ∧ (fired = [] → st'.motor_state = st.motor_state)
      ∧ (∀ e, fired.getLast? = some e → (st'.motor_state = true ↔ e.is_off = false)) := by
  obtain ⟨st', fired, h1, h2, h3⟩ := check_schedules_counts t st hc
  obtain ⟨st2, e1, _, e3, e4, _, _⟩ := check_schedules_scan t st hc
  rw [h1] at e1
  have hst : st2 = st' := (Option.some.inj e1).symm
  subst hst
  have hfired : fired = scan_calls st.schedule_count
      (scanned_minutes ((st.last_checked_minute + 1) % (24 * 60))
        (gap st.last_checked_minute (minute_of_day t.timeinfo))) st.schedules := by
    rw [h2] at e3
    exact List.append_cancel_left e3
  rw [← hfired] at e4
  refine ⟨st2, fired, h1, h2, ?_, ?_, ?_⟩
  · constructor
    · rintro hnil ⟨i, m, hl, hm, hb⟩
      rw [hnil] at h3
      rcases hb with hb | hb
      · by_cases hcond : (st.schedules.getD i default).repeat_daily = true
            ∨ ¬ end_scanned_before (st.schedules.getD i default) st.last_checked_minute m
        · have := (h3 i m).2.1 ⟨hl, hb, hm, hcond⟩
          simp at this
        · have hesb : end_scanned_before (st.schedules.getD i default)
              st.last_checked_minute m := by
            by_contra hcon
            exact hcond (Or.inr hcon)
          obtain ⟨e, q1, q2, q3, q4, q5⟩ := hesb
          have hr : in_scanned_range st.last_checked_minute (minute_of_day t.timeinfo) e := by
            unfold in_scanned_range at hm ⊢
            omega
          have := (h3 i e).1.1 ⟨hl, q1, hr⟩
          simp at this
      · have := (h3 i m).1.1 ⟨hl, hb, hm⟩
        simp at this
    · intro hno
      rw [List.eq_nil_iff_forall_not_mem]
      intro e he
      have hpos : 0 < fired.count e := List.count_pos_iff.2 he
      rcases e with ⟨m, i⟩ | ⟨m, i⟩
      · by_cases hcond : live st i ∧ starts_at (st.schedules.getD i default) m
            ∧ in_scanned_range st.last_checked_minute (minute_of_day t.timeinfo) m
            ∧ ((st.schedules.getD i default).repeat_daily = true
              ∨ ¬ end_scanned_before (st.schedules.getD i default) st.last_checked_minute m)
        · exact hno ⟨i, m, hcond.1, hcond.2.2.1, Or.inl hcond.2.1⟩
        · have := (h3 i m).2.2 hcond
          omega
      · by_cases hcond : live st i ∧ ends_at (st.schedules.getD i default) m
            ∧ in_scanned_range st.last_checked_minute (minute_of_day t.timeinfo) m
        · exact hno ⟨i, m, hcond.1, hcond.2.2, Or.inr hcond.2.1⟩
        · have := (h3 i m).1.2 hcond
          omega
  · intro hnil
    rw [e4, hnil]
    rfl
  · intro e he
    rw [e4]
    unfold motor_after
    rw [he]
    show (!e.is_off) = true ↔ e.is_off = false
    cases e.is_off <;> decide

/-- C30, applied to the tick at 06:50 over "A" 06:00-07:00 and "B" 06:30-06:45 with the
cursor at 05:59: the last call is the `motor_off` of B at 06:45, the motor is off
afterwards, and the record of A in the ledger is still active. -/
theorem motor_follows_last_boundary_witness :
    (check_schedules (steady (clock 6 50)) two_zones).map
        (fun s => (s.calls.getLast?, s.motor_state,
          s.schedule_history.filter (fun e => e.active)))
      = some (some (motor_call.off 405 1), false,
          [{ name := "A", start_time := "2025-07-08 06:50", end_time := "", active := true }])
    ∧ ∃ st' fired, check_schedules (steady (clock 6 50)) two_zones = some st'
      ∧ st'.calls = two_zones.calls ++ fired
      ∧ (∀ e, fired.getLast? = some e → (st'.motor_state = true ↔ e.is_off = false)) := by
  obtain ⟨st', fired, h1, h2, _, _, h5⟩ :=
    motor_follows_last_boundary (steady (clock 6 50)) two_zones (by decide)
  exact ⟨by decide, st', fired, h1, h2, h5⟩


/-! ## The ledger invariant -/

theorem slot_free_of_packed (calls : List (tm × String × String))
    (h : List schedule_history_t) (c : Int) (k : Nat → Nat) (hinv : ledger_packed calls h c k)
    (i : Nat) (hi : i < MAX_HISTORY) : slot_free h i = !populated h i := by
  obtain ⟨_, _, _, _, h5, _⟩ := hinv
  have := h5 i hi
  unfold slot_free
  unfold populated at this ⊢
  generalize (h.getD i default).active = a at this ⊢
  generalize is_empty_str (h.getD i default).start_time = e at this ⊢
  cases a <;> cases e <;> simp at this ⊢

theorem first_free_of_packed (calls : List (tm × String × String))
    (h : List schedule_history_t) (c : Int) (k : Nat → Nat) (hinv : ledger_packed calls h c k) :
    (c < MAX_HISTORY → for_break (slot_free h) MAX_HISTORY 0 = some c.toNat)
    ∧ (¬ c < MAX_HISTORY → for_break (slot_free h) MAX_HISTORY 0 = none) := by
  have hfree := slot_free_of_packed calls h c k hinv
  obtain ⟨_, h2, h3, h4, _⟩ := hinv
  unfold MAX_HISTORY at h3
  constructor
  · intro hc
    rw [for_break_eq_some]
    unfold MAX_HISTORY at hc ⊢
    have hlt : c.toNat < 30 := by omega
    refine ⟨by omega, by omega, ?_, ?_⟩
    · rw [hfree _ hlt]
      have := (h4 c.toNat hlt).not
      simp only [Bool.not_eq_true] at this
      rw [this.2 (by omega)]
      rfl
    · intro j _ hj
      rw [hfree _ (by unfold MAX_HISTORY; omega)]
      rw [(h4 j (by unfold MAX_HISTORY; omega)).2 (by omega)]
      rfl
  · intro hc
    rw [for_break_eq_none]
    intro j _ hj
    rw [hfree _ (by omega), (h4 j (by omega)).2 (by unfold MAX_HISTORY at hc hj; omega)]
    rfl


/-- The `"ON"` branch on a ledger without a free slot: the ledger is shifted, and the new
record is written to the last slot unless the name is active after the shift. -/
theorem history_on_full_cases (ts name : String) (st : State)
    (hfull : for_break (slot_free st.schedule_history) MAX_HISTORY 0 = none) :
    (for_break (slot_active_named (shift_history st.schedule_history (MAX_HISTORY - 1) 0) name)
          MAX_HISTORY 0 = none →
        (history_on ts name st).schedule_history
            = (shift_history st.schedule_history (MAX_HISTORY - 1) 0).set (MAX_HISTORY - 1)
                (new_record name ts)
        ∧ (history_on ts name st).history_count
            = if st.history_count < MAX_HISTORY then st.history_count + 1 else st.history_count)
    ∧ (for_break (slot_active_named (shift_history st.schedule_history (MAX_HISTORY - 1) 0) name)
          MAX_HISTORY 0 ≠ none →
        (history_on ts name st).schedule_history
            = shift_history st.schedule_history (MAX_HISTORY - 1) 0
        ∧ (history_on ts name st).history_count = st.history_count) := by
  unfold history_on
  dsimp only
  rw [hfull]
  dsimp only
  generalize shift_history st.schedule_history (MAX_HISTORY - 1) 0 = sh
  cases for_break (slot_active_named sh name) MAX_HISTORY 0 with
  | none =>
    constructor
    · intro _; exact ⟨rfl, rfl⟩
    · intro h; exact absurd rfl h
  | some j =>
    constructor
    · intro h; cases h
    · intro _; exact ⟨rfl, rfl⟩

theorem populated_set_self (h : List schedule_history_t) (i : Nat) (x : schedule_history_t)
    (hi : i < h.length) : populated (h.set i x) i = !is_empty_str x.start_time := by
  unfold populated
  rw [getD_set_self _ _ _ _ hi]

theorem populated_set_ne (h : List schedule_history_t) (i j : Nat) (x : schedule_history_t)
    (hij : i ≠ j) : populated (h.set i x) j = populated h j := by
  unfold populated
  rw [getD_set_ne _ _ _ _ _ hij]

theorem new_record_populated (name : String) (t : tm) :
    is_empty_str (new_record name (strftime_ymdhm t)).start_time = false :=
  strftime_not_empty t

theorem getElem?_append_old {α : Type} (l : List α) (a : α) (i : Nat) (x : α)
    (h : l[i]? = some x) : (l ++ [a])[i]? = some x := by
  have hi : i < l.length := by
    by_contra hcon
    rw [List.getElem?_eq_none (by omega)] at h
    cases h
  rw [List.getElem?_append_left hi, h]

theorem getElem?_append_new {α : Type} (l : List α) (a : α) :
    (l ++ [a])[l.length]? = some a := by
  simp

/-- The ledger invariant is kept by an `"ON"` call. -/
theorem history_on_packed (calls : List (tm × String × String)) (t : tm) (name : String)
    (st : State) (k : Nat → Nat)
    (hinv : ledger_packed calls st.schedule_history st.history_count k) :
    ∃ k', ledger_packed (calls ++ [(t, name, "ON")])
      (history_on (strftime_ymdhm t) name st).schedule_history
      (history_on (strftime_ymdhm t) name st).history_count k' := by
  obtain ⟨hfree1, hfree2⟩ := first_free_of_packed calls _ _ k hinv
  obtain ⟨h1, h2, h3, h4, h5, h6, h7⟩ := hinv
  have hold : ∀ j : Nat, (j : Int) < st.history_count →
      ∃ c, (calls ++ [(t, name, "ON")])[k j]? = some c ∧ c.2.2 = "ON"
        ∧ (st.schedule_history.getD j default).name = strncpy c.2.1 (MAX_NAME_LEN - 1)
        ∧ (st.schedule_history.getD j default).start_time = strftime_ymdhm c.1 := by
    intro j hj
    obtain ⟨c, q1, q2, q3, q4⟩ := h6 j hj
    exact ⟨c, getElem?_append_old _ _ _ _ q1, q2, q3, q4⟩
  have hklt : ∀ j : Nat, (j : Int) < st.history_count → k j < calls.length := by
    intro j hj
    obtain ⟨c, q1, _⟩ := h6 j hj
    by_contra hcon
    rw [List.getElem?_eq_none (by omega)] at q1
    cases q1
  have hnew : ∃ c, (calls ++ [(t, name, "ON")])[calls.length]? = some c ∧ c.2.2 = "ON"
      ∧ (new_record name (strftime_ymdhm t)).name = strncpy c.2.1 (MAX_NAME_LEN - 1)
      ∧ (new_record name (strftime_ymdhm t)).start_time = strftime_ymdhm c.1 :=
    ⟨_, getElem?_append_new _ _, rfl, rfl, strncpy_strftime t⟩
  by_cases hc : st.history_count < MAX_HISTORY
  · -- a free slot: the slot `history_count`
    have hf := hfree1 hc
    have hjlt : st.history_count.toNat < MAX_HISTORY := by unfold MAX_HISTORY at hc ⊢; omega
    by_cases hact : ∃ i, i < MAX_HISTORY ∧ slot_active_named st.schedule_history name i = true
    · obtain ⟨i, hi, hai⟩ := hact
      rw [history_on_duplicate _ name st _ i hf hi hai]
      exact ⟨k, h1, h2, h3, h4, h5, hold, h7⟩
    · have hname : ∀ i, i < MAX_HISTORY → slot_active_named st.schedule_history name i = false := by
        intro i hi
        by_contra hcon
        exact hact ⟨i, hi, by simpa using hcon⟩
      obtain ⟨e1, e2⟩ := history_on_free (strftime_ymdhm t) name st _ hf hname
      rw [e1, e2, if_pos hc]
      refine ⟨fun x => if x = st.history_count.toNat then calls.length else k x,
        by rw [List.length_set]; exact h1, by omega, by unfold MAX_HISTORY at hc ⊢; omega,
        ?_, ?_, ?_, ?_⟩
      · intro i hi
        by_cases hij : i = st.history_count.toNat
        · rw [hij, populated_set_self _ _ _ (by rw [h1]; exact hjlt), new_record_populated]
          simp only [Bool.not_false, true_iff]
          omega
        · rw [populated_set_ne _ _ _ _ (Ne.symm hij), h4 i hi]
          omega
      · intro i hi
        by_cases hij : i = st.history_count.toNat
        · intro _
          rw [hij, populated_set_self _ _ _ (by rw [h1]; exact hjlt), new_record_populated]
          rfl
        · rw [populated_set_ne _ _ _ _ (Ne.symm hij), getD_set_ne _ _ _ _ _ (Ne.symm hij)]
          exact h5 i hi
      · intro j hj
        beta_reduce
        by_cases hij : j = st.history_count.toNat
        · rw [if_pos hij, hij, getD_set_self _ _ _ _ (by rw [h1]; exact hjlt)]
          exact hnew
        · rw [if_neg hij, getD_set_ne _ _ _ _ _ (Ne.symm hij)]
          exact hold j (by omega)
      · intro i j hij hj
        beta_reduce
        by_cases hj2 : j = st.history_count.toNat
        · rw [if_pos hj2]
          by_cases hi2 : i = st.history_count.toNat
          · rw [if_pos hi2]
          · rw [if_neg hi2]
            exact le_of_lt (hklt i (by omega))
        · rw [if_neg hj2, if_neg (by omega)]
          exact h7 i j hij (by omega)
  · -- no free slot: the ledger is shifted
    have hc30 : st.history_count = 30 := by unfold MAX_HISTORY at hc h3; omega
    obtain ⟨c1, c2⟩ := history_on_full_cases (strftime_ymdhm t) name st (hfree2 hc)
    have hsh : ∀ j, (shift_history st.schedule_history (MAX_HISTORY - 1) 0).getD j default
        = if j < 29 then st.schedule_history.getD (j + 1) default
          else st.schedule_history.getD j default := by
      intro j
      rw [shift_history_getD]
      unfold MAX_HISTORY
      by_cases hj : j < 29
      · rw [if_pos (by omega), if_pos hj]
      · rw [if_neg (by omega), if_neg hj]
    have hshlen : (shift_history st.schedule_history (MAX_HISTORY - 1) 0).length = MAX_HISTORY := by
      rw [shift_history_length, h1]
    have hshpop : ∀ i, i < MAX_HISTORY →
        populated (shift_history st.schedule_history (MAX_HISTORY - 1) 0) i = true := by
      intro i hi
      unfold populated
      rw [hsh]
      unfold MAX_HISTORY at hi
      split
      · exact (h4 (i + 1) (by unfold MAX_HISTORY; omega)).2 (by omega)
      · exact (h4 i (by unfold MAX_HISTORY; omega)).2 (by omega)
    generalize hshdef : shift_history st.schedule_history (MAX_HISTORY - 1) 0 = sh
      at c1 c2 hsh hshlen hshpop
    by_cases hact : for_break (slot_active_named sh name) MAX_HISTORY 0 = none
    · obtain ⟨e1, e2⟩ := c1 hact
      rw [e1, e2, if_neg hc]
      have h29 : MAX_HISTORY - 1 = 29 := rfl
      rw [h29]
      refine ⟨fun x => if x < 29 then k (x + 1) else calls.length,
        by rw [List.length_set]; exact hshlen, h2, h3, ?_, ?_, ?_, ?_⟩
      · intro i hi
        by_cases hij : i = 29
        · rw [hij, populated_set_self _ _ _ (by rw [hshlen]; decide), new_record_populated]
          simp only [Bool.not_false, true_iff]
          omega
        · rw [populated_set_ne _ _ _ _ (Ne.symm hij), hshpop i hi]
          unfold MAX_HISTORY at hi
          simp only [true_iff]
          omega
      · intro i hi _
        by_cases hij : i = 29
        · rw [hij, populated_set_self _ _ _ (by rw [hshlen]; decide), new_record_populated]
          rfl
        · rw [populated_set_ne _ _ _ _ (Ne.symm hij)]
          exact hshpop i hi
      · intro j hj
        beta_reduce
        by_cases hij : j < 29
        · rw [if_pos hij, getD_set_ne _ _ _ _ _ (by omega), hsh, if_pos hij]
          exact hold (j + 1) (by omega)
        · have hj29 : j = 29 := by omega
          rw [if_neg hij, hj29, getD_set_self _ _ _ _ (by rw [hshlen]; decide)]
          exact hnew
      · intro i j hij hj
        beta_reduce
        by_cases hj2 : j < 29
        · rw [if_pos hj2, if_pos (by omega)]
          exact h7 _ _ (by omega) (by omega)
        · rw [if_neg hj2]
          by_cases hi2 : i < 29
          · rw [if_pos hi2]
            exact le_of_lt (hklt _ (by omega))
          · rw [if_neg hi2]
    · obtain ⟨e1, e2⟩ := c2 hact
      rw [e1, e2]
      refine ⟨fun x => if x < 29 then k (x + 1) else k 29, hshlen, h2, h3, ?_, ?_, ?_, ?_⟩
      · intro i hi
        rw [hshpop i hi]
        unfold MAX_HISTORY at hi
        simp only [true_iff]
        omega
      · intro i hi _
        exact hshpop i hi
      · intro j hj
        beta_reduce
        rw [hsh]
        by_cases hij : j < 29
        · rw [if_pos hij, if_pos hij]
          exact hold (j + 1) (by omega)
        · have hj29 : j = 29 := by omega
          rw [if_neg hij, if_neg hij, hj29]
          exact hold 29 (by omega)
      · intro i j hij hj
        beta_reduce
        by_cases hj2 : j < 29
        · rw [if_pos hj2, if_pos (by omega)]
          exact h7 _ _ (by omega) (by omega)
        · rw [if_neg hj2]
          by_cases hi2 : i < 29
          · rw [if_pos hi2]
            exact h7 _ _ (by omega) (by omega)
          · rw [if_neg hi2]


theorem ledger_packed_more_calls (calls : List (tm × String × String))
    (a : tm × String × String) (h : List schedule_history_t) (c : Int) (k : Nat → Nat)
    (hinv : ledger_packed calls h c k) : ledger_packed (calls ++ [a]) h c k := by
  obtain ⟨h1, h2, h3, h4, h5, h6, h7⟩ := hinv
  refine ⟨h1, h2, h3, h4, h5, ?_, h7⟩
  intro j hj
  obtain ⟨x, q1, q2, q3, q4⟩ := h6 j hj
  exact ⟨x, getElem?_append_old _ _ _ _ q1, q2, q3, q4⟩

/-- The ledger invariant is kept by an `"OFF"` call. -/
theorem history_off_packed (calls : List (tm × String × String)) (ts name : String)
    (st : State) (k : Nat → Nat)
    (hinv : ledger_packed calls st.schedule_history st.history_count k) :
    ledger_packed calls (history_off ts name st).schedule_history
      (history_off ts name st).history_count k := by
  cases hf : for_break (slot_active_named st.schedule_history name) MAX_HISTORY 0 with
  | none => rw [history_off_not_found ts name st hf]; exact hinv
  | some i =>
    obtain ⟨e1, e2⟩ := history_off_found ts name st i hf
    obtain ⟨h1, h2, h3, h4, h5, h6, h7⟩ := hinv
    have hpop : ∀ j, populated (st.schedule_history.set i
        { (st.schedule_history.getD i default) with
          end_time := strncpy ts 19, active := false }) j = populated st.schedule_history j := by
      intro j
      by_cases hij : j = i
      · subst hij
        by_cases hl : j < st.schedule_history.length
        · rw [populated_set_self _ _ _ hl]; rfl
        · unfold populated
          rw [getD_of_length_le _ _ _ (by rw [List.length_set]; omega),
            getD_of_length_le _ _ _ (by omega)]
      · exact populated_set_ne _ _ _ _ (Ne.symm hij)
    rw [e1, e2]
    refine ⟨by rw [List.length_set]; exact h1, h2, h3, ?_, ?_, ?_, h7⟩
    · intro j hj
      rw [hpop]
      exact h4 j hj
    · intro j hj
      rw [hpop]
      by_cases hij : j = i
      · subst hij
        rw [getD_set_self _ _ _ _ (by rw [h1]; exact hj)]
        intro hcon
        cases hcon
      · rw [getD_set_ne _ _ _ _ _ (Ne.symm hij)]
        exact h5 j hj
    · intro j hj
      obtain ⟨x, q1, q2, q3, q4⟩ := h6 j hj
      refine ⟨x, q1, q2, ?_, ?_⟩
      · by_cases hij : j = i
        · subst hij
          rw [getD_set_self _ _ _ _ (by rw [h1]; unfold MAX_HISTORY at h3 ⊢; omega)]
          exact q3
        · rw [getD_set_ne _ _ _ _ _ (Ne.symm hij)]
          exact q3
      · by_cases hij : j = i
        · subst hij
          rw [getD_set_self _ _ _ _ (by rw [h1]; unfold MAX_HISTORY at h3 ⊢; omega)]
          exact q4
        · rw [getD_set_ne _ _ _ _ _ (Ne.symm hij)]
          exact q4

/-- The ledger invariant is kept by every call of `add_to_history`. -/
theorem add_to_history_packed (calls : List (tm × String × String)) (t : tm)
    (name action : String) (st : State) (k : Nat → Nat)
    (hinv : ledger_packed calls st.schedule_history st.history_count k) :
    ∃ k', ledger_packed (calls ++ [(t, name, action)])
      (add_to_history t name action st).schedule_history
      (add_to_history t name action st).history_count k' := by
  by_cases hon : action = "ON"
  · subst hon
    rw [(add_to_history_on t name st).1, (add_to_history_on t name st).2]
    exact history_on_packed calls t name st k hinv
  · by_cases hoff : action = "OFF"
    · subst hoff
      rw [(add_to_history_off t name st).1, (add_to_history_off t name st).2]
      exact ⟨k, ledger_packed_more_calls _ _ _ _ _
        (history_off_packed calls _ name st k hinv)⟩
    · have e : add_to_history t name action st = save_history_to_flash st := by
        unfold add_to_history
        dsimp only
        rw [if_neg hon, if_neg hoff]
      rw [e]
      exact ⟨k, ledger_packed_more_calls _ _ _ _ _ hinv⟩

theorem history_run_append (calls : List (tm × String × String)) (a : tm × String × String)
    (st : State) :
    history_run (calls ++ [a]) st = add_to_history a.1 a.2.1 a.2.2 (history_run calls st) := by
  unfold history_run
  rw [List.foldl_append]
  rfl

theorem history_run_packed (st0 : State) (calls : List (tm × String × String))
    (h0 : st0.schedule_history = List.replicate MAX_HISTORY default)
    (hc0 : st0.history_count = 0) :
    ∃ k, ledger_packed calls (history_run calls st0).schedule_history
      (history_run calls st0).history_count k := by
  induction calls using List.reverseRecOn with
  | nil =>
    refine ⟨fun _ => 0, ?_⟩
    show ledger_packed [] st0.schedule_history st0.history_count _
    rw [h0, hc0]
    refine ⟨by simp, le_refl _, by decide, ?_, ?_, ?_, ?_⟩
    · intro i hi
      have : populated (List.replicate MAX_HISTORY (default : schedule_history_t)) i = false := by
        unfold populated
        rw [List.getD_eq_getElem?_getD, List.getElem?_replicate, if_pos hi]
        rfl
      rw [this]
      simp
    · intro i hi hact
      rw [List.getD_eq_getElem?_getD, List.getElem?_replicate, if_pos hi] at hact
      cases hact
    · intro j hj
      omega
    · intro i j _ hj
      omega
  | append_singleton calls a ih =>
    obtain ⟨k, hk⟩ := ih
    rw [history_run_append]
    exact add_to_history_packed calls a.1 a.2.1 a.2.2 _ k hk

theorem range_countP_lt : ∀ c, c ≤ 30 →
    (List.range 30).countP (fun i => decide (i < c)) = c := by
  decide

/-- C27.  Start from a ledger whose slots are all zero, with `history_count = 0`.  After
every sequence of `add_to_history` calls: the ledger has its 30 slots and
`0 ≤ history_count ≤ 30`; the slots with a non-empty `start_time` are those at the indices
below `history_count`, so `history_count` is their number; and each of these slots `j` holds
the name and start time written by one `"ON"` call of the sequence, number `k j`, with
`k 0 ≤ k 1 ≤ ...`: the record in slot 0 is from the earliest call among those whose
record is still in the ledger. -/
theorem ledger_stays_packed (st0 : State) (calls : List (tm × String × String))
    (h0 : st0.schedule_history = List.replicate MAX_HISTORY default)
    (hc0 : st0.history_count = 0) :
    (history_run calls st0).schedule_history.length = MAX_HISTORY
    ∧ 0 ≤ (history_run calls st0).history_count
    ∧ (history_run calls st0).history_count ≤ MAX_HISTORY
    ∧ (∀ i, i < MAX_HISTORY →
        (populated (history_run calls st0).schedule_history i = true
          ↔ (i : Int) < (history_run calls st0).history_count))
    ∧ (((List.range MAX_HISTORY).countP
          (populated (history_run calls st0).schedule_history) : Nat) : Int)
        = (history_run calls st0).history_count
    ∧ ∃ k : Nat → Nat,
        (∀ j : Nat, (j : Int) < (history_run calls st0).history_count →
          ∃ c, calls[k j]? = some c ∧ c.2.2 = "ON"
            ∧ ((history_run calls st0).schedule_history.getD j default).name
                = strncpy c.2.1 (MAX_NAME_LEN - 1)
            ∧ ((history_run calls st0).schedule_history.getD j default).start_time
                = strftime_ymdhm c.1)
        ∧ (∀ i j : Nat, i ≤ j → (j : Int) < (history_run calls st0).history_count →
            k i ≤ k j) := by
  obtain ⟨k, h1, h2, h3, h4, _, h6, h7⟩ := history_run_packed st0 calls h0 hc0
  refine ⟨h1, h2, h3, h4, ?_, k, h6, h7⟩
  generalize (history_run calls st0).schedule_history = h at h4
  generalize (history_run calls st0).history_count = c at h2 h3 h4
  unfold MAX_HISTORY at h3 h4 ⊢
  have hcongr : (List.range 30).countP (populated h)
      = (List.range 30).countP (fun i => decide (i < c.toNat)) := by
    apply List.countP_congr
    intro i hi
    rw [List.mem_range] at hi
    rw [h4 i hi]
    simp only [decide_eq_true_eq]
    omega
  rw [hcongr, range_countP_lt _ (by omega)]
  omega

/-- C27, applied to the ledger left by 29 runs of "Zone1" and a manual start: it is full,
all its 30 slots are populated, and slot 0 holds the record of the first call. -/
theorem ledger_stays_packed_witness :
    full_ledger_state.history_count = 30
    ∧ (List.range MAX_HISTORY).countP (populated full_ledger_state.schedule_history) = 30
    ∧ (full_ledger_state.schedule_history.getD 0 default).start_time = "2025-07-01 06:00"
    ∧ (history_run (daily_pairs (fun _ => "Zone1") 29
          ++ [(clock_on_day 30 9 0, "Manual Control", "ON")]) empty_state).history_count
        ≤ MAX_HISTORY :=
  ⟨by decide, by decide, by decide,
   (ledger_stays_packed empty_state
      (daily_pairs (fun _ => "Zone1") 29 ++ [(clock_on_day 30 9 0, "Manual Control", "ON")])
      rfl rfl).2.2.1⟩


/-! ## Start and end on the same minute -/

theorem schedule_loop_done (t : tick_clock) (m : Int) (n i : Nat) (st : State)
    (h : ¬ (i : Int) < st.schedule_count) : schedule_loop t m n i st = st := by
  cases n with
  | zero => rfl
  | succ n => unfold schedule_loop; rw [if_neg h]

theorem schedule_loop_one (t : tick_clock) (m : Int) (i : Nat) (st : State)
    (h : (i : Int) < st.schedule_count) : schedule_loop t m 1 i st = schedule_step t m i st := by
  rw [schedule_loop, if_pos h]
  rfl

/-- The `for` loop run in two parts. -/
theorem schedule_loop_split (t : tick_clock) (m : Int) (a b : Nat) : ∀ (i0 : Nat) (st : State),
    schedule_loop t m (a + b) i0 st
      = schedule_loop t m b (i0 + a) (schedule_loop t m a i0 st) := by
  induction a with
  | zero => intro i0 st; simp [schedule_loop]
  | succ a ih =>
    intro i0 st
    have e : a + 1 + b = (a + b) + 1 := by omega
    rw [e]
    by_cases hc : (i0 : Int) < st.schedule_count
    · have l1 : schedule_loop t m (a + b + 1) i0 st
          = schedule_loop t m (a + b) (i0 + 1) (schedule_step t m i0 st) := by
        rw [schedule_loop, if_pos hc]
      have l2 : schedule_loop t m (a + 1) i0 st
          = schedule_loop t m a (i0 + 1) (schedule_step t m i0 st) := by
        rw [schedule_loop, if_pos hc]
      rw [l1, l2, ih]
      have e2 : i0 + 1 + a = i0 + (a + 1) := by omega
      rw [e2]
    · rw [schedule_loop_done t m _ i0 st hc, schedule_loop_done t m _ i0 st hc,
        schedule_loop_done t m _ _ st (by omega)]

/-- The scan of a tick, cut at a scanned minute `M`. -/
theorem scanned_minutes_cut (c n M : Int) (hM : in_scanned_range c n M) :
    scanned_minutes ((c + 1) % (24 * 60)) (gap c n)
      = scanned_minutes ((c + 1) % (24 * 60)) (scan_position c M).toNat
        ++ M :: scanned_minutes ((M + 1) % (24 * 60))
            (gap c n - (scan_position c M).toNat - 1) := by
  unfold in_scanned_range at hM
  have hg := gap_lt c n
  have hk : (scan_position c M).toNat + (1 + (gap c n - (scan_position c M).toNat - 1))
      = gap c n := by
    unfold scan_position gap at *
    omega
  have hx : (((c + 1) % (24 * 60)) + (((scan_position c M).toNat : Nat) : Int)) % (24 * 60)
      = M := by
    unfold scan_position
    omega
  conv_lhs => rw [← hk]
  rw [scanned_minutes_append, hx, Nat.add_comm 1, scanned_minutes_succ M _ ⟨hM.1, hM.2.1⟩]

theorem not_mem_scanned_before (c M : Int) :
    M ∉ scanned_minutes ((c + 1) % (24 * 60)) (scan_position c M).toNat := by
  rw [mem_scanned_minutes]
  rintro ⟨k, hk1, hk2⟩
  unfold scan_position at hk1
  omega

/-- The schedule at index `i` is still the one of the tick's start when the loop body is
entered for it at its end minute. -/
theorem body_entry_schedule (t : tick_clock) (st : State) (M : Int) (i : Nat)
    (he : ends_at (st.schedules.getD i default) M) :
    (body_entry t st M i).schedules.getD i default = st.schedules.getD i default
    ∧ (body_entry t st M i).schedule_count = st.schedule_count := by
  unfold body_entry
  obtain ⟨f1, _, f3, _⟩ := foldl_minute_step_table t
    (scanned_minutes ((st.last_checked_minute + 1) % (24 * 60))
      (scan_position st.last_checked_minute M).toNat) st
  obtain ⟨g1, _, g3, _⟩ := schedule_loop_table t M i 0
    ((scanned_minutes ((st.last_checked_minute + 1) % (24 * 60))
      (scan_position st.last_checked_minute M).toNat).foldl (minute_step t) st)
  rw [g1, g3, f3, loop_schedules_getD, if_neg (by omega), f1]
  refine ⟨?_, rfl⟩
  rcases scan_schedules_cases st.schedule_count
      (scanned_minutes ((st.last_checked_minute + 1) % (24 * 60))
        (scan_position st.last_checked_minute M).toNat) st.schedules i
    with h | ⟨_, _, _, _, ⟨e, he1, he2⟩, _⟩
  · exact h
  · have := ends_at_unique _ _ _ he2 he
    subst this
    exact absurd he1 (not_mem_scanned_before _ _)

/-- A tick is the scan up to the loop body for `(M, i)`, this pass of the body, the rest of
the table at minute `M` and the rest of the scan. -/
theorem check_schedules_cut (t : tick_clock) (st : State) (M : Int) (i : Nat)
    (hc : 0 ≤ st.last_checked_minute ∧ st.last_checked_minute < 24 * 60)
    (hM : in_scanned_range st.last_checked_minute (minute_of_day t.timeinfo) M)
    (hi : i < MAX_SCHEDULES) (hcount : (i : Int) < st.schedule_count) :
    check_schedules t st
      = some { (scanned_minutes ((M + 1) % (24 * 60))
                  (gap st.last_checked_minute (minute_of_day t.timeinfo)
                    - (scan_position st.last_checked_minute M).toNat - 1)).foldl (minute_step t)
                (schedule_loop t M (MAX_SCHEDULES - (i + 1)) (i + 1)
                  (schedule_step t M i (body_entry t st M i))) with
               last_checked_minute := minute_of_day t.timeinfo } := by
  rw [check_schedules_eq t st hc, scanned_minutes_cut _ _ M hM, List.foldl_append,
    List.foldl_cons]
  have hsplit : ∀ s0 : State, minute_step t s0 M
      = schedule_loop t M (MAX_SCHEDULES - (i + 1)) (0 + (i + 1)) (schedule_loop t M (i + 1) 0 s0)
          := by
    intro s0
    unfold minute_step
    rw [← schedule_loop_split]
    congr 1
    omega
  have hstep : ∀ s0 : State, (i : Int) < s0.schedule_count →
      schedule_loop t M (i + 1) 0 s0 = schedule_step t M i (schedule_loop t M i 0 s0) := by
    intro s0 h0
    have hcnt := (schedule_loop_table t M i 0 s0).2.2.1
    rw [schedule_loop_split t M i 1 0 s0, Nat.zero_add,
      schedule_loop_one t M i _ (by rw [hcnt]; exact h0)]
  rw [hsplit, hstep _ (by rw [(foldl_minute_step_table t _ st).2.2.1]; exact hcount), Nat.zero_add]
  rfl


/-- A run of the `for` loop that makes no motor call leaves the state as it is. -/
theorem schedule_loop_quiet (t : tick_clock) (m : Int) (n : Nat) : ∀ (i : Nat) (st : State),
    loop_calls m st.schedule_count st.schedules n i = [] → schedule_loop t m n i st = st := by
  induction n with
  | zero => intro i st _; rfl
  | succ n ih =>
    intro i st h
    unfold loop_calls at h
    unfold schedule_loop
    by_cases hc : (i : Int) < st.schedule_count
    · rw [if_pos hc] at h
      rw [if_pos hc]
      obtain ⟨h1, h2⟩ := List.append_eq_nil.1 h
      have hstep : schedule_step t m i st = st := by
        unfold step_calls at h1
        by_cases he : (st.schedules.getD i default).enabled = true
        · rw [if_pos he] at h1
          obtain ⟨q1, q2⟩ := List.append_eq_nil.1 h1
          apply schedule_step_skip
          · intro hs; rw [if_pos hs] at q1; cases q1
          · intro hs; rw [if_pos hs] at q2; cases q2
        · exact schedule_step_disabled t m i st (by simpa using he)
      rw [hstep]
      exact ih (i + 1) st h2
    · rw [if_neg hc]

/-- A scan that makes no motor call leaves the state as it is. -/
theorem foldl_minute_step_quiet (t : tick_clock) (ms : List Int) (st : State)
    (h : scan_calls st.schedule_count ms st.schedules = []) :
    ms.foldl (minute_step t) st = st := by
  induction ms with
  | nil => rfl
  | cons m ms ih =>
    unfold scan_calls at h
    obtain ⟨h1, h2⟩ := List.append_eq_nil.1 h
    have hq : minute_step t st m = st := schedule_loop_quiet t m MAX_SCHEDULES 0 st h1
    have hl : loop_schedules m st.schedule_count MAX_SCHEDULES 0 st.schedules = st.schedules := by
      rw [← (schedule_loop_table t m MAX_SCHEDULES 0 st).1]
      show (minute_step t st m).schedules = _
      rw [hq]
    rw [hl] at h2
    rw [List.foldl_cons, hq]
    exact ih h2

/-- When no motor call has been made before the loop body is entered, the state is still
the one of the tick's start. -/
theorem body_entry_quiet (t : tick_clock) (st : State) (M : Int) (i : Nat)
    (h : (body_entry t st M i).calls = st.calls) : body_entry t st M i = st := by
  unfold body_entry at h ⊢
  obtain ⟨ms, hms⟩ : ∃ x, x = scanned_minutes ((st.last_checked_minute + 1) % (24 * 60))
      (scan_position st.last_checked_minute M).toNat := ⟨_, rfl⟩
  rw [← hms] at h ⊢
  obtain ⟨f1, f2, f3, _⟩ := foldl_minute_step_table t ms st
  obtain ⟨_, g2, _, _⟩ := schedule_loop_table t M i 0 (ms.foldl (minute_step t) st)
  rw [g2, f2, List.append_assoc] at h
  have hnil := List.append_cancel_left (h.trans (List.append_nil _).symm)
  obtain ⟨p1, p2⟩ := List.append_eq_nil.1 hnil
  have hq := foldl_minute_step_quiet t ms st p1
  rw [hq] at p2 ⊢
  exact schedule_loop_quiet t M i 0 st p2


/-- The ledger and the count after `add_to_history` depend on the ledger and the count
before, and on nothing else in the state. -/
theorem add_to_history_ledger_congr (t : tm) (name action : String) (st st' : State)
    (h1 : st.schedule_history = st'.schedule_history)
    (h2 : st.history_count = st'.history_count) :
    (add_to_history t name action st).schedule_history
        = (add_to_history t name action st').schedule_history
    ∧ (add_to_history t name action st).history_count
        = (add_to_history t name action st').history_count := by
  unfold add_to_history
  dsimp only
  split
  · unfold history_on
    dsimp only
    rw [h1, h2]
    cases for_break (slot_free st'.schedule_history) MAX_HISTORY 0 with
    | some j =>
      dsimp only
      cases (for_break (slot_active_named st'.schedule_history name) MAX_HISTORY 0).isSome
      · exact ⟨rfl, rfl⟩
      · exact ⟨rfl, rfl⟩
    | none =>
      dsimp only
      generalize shift_history st'.schedule_history (MAX_HISTORY - 1) 0 = sh
      cases (for_break (slot_active_named sh name) MAX_HISTORY 0).isSome
      · exact ⟨rfl, rfl⟩
      · exact ⟨rfl, rfl⟩
  · split
    · unfold history_off
      rw [h1]
      cases for_break (slot_active_named st'.schedule_history name) MAX_HISTORY 0 with
      | some j => exact ⟨rfl, h2⟩
      | none => exact ⟨h1, h2⟩
    · exact ⟨h1, h2⟩

/-- The ledger after an `"ON"` and an `"OFF"` call for a name that was not active: one more
record, already closed, in the slot the `"ON"` call chose; `t` and `u` are the clock
readings of the two calls. -/
theorem on_then_off_ledger (t u : tm) (name : String) (st : State)
    (hlen : st.schedule_history.length = MAX_HISTORY) (hn : name.length ≤ 31)
    (hname : ∀ k, k < MAX_HISTORY → slot_active_named st.schedule_history name k = false) :
    ∃ idx, idx < MAX_HISTORY
      ∧ (add_to_history u name "OFF" (add_to_history t name "ON" st)).schedule_history.getD idx
            default
          = { name := name, start_time := strftime_ymdhm t, end_time := strftime_ymdhm u,
              active := false }
      ∧ (∀ k, k < MAX_HISTORY → k ≠ idx →
          (add_to_history u name "OFF" (add_to_history t name "ON" st)).schedule_history.getD k
              default = st.schedule_history.getD k default
          ∨ (add_to_history u name "OFF" (add_to_history t name "ON" st)).schedule_history.getD k
              default = st.schedule_history.getD (k + 1) default)
      ∧ (add_to_history u name "OFF" (add_to_history t name "ON" st)).history_count
          = if st.history_count < MAX_HISTORY then st.history_count + 1
            else st.history_count := by
  obtain ⟨idx, h1, h2, h3, h4, h5⟩ := history_on_new_record (strftime_ymdhm t) name st hlen hn hname
  obtain ⟨s1, hs1⟩ : ∃ x, x = add_to_history t name "ON" st := ⟨_, rfl⟩
  have e1 : s1.schedule_history = (history_on (strftime_ymdhm t) name st).schedule_history := by
    rw [hs1]; exact (add_to_history_on t name st).1
  have e2 : s1.history_count = (history_on (strftime_ymdhm t) name st).history_count := by
    rw [hs1]; exact (add_to_history_on t name st).2
  have hcount : (history_on (strftime_ymdhm t) name st).history_count
      = if st.history_count < MAX_HISTORY then st.history_count + 1 else st.history_count := by
    cases hf : for_break (slot_free st.schedule_history) MAX_HISTORY 0 with
    | some j => exact (history_on_free _ name st j hf hname).2
    | none =>
      have hfull : ∀ k, k < MAX_HISTORY → slot_free st.schedule_history k = false :=
        fun k hk => (for_break_eq_none _ _ _).1 hf k (Nat.zero_le _)
          (by rw [Nat.zero_add]; exact hk)
      exact (history_on_full _ name st hlen hfull hname).2
  rw [← hs1]
  rw [← e1] at h2 h3 h4 h5
  have hfound : for_break (slot_active_named s1.schedule_history name) MAX_HISTORY 0
      = some idx := by
    rw [for_break_eq_some]
    refine ⟨Nat.zero_le _, by rw [Nat.zero_add]; exact h1, (h4 idx h1).2 rfl, ?_⟩
    intro k _ hk
    have := (h4 k (lt_trans hk h1)).not.2 (Nat.ne_of_lt hk)
    simpa using this
  rw [add_to_history_off_found u name s1 idx hfound, (add_to_history_off u name s1).2,
    (history_off_found _ name s1 idx hfound).2, e2, hcount]
  refine ⟨idx, h1, ?_, ?_, rfl⟩
  · rw [getD_set_self _ _ _ _ (by rw [h2]; exact h1), h3, new_record_eq,
      strncpy_of_length_le name 31 hn]
  · intro k hk hne
    rw [getD_set_ne _ _ _ _ _ (Ne.symm hne)]
    exact h5 k hk hne

theorem set_new_record_inactive (h1 : List schedule_history_t) (idx : Nat) (ts name X : String)
    (k1 : name_inactive h1 X) (hne : strncpy name (MAX_NAME_LEN - 1) ≠ X) :
    name_inactive (h1.set idx (new_record name ts)) X := by
  refine ⟨by rw [List.length_set]; exact k1.1, ?_⟩
  intro k hk
  unfold slot_active_named
  by_cases hki : idx = k
  · subst hki
    by_cases hl : idx < h1.length
    · rw [getD_set_self _ _ _ _ hl]
      simp [new_record, hne]
    · rw [getD_of_length_le _ _ _ (by rw [List.length_set]; omega)]
      rfl
  · rw [getD_set_ne _ _ _ _ _ hki]
    exact k1.2 k hk

theorem history_on_keeps_inactive (ts name X : String) (st : State)
    (h : name_inactive st.schedule_history X)
    (hne : strncpy name (MAX_NAME_LEN - 1) ≠ X) :
    name_inactive (history_on ts name st).schedule_history X := by
  have k2 : name_inactive (shift_history st.schedule_history (MAX_HISTORY - 1) 0) X := by
    refine ⟨by rw [shift_history_length]; exact h.1, ?_⟩
    intro k hk
    exact (for_break_eq_none _ _ _).1 (not_active_after_shift _ X h.2) k (Nat.zero_le _)
      (by rw [Nat.zero_add]; exact hk)
  unfold history_on
  cases hf : for_break (slot_free st.schedule_history) MAX_HISTORY 0 with
  | some j =>
    dsimp only
    split
    · exact set_new_record_inactive _ _ _ _ X h hne
    · exact h
  | none =>
    dsimp only
    generalize shift_history st.schedule_history (MAX_HISTORY - 1) 0 = sh at k2 ⊢
    split
    · exact set_new_record_inactive _ _ _ _ X k2 hne
    · exact k2

theorem history_off_keeps_inactive (ts name X : String) (st : State)
    (h : name_inactive st.schedule_history X) :
    name_inactive (history_off ts name st).schedule_history X := by
  obtain ⟨hlen, hX⟩ := h
  unfold history_off
  split
  · rename_i i _
    refine ⟨by dsimp only; rw [List.length_set]; exact hlen, ?_⟩
    intro k hk
    dsimp only
    unfold slot_active_named
    by_cases hki : i = k
    · subst hki
      by_cases hl : i < st.schedule_history.length
      · rw [getD_set_self _ _ _ _ hl]
        rfl
      · rw [getD_of_length_le _ _ _ (by rw [List.length_set]; omega)]
        rfl
    · rw [getD_set_ne _ _ _ _ _ hki]
      exact hX k hk
  · exact ⟨hlen, hX⟩

theorem start_branch_keeps_inactive (t : tick_clock) (m : Int) (i : Nat) (s : schedule_t)
    (st : State) (X : String) (h : name_inactive st.schedule_history X)
    (hne : starts_at s m → strncpy s.name (MAX_NAME_LEN - 1) ≠ X) :
    name_inactive (start_branch t m i s st).schedule_history X := by
  unfold start_branch
  split
  · rename_i hs
    rw [(add_to_history_on _ _ _).1]
    exact history_on_keeps_inactive _ _ X _ h (hne hs)
  · exact h

theorem end_branch_keeps_inactive (t : tick_clock) (m : Int) (i : Nat) (s : schedule_t)
    (st : State) (X : String) (h : name_inactive st.schedule_history X) :
    name_inactive (end_branch t m i s st).schedule_history X := by
  have hoff : name_inactive
      (add_to_history (t.at_call (motor_call.off m i)) s.name "OFF"
        { motor_off st with calls := st.calls ++ [motor_call.off m i] }).schedule_history X := by
    rw [(add_to_history_off _ _ _).1]
    exact history_off_keeps_inactive _ _ X _ h
  unfold end_branch
  split
  · dsimp only
    split
    · rw [(save_settings_frame _).2.2.2.2.2.1]
      exact hoff
    · exact hoff
  · exact h

theorem schedule_step_keeps_inactive (t : tick_clock) (m : Int) (i : Nat) (st : State)
    (X : String) (h : name_inactive st.schedule_history X)
    (hne : (st.schedules.getD i default).enabled = true →
      starts_at (st.schedules.getD i default) m →
      strncpy (st.schedules.getD i default).name (MAX_NAME_LEN - 1) ≠ X) :
    name_inactive (schedule_step t m i st).schedule_history X := by
  rw [schedule_step_eq]
  split
  · rename_i he
    exact end_branch_keeps_inactive t m i _ _ X
      (start_branch_keeps_inactive t m i _ st X h (hne he))
  · exact h

theorem only_start_of_step (X : String) (i : Nat) (M : Int) (cnt : Int) (l : List schedule_t)
    (j : Nat) (m : Int) (h : only_start_of X i M cnt l) :
    only_start_of X i M cnt (l.set j (step_schedule m (l.getD j default))) := by
  have hstep : ∀ s : schedule_t, (step_schedule m s).name = s.name
      ∧ (step_schedule m s).start_hour = s.start_hour
      ∧ (step_schedule m s).start_minute = s.start_minute
      ∧ ((step_schedule m s).enabled = true → s.enabled = true) := by
    intro s
    unfold step_schedule
    split
    · exact ⟨rfl, rfl, rfl, fun hc => by cases hc⟩
    · exact ⟨rfl, rfl, rfl, fun hc => hc⟩
  have hget : ∀ k, ((l.set j (step_schedule m (l.getD j default))).getD k default).name
        = (l.getD k default).name
      ∧ ((l.set j (step_schedule m (l.getD j default))).getD k default).start_hour
        = (l.getD k default).start_hour
      ∧ ((l.set j (step_schedule m (l.getD j default))).getD k default).start_minute
        = (l.getD k default).start_minute
      ∧ (((l.set j (step_schedule m (l.getD j default))).getD k default).enabled = true →
          (l.getD k default).enabled = true) := by
    intro k
    rw [getD_set_step]
    split
    · exact hstep _
    · exact ⟨rfl, rfl, rfl, fun hc => hc⟩
  refine ⟨?_, ?_⟩
  · intro k hk1 hk2 hki hen
    rw [(hget k).1]
    exact h.1 k hk1 hk2 hki ((hget k).2.2.2 hen)
  · intro m' hm'
    have := h.2 m' hm'
    unfold starts_at at this ⊢
    rw [(hget i).2.1, (hget i).2.2.1]
    exact this

theorem schedule_step_keeps_quiet (t : tick_clock) (m : Int) (j : Nat) (st : State)
    (X : String) (i : Nat) (M : Int) (hj : j < MAX_SCHEDULES)
    (hc : (j : Int) < st.schedule_count) (hcond : j ≠ i ∨ m ≠ M)
    (h1 : name_inactive st.schedule_history X)
    (h2 : only_start_of X i M st.schedule_count st.schedules) :
    name_inactive (schedule_step t m j st).schedule_history X
    ∧ only_start_of X i M (schedule_step t m j st).schedule_count
        (schedule_step t m j st).schedules := by
  obtain ⟨e1, _, e3, _⟩ := schedule_step_table t m j st
  refine ⟨schedule_step_keeps_inactive t m j st X h1 ?_, ?_⟩
  · intro hen hs
    by_cases hji : j = i
    · subst hji
      rcases hcond with hcond | hcond
      · exact absurd rfl hcond
      · exact absurd hs (h2.2 m hcond)
    · exact h2.1 j hj hc hji hen
  · rw [e1, e3]
    exact only_start_of_step X i M _ _ j m h2

theorem schedule_loop_keeps_quiet (t : tick_clock) (m : Int) (X : String) (i : Nat) (M : Int)
    (n : Nat) : ∀ (i0 : Nat) (st : State), i0 + n ≤ MAX_SCHEDULES →
    (∀ j, i0 ≤ j → j < i0 + n → j ≠ i ∨ m ≠ M) →
    name_inactive st.schedule_history X →
    only_start_of X i M st.schedule_count st.schedules →
    name_inactive (schedule_loop t m n i0 st).schedule_history X
    ∧ only_start_of X i M (schedule_loop t m n i0 st).schedule_count
        (schedule_loop t m n i0 st).schedules := by
  induction n with
  | zero => intro i0 st _ _ h1 h2; exact ⟨h1, h2⟩
  | succ n ih =>
    intro i0 st hb hcond h1 h2
    by_cases hc : (i0 : Int) < st.schedule_count
    · have l1 : schedule_loop t m (n + 1) i0 st
          = schedule_loop t m n (i0 + 1) (schedule_step t m i0 st) := by
        rw [schedule_loop, if_pos hc]
      rw [l1]
      obtain ⟨k1, k2⟩ := schedule_step_keeps_quiet t m i0 st X i M (by omega) hc
        (hcond i0 (le_refl _) (by omega)) h1 h2
      exact ih (i0 + 1) _ (by omega) (fun j hj1 hj2 => hcond j (by omega) (by omega)) k1 k2
    · rw [schedule_loop_done t m _ i0 st hc]
      exact ⟨h1, h2⟩

theorem foldl_minute_step_keeps_quiet (t : tick_clock) (X : String) (i : Nat) (M : Int)
    (ms : List Int) : ∀ (st : State), (∀ m ∈ ms, m ≠ M) →
    name_inactive st.schedule_history X →
    only_start_of X i M st.schedule_count st.schedules →
    name_inactive (ms.foldl (minute_step t) st).schedule_history X
    ∧ only_start_of X i M (ms.foldl (minute_step t) st).schedule_count
        (ms.foldl (minute_step t) st).schedules := by
  induction ms with
  | nil => intro st _ h1 h2; exact ⟨h1, h2⟩
  | cons m ms ih =>
    intro st hms h1 h2
    rw [List.foldl_cons]
    have hm : m ≠ M := hms m (List.mem_cons_self _ _)
    obtain ⟨k1, k2⟩ := schedule_loop_keeps_quiet t m X i M MAX_SCHEDULES 0 st (by omega)
      (fun j _ _ => Or.inr hm) h1 h2
    exact ih _ (fun m' hm' => hms m' (List.mem_cons_of_mem _ hm')) k1 k2

/-- When the ledger has no active entry of the name of schedule `i` at the start of the
tick, and no other enabled schedule is stored under that name, it has none when the loop
body is entered for schedule `i` at its start minute `M`. -/
theorem body_entry_keeps_inactive (t : tick_clock) (st : State) (M : Int) (i : Nat)
    (hi : i < MAX_SCHEDULES)
    (hs : starts_at (st.schedules.getD i default) M)
    (hname : name_inactive st.schedule_history (st.schedules.getD i default).name)
    (huniq : ∀ j, j < MAX_SCHEDULES → (j : Int) < st.schedule_count → j ≠ i →
      (st.schedules.getD j default).enabled = true →
      strncpy (st.schedules.getD j default).name (MAX_NAME_LEN - 1)
        ≠ (st.schedules.getD i default).name) :
    name_inactive (body_entry t st M i).schedule_history (st.schedules.getD i default).name := by
  have h2 : only_start_of (st.schedules.getD i default).name i M st.schedule_count
      st.schedules :=
    ⟨huniq, fun m hm hsm => hm (starts_at_unique _ m M hsm hs)⟩
  obtain ⟨k1, k2⟩ := foldl_minute_step_keeps_quiet t (st.schedules.getD i default).name i M
    (scanned_minutes ((st.last_checked_minute + 1) % (24 * 60))
      (scan_position st.last_checked_minute M).toNat) st
    (fun m hm hmM => not_mem_scanned_before st.last_checked_minute M (hmM ▸ hm)) hname h2
  unfold body_entry
  exact (schedule_loop_keeps_quiet t M (st.schedules.getD i default).name i M i 0 _
    (by omega) (fun j _ hj => Or.inl (by omega)) k1 k2).1

/-- C26 (as stated, refuted).  Two schedules are named "P": 06:00-07:00 at index 0 and
06:30-06:30 at index 1.  The cursor is at 05:59, the ledger is empty and the tick is the
one of 06:35.  Schedule 1 is enabled, its start and its end are the minute 06:30 of the
scanned range, and the ledger has no active entry named "P".  The tick calls `motor_on`
and `motor_off` for schedule 1 at 06:30, but the pass for it adds no record: the ledger
holds one record before the pass and one after it, since the `"ON"` call finds the name
active, in the record that schedule 0 opened at 06:00, and the `"OFF"` call closes that
record. -/
theorem same_minute_pass_adds_no_record :
    live two_pulses 1
    ∧ starts_at (two_pulses.schedules.getD 1 default) 390
    ∧ ends_at (two_pulses.schedules.getD 1 default) 390
    ∧ in_scanned_range two_pulses.last_checked_minute (minute_of_day (clock 6 35)) 390
    ∧ (∀ k, k < MAX_HISTORY → slot_active_named two_pulses.schedule_history "P" k = false)
    ∧ (check_schedules (steady (clock 6 35)) two_pulses).map
          (fun s => (s.calls, s.history_count,
            s.schedule_history.filter (fun e => e.name = "P")))
        = some ([motor_call.on 360 0, motor_call.on 390 1, motor_call.off 390 1], 1,
            [{ name := "P", start_time := "2025-07-08 06:35", end_time := "2025-07-08 06:35",
               active := false }])
    ∧ (body_entry (steady (clock 6 35)) two_pulses 390 1).history_count = 1
    ∧ (schedule_step (steady (clock 6 35)) 390 1
        (body_entry (steady (clock 6 35)) two_pulses 390 1)).history_count = 1 := by
  decide

/-- C26 (amended).  Let schedule `i` be enabled when the tick begins, with its start and its
end at the same minute `M` of the scanned range.  In the tick the loop body is entered for
`(M, i)` once, in the state `body_entry`; this pass calls `motor_on` and then `motor_off`
for the schedule and leaves `motor_state` false; if the ledger has no active entry of the
schedule's name when the pass begins, the pass leaves one more record, of that name and
already closed (start and end time set, to the clock readings of its two `add_to_history`
calls, and `active` false), and changes no other record.  The ledger has no active entry
of the name when the pass begins if it has none when the tick begins and no other enabled
schedule is stored under that name.  When no motor call precedes the pass in the tick,
the state at its entry is the state at the start of the tick.  The tick then goes on with
the rest of the table and of the scan, and if no motor call follows, `motor_state` is
false after the tick. -/
theorem same_minute_start_and_end (t : tick_clock) (st : State) (i : Nat) (M : Int)
    (hc : 0 ≤ st.last_checked_minute ∧ st.last_checked_minute < 24 * 60)
    (hlive : live st i)
    (hs : starts_at (st.schedules.getD i default) M)
    (he : ends_at (st.schedules.getD i default) M)
    (hM : in_scanned_range st.last_checked_minute (minute_of_day t.timeinfo) M) :
    ∃ st' post, check_schedules t st = some st'
      ∧ st' = { (scanned_minutes ((M + 1) % (24 * 60))
                    (gap st.last_checked_minute (minute_of_day t.timeinfo)
                      - (scan_position st.last_checked_minute M).toNat - 1)).foldl
                  (minute_step t)
                  (schedule_loop t M (MAX_SCHEDULES - (i + 1)) (i + 1)
                    (schedule_step t M i (body_entry t st M i))) with
                last_checked_minute := minute_of_day t.timeinfo }
      ∧ (schedule_step t M i (body_entry t st M i)).calls
          = (body_entry t st M i).calls ++ [motor_call.on M i, motor_call.off M i]
      ∧ (schedule_step t M i (body_entry t st M i)).motor_state = false
      ∧ st'.calls = (schedule_step t M i (body_entry t st M i)).calls ++ post
      ∧ (post = [] → st'.motor_state = false)
      ∧ ((body_entry t st M i).calls = st.calls → body_entry t st M i = st)
      ∧ (name_inactive (body_entry t st M i).schedule_history (st.schedules.getD i default).name →
          (st.schedules.getD i default).name.length ≤ 31 →
          ∃ idx, idx < MAX_HISTORY
            ∧ (schedule_step t M i (body_entry t st M i)).schedule_history.getD idx default
                = { name := (st.schedules.getD i default).name,
                    start_time := strftime_ymdhm (t.at_call (motor_call.on M i)),
                    end_time := strftime_ymdhm (t.at_call (motor_call.off M i)),
                    active := false }
            ∧ (∀ k, k < MAX_HISTORY → k ≠ idx →
                (schedule_step t M i (body_entry t st M i)).schedule_history.getD k default
                    = (body_entry t st M i).schedule_history.getD k default
                ∨ (schedule_step t M i (body_entry t st M i)).schedule_history.getD k default
                    = (body_entry t st M i).schedule_history.getD (k + 1) default)
            ∧ (schedule_step t M i (body_entry t st M i)).history_count
                = if (body_entry t st M i).history_count < MAX_HISTORY then
                    (body_entry t st M i).history_count + 1
                  else (body_entry t st M i).history_count)
      ∧ (name_inactive st.schedule_history (st.schedules.getD i default).name →
          (∀ j, j < MAX_SCHEDULES → (j : Int) < st.schedule_count → j ≠ i →
            (st.schedules.getD j default).enabled = true →
            strncpy (st.schedules.getD j default).name (MAX_NAME_LEN - 1)
              ≠ (st.schedules.getD i default).name) →
          name_inactive (body_entry t st M i).schedule_history
            (st.schedules.getD i default).name) := by
  obtain ⟨hi, hcount, hen⟩ := hlive
  obtain ⟨b1, b2⟩ := body_entry_schedule t st M i he
  have hquiet := body_entry_quiet t st M i
  have hkeep := body_entry_keeps_inactive t st M i hi hs
  generalize hB : body_entry t st M i = stB at b1 b2 hquiet hkeep
  have hcut := check_schedules_cut t st M i hc hM hi hcount
  rw [hB] at hcut
  -- the pass of the loop body
  have hstepcalls : step_calls M i (stB.schedules.getD i default)
      = [motor_call.on M i, motor_call.off M i] := by
    rw [b1]
    unfold step_calls
    rw [if_pos hen, if_pos hs, if_pos he]
    rfl
  have hcalls := (schedule_step_table t M i stB).2.1
  rw [hstepcalls] at hcalls
  have hmotor := schedule_step_motor t M i stB
  rw [hstepcalls] at hmotor
  have hmotor2 : (schedule_step t M i stB).motor_state = false := by
    rw [hmotor]; rfl
  have hledger : (schedule_step t M i stB).schedule_history
        = (add_to_history (t.at_call (motor_call.off M i)) (st.schedules.getD i default).name
            "OFF"
            (add_to_history (t.at_call (motor_call.on M i)) (st.schedules.getD i default).name
              "ON" stB)).schedule_history
      ∧ (schedule_step t M i stB).history_count
        = (add_to_history (t.at_call (motor_call.off M i)) (st.schedules.getD i default).name
            "OFF"
            (add_to_history (t.at_call (motor_call.on M i)) (st.schedules.getD i default).name
              "ON" stB)).history_count := by
    rw [schedule_step_eq, b1, if_pos hen]
    unfold end_branch start_branch
    rw [if_pos hs, if_pos he]
    have k1 := add_to_history_ledger_congr (t.at_call (motor_call.on M i))
      (st.schedules.getD i default).name "ON"
      { motor_on stB with calls := stB.calls ++ [motor_call.on M i] } stB rfl rfl
    generalize add_to_history (t.at_call (motor_call.on M i)) (st.schedules.getD i default).name
      "ON" { motor_on stB with calls := stB.calls ++ [motor_call.on M i] } = s1 at k1 ⊢
    have k2 := add_to_history_ledger_congr (t.at_call (motor_call.off M i))
      (st.schedules.getD i default).name "OFF"
      { motor_off s1 with calls := s1.calls ++ [motor_call.off M i] }
      (add_to_history (t.at_call (motor_call.on M i)) (st.schedules.getD i default).name "ON"
        stB) k1.1 k1.2
    dsimp only
    split
    · rw [(save_settings_frame _).2.2.2.2.2.1, (save_settings_frame _).2.2.2.2.2.2]
      exact k2
    · exact k2
  generalize hA : schedule_step t M i stB = stA at hcut hcalls hmotor2 hledger
  -- the rest of the tick
  obtain ⟨stC, hC⟩ : ∃ x, x = schedule_loop t M (MAX_SCHEDULES - (i + 1)) (i + 1) stA := ⟨_, rfl⟩
  obtain ⟨c1, c2, c3, _⟩ := schedule_loop_table t M (MAX_SCHEDULES - (i + 1)) (i + 1) stA
  have c4 := schedule_loop_motor t M (MAX_SCHEDULES - (i + 1)) (i + 1) stA
  rw [← hC] at c1 c2 c3 c4 hcut
  obtain ⟨ms2, hms2⟩ : ∃ x, x = scanned_minutes ((M + 1) % (24 * 60))
      (gap st.last_checked_minute (minute_of_day t.timeinfo)
        - (scan_position st.last_checked_minute M).toNat - 1) := ⟨_, rfl⟩
  rw [← hms2] at hcut ⊢
  obtain ⟨_, d2, _, _⟩ := foldl_minute_step_table t ms2 stC
  have d4 := foldl_minute_step_motor t ms2 stC
  refine ⟨_, loop_calls M stA.schedule_count stA.schedules (MAX_SCHEDULES - (i + 1)) (i + 1)
      ++ scan_calls stC.schedule_count ms2 stC.schedules, hcut, by rw [hC], hcalls, hmotor2,
      ?_, ?_, hquiet, ?_, hkeep⟩
  · show (List.foldl (minute_step t) stC ms2).calls = _
    rw [d2, c2, List.append_assoc]
  · intro hpost
    show (List.foldl (minute_step t) stC ms2).motor_state = false
    obtain ⟨p1, p2⟩ := List.append_eq_nil.1 hpost
    rw [d4, p2, c4, p1, hmotor2]
    rfl
  · intro hname hn
    rw [hledger.1, hledger.2]
    exact on_then_off_ledger _ _ _ stB hname.1 hn hname.2

/-- C26 (amended), applied to "Pulse", start and end 06:00, and the tick that begins at 06:05
with the cursor at 05:59 and whose `add_to_history` calls read 06:06: the calls are
`motor_on` and `motor_off` at 06:00, the motor is off afterwards, and the ledger holds one
closed record "Pulse". -/
theorem same_minute_start_and_end_witness :
    (check_schedules (clock_then (clock 6 5) (clock 6 6)) pulse_state).map
        (fun s => (s.calls, s.motor_state,
          s.schedule_history.filter (fun e => e.name = "Pulse")))
      = some ([motor_call.on 360 0, motor_call.off 360 0], false,
          [{ name := "Pulse", start_time := "2025-07-08 06:06",
             end_time := "2025-07-08 06:06", active := false }])
    ∧ name_inactive (body_entry (clock_then (clock 6 5) (clock 6 6)) pulse_state 360
        0).schedule_history "Pulse"
    ∧ ∃ st' post, check_schedules (clock_then (clock 6 5) (clock 6 6)) pulse_state = some st'
      ∧ (schedule_step (clock_then (clock 6 5) (clock 6 6)) 360 0
          (body_entry (clock_then (clock 6 5) (clock 6 6)) pulse_state 360 0)).calls
          = (body_entry (clock_then (clock 6 5) (clock 6 6)) pulse_state 360 0).calls
            ++ [motor_call.on 360 0, motor_call.off 360 0]
      ∧ st'.calls
          = (schedule_step (clock_then (clock 6 5) (clock 6 6)) 360 0
              (body_entry (clock_then (clock 6 5) (clock 6 6)) pulse_state 360 0)).calls
            ++ post
      ∧ (post = [] → st'.motor_state = false) := by
  obtain ⟨st', post, h1, _, h3, _, h5, h6, _, _, h9⟩ :=
    same_minute_start_and_end (clock_then (clock 6 5) (clock 6 6)) pulse_state 0 360
      (by decide) (by decide) (by decide) (by decide) (by decide)
  exact ⟨by decide, h9 ⟨by decide, by decide⟩ (by decide), st', post, h1, h3, h5, h6⟩


/-! ## The schedule store invariant -/

/-- What `validate_and_add` leaves in the globals: the state it was given, or the state with
one validated schedule more, saved. -/
theorem validate_and_add_state (form : schedule_form) (st : State) (r : handler_result)
    (h : validate_and_add form st = some r) :
    r.state = st
    ∨ ∃ sh sm eh em : Int, 0 < form.name.length ∧ form.name.length < MAX_NAME_LEN
        ∧ (0 ≤ sh ∧ sh ≤ 23 ∧ 0 ≤ sm ∧ sm ≤ 59 ∧ 0 ≤ eh ∧ eh ≤ 23 ∧ 0 ≤ em ∧ em ≤ 59)
        ∧ 0 ≤ st.schedule_count
        ∧ r.state = save_settings
            { st with
              schedules := st.schedules.set st.schedule_count.toNat
                (new_schedule form.name sh sm eh em form.repeat_daily)
              schedule_count := st.schedule_count + 1 } := by
  unfold validate_and_add at h
  dsimp only at h
  split at h
  · rename_i hv
    split at h
    · rename_i sh sm eh em _ _
      split at h
      · rename_i hr
        split at h
        · cases h
        · rename_i hcnt
          cases h
          right
          exact ⟨sh, sm, eh, em, hv.1, hv.2.1, hr, by omega, rfl⟩
      · cases h; left; rfl
    · cases h; left; rfl
  · cases h; left; rfl

theorem schedule_valid_new (name : String) (sh sm eh em : Int) (rep : Bool)
    (hn : 0 < name.length ∧ name.length < MAX_NAME_LEN)
    (hr : 0 ≤ sh ∧ sh ≤ 23 ∧ 0 ≤ sm ∧ sm ≤ 59 ∧ 0 ≤ eh ∧ eh ≤ 23 ∧ 0 ≤ em ∧ em ≤ 59) :
    schedule_valid (new_schedule name sh sm eh em rep) := by
  unfold MAX_NAME_LEN at hn
  have e : (new_schedule name sh sm eh em rep).name = name :=
    strncpy_of_length_le name 31 (by omega)
  unfold schedule_valid
  rw [e]
  exact ⟨hr.1, hr.2.1, hr.2.2.1, hr.2.2.2.1, hr.2.2.2.2.1, hr.2.2.2.2.2.1, hr.2.2.2.2.2.2.1,
    hr.2.2.2.2.2.2.2, hn.1, by omega⟩

/-- An add that is accepted or rejected keeps the store invariant. -/
theorem add_keeps_store_invariant (req : httpd_req_t) (st : State) (r : handler_result)
    (hinv : store_invariant st) (hlen : st.schedules.length = MAX_SCHEDULES)
    (h : add_schedule_handler req st = some r) :
    store_invariant r.state ∧ r.state.schedules.length = MAX_SCHEDULES := by
  unfold add_schedule_handler at h
  split at h
  · cases h; exact ⟨hinv, hlen⟩
  · rename_i hfull
    split at h
    · cases h; exact ⟨hinv, hlen⟩
    · cases hp : parse_form (received_buffer req 512) with
      | none => rw [hp] at h; cases h
      | some form =>
        rw [hp] at h
        rcases validate_and_add_state form st r h with hs | ⟨sh, sm, eh, em, q1, q2, q3, q4, q5⟩
        · rw [hs]; exact ⟨hinv, hlen⟩
        · obtain ⟨i1, i2, i3⟩ := hinv
          unfold MAX_SCHEDULES at hfull hlen
          have hcnt : st.schedule_count < 10 := by omega
          rw [q5]
          obtain ⟨f1, f2, _⟩ := save_settings_frame
            { st with
              schedules := st.schedules.set st.schedule_count.toNat
                (new_schedule form.name sh sm eh em form.repeat_daily)
              schedule_count := st.schedule_count + 1 }
          unfold store_invariant
          rw [f1, f2]
          dsimp only
          refine ⟨⟨by omega, by omega, ?_⟩, by rw [List.length_set, hlen]; rfl⟩
          intro i hi hic
          by_cases hii : i = st.schedule_count.toNat
          · rw [hii, getD_set_self _ _ _ _ (by rw [hlen]; omega)]
            exact schedule_valid_new _ _ _ _ _ _ ⟨q1, q2⟩ q3
          · rw [getD_set_ne _ _ _ _ _ (Ne.symm hii)]
            exact i3 i hi (by omega)

/-- A delete returns, and keeps the store invariant. -/
theorem delete_keeps_store_invariant (req : httpd_req_t) (st : State)
    (hinv : store_invariant st) (hlen : st.schedules.length = MAX_SCHEDULES) :
    ∃ r, delete_schedule_handler req st = some r
      ∧ store_invariant r.state ∧ r.state.schedules.length = MAX_SCHEDULES := by
  unfold delete_schedule_handler
  split
  · exact ⟨_, rfl, hinv, hlen⟩
  · cases sscanf_index (received_content req 32) with
    | none => exact ⟨_, rfl, hinv, hlen⟩
    | some index =>
      dsimp only
      split
      · rename_i hidx
        obtain ⟨i1, i2, i3⟩ := hinv
        rw [if_neg (by unfold MAX_SCHEDULES; omega)]
        refine ⟨_, rfl, ?_, ?_⟩
        · obtain ⟨f1, f2, _⟩ := save_settings_frame
            { st with
              schedules := shift_schedules st.schedules
                (st.schedule_count - 1 - index).toNat index.toNat
              schedule_count := st.schedule_count - 1 }
          unfold store_invariant
          dsimp only
          rw [f1, f2]
          dsimp only
          refine ⟨by omega, by omega, ?_⟩
          intro i hi hic
          rw [shift_schedules_getD]
          unfold MAX_SCHEDULES at hi
          split
          · exact i3 (i + 1) (by unfold MAX_SCHEDULES; omega) (by omega)
          · exact i3 i (by unfold MAX_SCHEDULES; omega) (by omega)
        · dsimp only
          rw [(save_settings_frame _).1]
          dsimp only
          rw [shift_schedules_length, hlen]
      · exact ⟨_, rfl, hinv, hlen⟩

/-- A tick returns, and keeps the store invariant. -/
theorem tick_keeps_store_invariant (t : tick_clock) (st : State)
    (hc : st.last_checked_minute = -1
      ∨ (0 ≤ st.last_checked_minute ∧ st.last_checked_minute < 24 * 60))
    (hinv : store_invariant st) (hlen : st.schedules.length = MAX_SCHEDULES) :
    ∃ st', check_schedules t st = some st'
      ∧ store_invariant st' ∧ st'.schedules.length = MAX_SCHEDULES := by
  rcases hc with hc | hc
  · exact ⟨_, check_schedules_bootstrap t st hc, hinv, hlen⟩
  · obtain ⟨st', e1, e2, _, _, e5, _⟩ := check_schedules_scan t st hc
    obtain ⟨i1, i2, i3⟩ := hinv
    refine ⟨st', e1, ⟨by rw [e5]; exact i1, by rw [e5]; exact i2, ?_⟩,
      by rw [e2, scan_schedules_length, hlen]⟩
    intro i hi hic
    rw [e5] at hic
    rw [e2]
    rcases scan_schedules_cases st.schedule_count
        (scanned_minutes ((st.last_checked_minute + 1) % (24 * 60))
          (gap st.last_checked_minute (minute_of_day t.timeinfo))) st.schedules i
      with h | ⟨_, _, _, _, _, h⟩
    · rw [h]; exact i3 i hi hic
    · rw [h]; exact i3 i hi hic


theorem validate_and_add_returns (form : schedule_form) (st : State)
    (h : 0 ≤ st.schedule_count) : ∃ r, validate_and_add form st = some r := by
  unfold validate_and_add
  dsimp only
  split
  · split
    · split
      · rw [if_neg (by omega)]
        exact ⟨_, rfl⟩
      · exact ⟨_, rfl⟩
    · exact ⟨_, rfl⟩
  · exact ⟨_, rfl⟩

theorem add_returns (req : httpd_req_t) (st : State) (h : 0 ≤ st.schedule_count)
    (hp : (parse_form (received_buffer req 512)).isSome = true) :
    ∃ r, add_schedule_handler req st = some r := by
  unfold add_schedule_handler
  split
  · exact ⟨_, rfl⟩
  · split
    · exact ⟨_, rfl⟩
    · cases hf : parse_form (received_buffer req 512) with
      | none => rw [hf] at hp; cases hp
      | some form => exact validate_and_add_returns form st h

/-- Let the table of 10 slots satisfy the store invariant: `0 ≤ schedule_count ≤ 10` and
every schedule below `schedule_count` has hours in 0..23, minutes in 0..59 and a name of
1 to 31 characters.  Then the invariant holds after every add that the handler accepts or
rejects, and an add has one of these outcomes whenever the parsing of its body stays
within the buffers of the handler; every delete returns and the invariant holds after it;
and every tick returns and the invariant holds after it.  An add whose parsing leaves the
buffers has no outcome in the model and is not covered. -/
theorem store_invariant_kept (st : State) (hinv : store_invariant st)
    (hlen : st.schedules.length = MAX_SCHEDULES) :
    (∀ req r, add_schedule_handler req st = some r →
      store_invariant r.state ∧ r.state.schedules.length = MAX_SCHEDULES)
    ∧ (∀ req, (parse_form (received_buffer req 512)).isSome = true →
        ∃ r, add_schedule_handler req st = some r)
    ∧ (∀ req, ∃ r, delete_schedule_handler req st = some r
        ∧ store_invariant r.state ∧ r.state.schedules.length = MAX_SCHEDULES)
    ∧ (∀ t, (st.last_checked_minute = -1
          ∨ (0 ≤ st.last_checked_minute ∧ st.last_checked_minute < 24 * 60)) →
        ∃ st', check_schedules t st = some st'
          ∧ store_invariant st' ∧ st'.schedules.length = MAX_SCHEDULES) :=
  ⟨fun req r h => add_keeps_store_invariant req st r hinv hlen h,
   fun req hp => add_returns req st hinv.1 hp,
   fun req => delete_keeps_store_invariant req st hinv hlen,
   fun t hc => tick_keeps_store_invariant t st hc hinv hlen⟩

/-- The table "A", "B", "C" satisfies the store invariant, and so do the tables after the
add of "Zone 1" 06:00-06:30, after the delete of index 1 and after the delete of index 7. -/
theorem store_invariant_kept_example :
    store_invariant three_schedules
    ∧ (∃ r, add_schedule_handler
          (post "name=Zone+1&start_time=06%3A00&end_time=06%3A30&repeat_daily=1") three_schedules
        = some r ∧ store_invariant r.state)
    ∧ (∃ r, delete_schedule_handler (post "index=1") three_schedules = some r
        ∧ store_invariant r.state)
    ∧ (∃ r, delete_schedule_handler (post "index=7") three_schedules = some r
        ∧ store_invariant r.state) := by
  have h := store_invariant_kept three_schedules (by decide) (by decide)
  refine ⟨by decide, ?_, ?_, ?_⟩
  · obtain ⟨r, hr⟩ := h.2.1
      (post "name=Zone+1&start_time=06%3A00&end_time=06%3A30&repeat_daily=1") (by decide)
    exact ⟨r, hr, (h.1 _ r hr).1⟩
  · obtain ⟨r, hr, hi, _⟩ := h.2.2.1 (post "index=1")
    exact ⟨r, hr, hi⟩
  · obtain ⟨r, hr, hi, _⟩ := h.2.2.1 (post "index=7")
    exact ⟨r, hr, hi⟩

/-- C28 (failing input).  The table "A", "B", "C" satisfies the store invariant.  An add
with a name of 64 characters makes `url_decode` write the 64 characters and the terminator
into the 32-byte buffer `name`, before any validation: the handler writes 33 bytes beyond
the buffer, and there is no outcome, accepted or rejected, after which the invariant is
known to hold, where the claim has it preserved by every add.  The same happens with a
time of 11 characters in the 10-byte buffer `start_time`. -/
theorem add_overrun_leaves_invariant_open :
    store_invariant three_schedules
    ∧ very_long_name.length = 64
    ∧ url_decode_into MAX_NAME_LEN (very_long_name.data ++ [Char.ofNat 0]) = none
    ∧ (add_schedule_handler
        (post ("name=" ++ very_long_name ++ "&start_time=06:00&end_time=06:30"))
        three_schedules).isNone = true
    ∧ (add_schedule_handler (post "name=Zone&start_time=06:00:00.00&end_time=06:30")
        three_schedules).isNone = true := by
  decide

/-! ## One-shot schedules over a run of ticks -/

theorem run_schedule_disables (ms : List Int) : ∀ (s : schedule_t) (e : Int), e ∈ ms →
    ends_at s e → s.repeat_daily = false → (run_schedule ms s).enabled = false := by
  induction ms with
  | nil => intro s e he; cases he
  | cons m ms ih =>
    intro s e he h1 h2
    rw [run_schedule_cons]
    by_cases hen : s.enabled = true
    · rcases List.mem_cons.1 he with hm | hm
      · subst hm
        have hstep : step_schedule e s = { s with enabled := false } := by
          unfold step_schedule
          rw [if_pos ⟨hen, h1, h2⟩]
        rw [hstep, (run_disabled 0 ms _ rfl).2]
      · by_cases hcond : s.enabled = true ∧ ends_at s m ∧ s.repeat_daily = false
        · have hstep : step_schedule m s = { s with enabled := false } := by
            unfold step_schedule
            rw [if_pos hcond]
          rw [hstep, (run_disabled 0 ms _ rfl).2]
        · have hstep : step_schedule m s = s := by
            unfold step_schedule
            rw [if_neg hcond]
          rw [hstep]
          exact ih s e hm h1 h2
    · have hd : s.enabled = false := by simpa using hen
      have hstep : step_schedule m s = s := by
        unfold step_schedule
        rw [if_neg (fun hc => hen hc.1)]
      rw [hstep, (run_disabled 0 ms s hd).2]
      exact hd

/-- What one tick does to the motor calls, the count, the cursor and the table; a schedule
that is still enabled after the tick was activated at its start minute if the tick scanned
it. -/
theorem tick_summary (t : tick_clock) (st : State)
    (hc : st.last_checked_minute = -1
      ∨ (0 ≤ st.last_checked_minute ∧ st.last_checked_minute < 24 * 60)) :
    ∃ st' fired, check_schedules t st = some st' ∧ st'.calls = st.calls ++ fired
      ∧ st'.schedule_count = st.schedule_count
      ∧ st'.last_checked_minute = minute_of_day t.timeinfo
      ∧ (∀ j, st'.schedules.getD j default = st.schedules.getD j default
          ∨ (st'.schedules.getD j default).enabled = false)
      ∧ (∀ (j : Nat) (m : Int), 0 ≤ st.last_checked_minute → j < MAX_SCHEDULES →
          (j : Int) < st.schedule_count → starts_at (st.schedules.getD j default) m →
          in_scanned_range st.last_checked_minute (minute_of_day t.timeinfo) m →
          (st'.schedules.getD j default).enabled = true → motor_call.on m j ∈ fired) := by
  rcases hc with hc | hc
  · refine ⟨_, [], check_schedules_bootstrap t st hc, by simp, rfl, rfl, fun j => Or.inl rfl, ?_⟩
    intro j m h0
    omega
  · obtain ⟨st', fired, h1, h2, h3⟩ := check_schedules_counts t st hc
    obtain ⟨st2, k1, k2, _, _, k5, k6⟩ := check_schedules_scan t st hc
    rw [h1] at k1
    have hst := Option.some.inj k1
    subst hst
    refine ⟨st', fired, h1, h2, k5, k6, ?_, ?_⟩
    · intro j
      rw [k2]
      rcases scan_schedules_cases st.schedule_count
        (scanned_minutes ((st.last_checked_minute + 1) % (24 * 60))
          (gap st.last_checked_minute (minute_of_day t.timeinfo))) st.schedules j with h | h
      · exact Or.inl h
      · right
        rw [h.2.2.2.2.2]
    · intro j m _ hj1 hj2 hs hr hen
      have hen0 : (st.schedules.getD j default).enabled = true := by
        rw [k2] at hen
        rcases scan_schedules_cases st.schedule_count
          (scanned_minutes ((st.last_checked_minute + 1) % (24 * 60))
            (gap st.last_checked_minute (minute_of_day t.timeinfo))) st.schedules j with h | h
        · rw [h] at hen; exact hen
        · exact h.1
      have hcond : (st.schedules.getD j default).repeat_daily = true
          ∨ ¬ end_scanned_before (st.schedules.getD j default) st.last_checked_minute m := by
        by_cases hrep : (st.schedules.getD j default).repeat_daily = true
        · exact Or.inl hrep
        · right
          rintro ⟨e, he1, he2, he3, he4, he5⟩
          have hin : in_scanned_range st.last_checked_minute (minute_of_day t.timeinfo) e := by
            unfold in_scanned_range at hr ⊢
            exact ⟨he2, he3, he4, by omega⟩
          have hmem := (mem_scanned_iff_in_range _ _ _).2 hin
          have hd := run_schedule_disables _ (st.schedules.getD j default) e hmem he1
            (by simpa using hrep)
          rw [k2, scan_schedules_getD, if_pos ⟨hj1, hj2⟩, hd] at hen
          cases hen
      have hcount := (h3 j m).2.1 ⟨⟨hj1, hj2, hen0⟩, hs, hr, hcond⟩
      exact List.count_pos_iff.1 (by omega)

theorem run_ticks_cons (t : tick_clock) (ts : List tick_clock) (st st1 : State)
    (h : check_schedules t st = some st1) : run_ticks (t :: ts) st = run_ticks ts st1 := by
  rw [run_ticks, h]
  rfl

/-- What a run of ticks does to the motor calls, the count, the cursor and the table; a
schedule that is still enabled after the run was activated at its start minute if a tick
of the run scanned it. -/
theorem run_ticks_summary (ts : List tick_clock) : ∀ (st0 : State),
    (st0.last_checked_minute = -1
      ∨ (0 ≤ st0.last_checked_minute ∧ st0.last_checked_minute < 24 * 60)) →
    (∀ tk ∈ ts, minute_of_day tk.timeinfo < 24 * 60) →
    ∃ st1 before, run_ticks ts st0 = some st1 ∧ st1.calls = st0.calls ++ before
      ∧ st1.schedule_count = st0.schedule_count
      ∧ (st1.last_checked_minute = -1
          ∨ (0 ≤ st1.last_checked_minute ∧ st1.last_checked_minute < 24 * 60))
      ∧ (∀ j, st1.schedules.getD j default = st0.schedules.getD j default
          ∨ (st1.schedules.getD j default).enabled = false)
      ∧ (∀ (j : Nat) (m : Int) (pre : List tick_clock) (tk : tick_clock)
          (post : List tick_clock) (sa : State),
          ts = pre ++ tk :: post → run_ticks pre st0 = some sa → 0 ≤ sa.last_checked_minute →
          j < MAX_SCHEDULES → (j : Int) < st0.schedule_count →
          starts_at (st0.schedules.getD j default) m →
          in_scanned_range sa.last_checked_minute (minute_of_day tk.timeinfo) m →
          (st1.schedules.getD j default).enabled = true → motor_call.on m j ∈ before) := by
  induction ts with
  | nil =>
    intro st0 hc _
    refine ⟨st0, [], rfl, by simp, rfl, hc, fun j => Or.inl rfl, ?_⟩
    intro j m pre tk post sa hsplit
    cases pre <;> cases hsplit
  | cons t ts ih =>
    intro st0 hc hts
    obtain ⟨sA, F, a1, a2, a3, a4, a5, a6⟩ := tick_summary t st0 hc
    have hcA : sA.last_checked_minute = -1
        ∨ (0 ≤ sA.last_checked_minute ∧ sA.last_checked_minute < 24 * 60) := by
      right
      rw [a4]
      exact ⟨by unfold minute_of_day; omega, hts t (List.mem_cons_self _ _)⟩
    obtain ⟨st1, B, b1, b2, b3, b4, b5, b6⟩ := ih sA hcA
      (fun tk htk => hts tk (List.mem_cons_of_mem _ htk))
    have hkeep : ∀ j, (st1.schedules.getD j default).enabled = true →
        st1.schedules.getD j default = sA.schedules.getD j default
        ∧ sA.schedules.getD j default = st0.schedules.getD j default := by
      intro j hen
      rcases b5 j with h | h
      · rcases a5 j with h' | h'
        · exact ⟨h, h'⟩
        · rw [h, h'] at hen; cases hen
      · rw [h] at hen; cases hen
    refine ⟨st1, F ++ B, by rw [run_ticks_cons t ts st0 sA a1]; exact b1,
      by rw [b2, a2, List.append_assoc], by rw [b3, a3], b4, ?_, ?_⟩
    · intro j
      rcases b5 j with h | h
      · rcases a5 j with h' | h'
        · exact Or.inl (h.trans h')
        · right; rw [h]; exact h'
      · exact Or.inr h
    · intro j m pre tk post sa hsplit hrun hsa hj1 hj2 hs hr hen
      obtain ⟨e1, e2⟩ := hkeep j hen
      cases pre with
      | nil =>
        simp only [List.nil_append, List.cons.injEq] at hsplit
        obtain ⟨ht, _⟩ := hsplit
        subst ht
        have hsa0 : sa = st0 := (Option.some.inj hrun).symm
        subst hsa0
        exact List.mem_append_left _ (a6 j m hsa hj1 hj2 hs hr (by rw [← e1]; exact hen))
      | cons p pre' =>
        simp only [List.cons_append, List.cons.injEq] at hsplit
        obtain ⟨hp, hrest⟩ := hsplit
        subst hp
        rw [run_ticks_cons t pre' st0 sA a1] at hrun
        exact List.mem_append_right _ (b6 j m pre' tk post sa hrest hrun hsa hj1
          (by rw [a3]; exact hj2) (by rw [e2]; exact hs) hr hen)

/-- C23 (amended).  The ticks `ts` and then the tick `t` are run from a state `st0`, for
instance the state in which schedule `i` was created; every clock reading is a minute of
the day.  All ticks return.  When schedule `i` is still enabled before the tick `t` and
disabled after it, then it has not changed since `st0`, it has `repeat_daily = false`, its
end minute `e` lies in the range scanned by `t`, and `motor_off`, with its "OFF" history
call, was called for it at `e` exactly once in `t`.  If its start minute lies in the range
scanned by `t` and is not scanned after `e`, then `motor_on`, with its "ON" history call,
was called for it exactly once in `t`, before that `motor_off`.  If its start minute lies
in the range scanned by one of the ticks `ts`, then `motor_on`, with its "ON" history
call, was called for it in the ticks `ts`, before that `motor_off`.  Every motor call of
the model stands for the call and the `add_to_history` call that follows it. -/
theorem one_shot_disabled_at_end (ts : List tick_clock) (t : tick_clock) (st0 : State) (i : Nat)
    (hc : st0.last_checked_minute = -1
      ∨ (0 ≤ st0.last_checked_minute ∧ st0.last_checked_minute < 24 * 60))
    (hts : ∀ tk ∈ ts, minute_of_day tk.timeinfo < 24 * 60) :
    ∃ st1 st2 before fired, run_ticks ts st0 = some st1 ∧ check_schedules t st1 = some st2
      ∧ st1.calls = st0.calls ++ before ∧ st2.calls = st1.calls ++ fired
      ∧ ((st1.schedules.getD i default).enabled = true →
          (st2.schedules.getD i default).enabled = false →
          st1.schedules.getD i default = st0.schedules.getD i default
          ∧ (st0.schedules.getD i default).repeat_daily = false
          ∧ ∃ e, in_scanned_range st1.last_checked_minute (minute_of_day t.timeinfo) e
            ∧ ends_at (st0.schedules.getD i default) e
            ∧ fired.count (motor_call.off e i) = 1
            ∧ (∀ m, starts_at (st0.schedules.getD i default) m →
                in_scanned_range st1.last_checked_minute (minute_of_day t.timeinfo) m →
                scan_position st1.last_checked_minute m
                  ≤ scan_position st1.last_checked_minute e →
                fired.count (motor_call.on m i) = 1
                ∧ List.Sublist [motor_call.on m i, motor_call.off e i] fired)
            ∧ (∀ m, starts_at (st0.schedules.getD i default) m →
                ∀ (pre : List tick_clock) (tk : tick_clock) (post : List tick_clock)
                  (sa : State),
                  ts = pre ++ tk :: post → run_ticks pre st0 = some sa →
                  0 ≤ sa.last_checked_minute →
                  in_scanned_range sa.last_checked_minute (minute_of_day tk.timeinfo) m →
                  motor_call.on m i ∈ before
                  ∧ List.Sublist [motor_call.on m i, motor_call.off e i]
                      (before ++ fired))) := by
  obtain ⟨st1, before, r1, r2, r3, r4, r5, r6⟩ := run_ticks_summary ts st0 hc hts
  obtain ⟨st2, fired, s1, s2, _, _, s5, _⟩ := tick_summary t st1 r4
  refine ⟨st1, st2, before, fired, r1, s1, r2, s2, ?_⟩
  intro hen hdis
  have hsame : st1.schedules.getD i default = st0.schedules.getD i default := by
    rcases r5 i with h | h
    · exact h
    · rw [h] at hen; cases hen
  have hc1 : 0 ≤ st1.last_checked_minute ∧ st1.last_checked_minute < 24 * 60 := by
    rcases r4 with h | h
    · have hb := check_schedules_bootstrap t st1 h
      rw [s1] at hb
      have hst := Option.some.inj hb
      rw [hst] at hdis
      rw [hen] at hdis
      cases hdis
    · exact h
  obtain ⟨st2', fired', d1, d2, d3⟩ := disabling_tick t st1 i hc1 hen
  rw [s1] at d1
  have hst := Option.some.inj d1
  subst hst
  have hf : fired' = fired := List.append_cancel_left (d2.symm.trans s2)
  subst hf
  obtain ⟨e1, e, e2, e3, e4, e5⟩ := d3 hdis
  rw [hsame] at e1 e3 e5
  have hlive : i < MAX_SCHEDULES ∧ (i : Int) < st1.schedule_count := by
    obtain ⟨st3, k1, k2, _⟩ := check_schedules_scan t st1 hc1
    rw [s1] at k1
    have hst := Option.some.inj k1
    rw [← hst] at k2
    rcases scan_schedules_cases st1.schedule_count
      (scanned_minutes ((st1.last_checked_minute + 1) % (24 * 60))
        (gap st1.last_checked_minute (minute_of_day t.timeinfo))) st1.schedules i with h | h
    · rw [k2, h, hen] at hdis
      cases hdis
    · exact ⟨h.2.2.1, h.2.2.2.1⟩
  refine ⟨hsame, e1, e, e2, e3, e4, e5, ?_⟩
  intro m hm pre tk post sa hsplit hrun hsa hr
  have hon := r6 i m pre tk post sa hsplit hrun hsa hlive.1 (by rw [← r3]; exact hlive.2) hm hr
    hen
  refine ⟨hon, ?_⟩
  have hoff : motor_call.off e i ∈ fired' := List.count_pos_iff.1 (by omega)
  exact List.Sublist.append (List.singleton_sublist.2 hon) (List.singleton_sublist.2 hoff)

/-- C23 (amended), applied to the one-shot "Zone1" 06:00-06:30 with the cursor at 05:59,
the tick at 06:05 and then the tick at 06:35: the second tick disables the schedule, one
`motor_off` at 06:30 is called in it, and the `motor_on` at 06:00 was called in the first
tick. -/
theorem one_shot_disabled_at_end_witness :
    ∃ st1 st2 before fired,
      run_ticks [steady (clock 6 5)] (state_at_0559 (zone1 false)) = some st1
      ∧ check_schedules (steady (clock 6 35)) st1 = some st2
      ∧ st1.calls = (state_at_0559 (zone1 false)).calls ++ before
      ∧ st2.calls = st1.calls ++ fired
      ∧ (st1.schedules.getD 0 default).enabled = true
      ∧ (st2.schedules.getD 0 default).enabled = false
      ∧ fired.count (motor_call.off 390 0) = 1
      ∧ motor_call.on 360 0 ∈ before
      ∧ List.Sublist [motor_call.on 360 0, motor_call.off 390 0] (before ++ fired) := by
  obtain ⟨st1, st2, before, fired, h1, h2, h3, h4, h5⟩ :=
    one_shot_disabled_at_end [steady (clock 6 5)] (steady (clock 6 35))
      (state_at_0559 (zone1 false)) 0 (by decide) (by decide)
  have hr : ((run_ticks [steady (clock 6 5)] (state_at_0559 (zone1 false))).map
      (fun s => ((s.schedules.getD 0 default).enabled,
        (check_schedules (steady (clock 6 35)) s).map
          (fun s2 => (s2.schedules.getD 0 default).enabled)))) = some (true, some false) := by
    decide
  rw [h1] at hr
  have hr2 := Option.some.inj hr
  have hen : (st1.schedules.getD 0 default).enabled = true := congrArg Prod.fst hr2
  have hd0 := congrArg Prod.snd hr2
  dsimp only at hd0
  rw [h2] at hd0
  have hdis : (st2.schedules.getD 0 default).enabled = false := Option.some.inj hd0
  obtain ⟨_, _, e, _, he2, he3, _, he5⟩ := h5 hen hdis
  have he : e = 390 := ends_at_unique _ _ _ he2 (by decide)
  subst he
  obtain ⟨k1, k2⟩ := he5 360 (by decide) [] (steady (clock 6 5)) [] _ rfl rfl (by decide)
    (by decide)
  exact ⟨st1, st2, before, fired, h1, h2, h3, h4, hen, hdis, he3, k1, k2⟩

end Firmware
